import Mathlib

/-!
# RulEvolution Tic-Tac-Toe: rule evaluation, move selection and learning

A shallow embedding of the C++ sources
(`Board_TicTacToe.cpp`, `RulEvolutionRules.cpp`, `RulEvolutionPlayer_TicTacToe.cpp`,
`LearningState.h`, `LearningModule.cpp`, `WeightsIO.cpp`, `Game_TicTacToe.cpp`,
the player classes and the super-training mode of `Main_TicTacToe.cpp`)
followed by theorems about them.

Conventions of the embedding:

* `char` is `Char`, `int` is `Int`, `bool` is `Bool`.
* `double` is modelled by exact rational arithmetic (`ℚ`): comparisons,
  sums, products and quotients are the exact ones, rounding, NaN and
  infinities are outside the model.
* A mutating method returns the new object (together with its C++ result).
* Console output (`std::cout`) is not modelled.
* `std::rand()` and the standard input are inputs: `chooseMove` receives the
  value of `(double)std::rand() / RAND_MAX` as its `draw` argument, and the
  players of a match carry the values they consume, indexed by move number.
* A call that may not return (the input loop of a human player, the match
  loop) returns an `Option`, `none` standing for no return.
* `std::map<int, V>` is a list of key/value pairs kept in strictly
  increasing key order, `std::unordered_map<RuleType, V>` is a function
  `RuleType → Option V`.
* The sequential (`#else`) branch of the optional OpenMP code is the one
  embedded.
* The weights file is a list of lines; a line read by `load` is given by the
  outcome of its stream extraction, a number written by `save` by its value
  rounded to three decimals, and whether the stream is `good()` is an input.
-/

namespace RulEvolution

/-! ## Board_TicTacToe -/

/-- The board of `class Board`: `std::array<char, 9> cells`. -/
structure Board where
  cells : Fin 9 → Char

/-- Read of `cells[idx]`; the sources only read indices `0..8`
(an index outside that range reads as `' '` here). -/
def Board.cell (b : Board) (idx : Int) : Char :=
  if h : 0 ≤ idx ∧ idx < 9 then b.cells ⟨idx.toNat, by omega⟩ else ' '

/-- Write of `cells[idx] = player`. -/
def Board.setCell (b : Board) (idx : Int) (player : Char) : Board :=
  ⟨fun j => if (j.val : Int) = idx then player else b.cells j⟩

/-- Embeds `void Board::reset()`: `cells.fill(' ')`. -/
def Board.reset (_b : Board) : Board :=
  ⟨fun _ => ' '⟩

/-- Embeds `bool Board::place(int idx, char player)`; the pair is the board
after the call and the returned flag. -/
def Board.place (b : Board) (idx : Int) (player : Char) : Board × Bool :=
  if idx < 0 ∨ idx ≥ 9 then (b, false)
  else if b.cell idx = ' ' then (b.setCell idx player, true)
  else (b, false)

/-- Embeds `bool Board::isEmpty(int idx) const`. -/
def Board.isEmpty (b : Board) (idx : Int) : Bool :=
  decide (idx ≥ 0) && decide (idx < 9) && (b.cell idx == ' ')

/-- Embeds `bool Board::isFull() const`. -/
def Board.isFull (b : Board) : Bool :=
  (List.finRange 9).all (fun j => b.cells j != ' ')

/-- Embeds `char Board::winner() const`: the three row tests, then the three
column tests, then the two diagonals, each returning at its first hit. -/
def Board.winner (b : Board) : Char :=
  match ([0, 1, 2] : List Int).find? (fun r =>
      (b.cell (3 * r) != ' ') && (b.cell (3 * r) == b.cell (3 * r + 1))
        && (b.cell (3 * r) == b.cell (3 * r + 2))) with
  | some r => b.cell (3 * r)
  | none =>
    match ([0, 1, 2] : List Int).find? (fun c =>
        (b.cell c != ' ') && (b.cell c == b.cell (c + 3))
          && (b.cell c == b.cell (c + 6))) with
    | some c => b.cell c
    | none =>
      if (b.cell 0 != ' ') && (b.cell 0 == b.cell 4) && (b.cell 0 == b.cell 8) then b.cell 0
      else if (b.cell 2 != ' ') && (b.cell 2 == b.cell 4) && (b.cell 2 == b.cell 6) then
        b.cell 2
      else ' '

/-- A board given by the list of its cells in index order (missing cells are
empty); used to write concrete boards. -/
def Board.ofList (l : List Char) : Board :=
  ⟨fun j => l.getD j.val ' '⟩

/-- The values `0, 1, ..., 8` taken by `for (int i = 0; i < 9; ++i)`. -/
def cellIndices : List Int := [0, 1, 2, 3, 4, 5, 6, 7, 8]

/-! ## RuleType and RulEvolutionRules -/

/-- Embeds `enum RuleType`. -/
inductive RuleType where
  | RULE_WIN
  | RULE_BLOCK
  | RULE_CENTER
  | RULE_CORNER
  | RULE_SIDE
  | RULE_PREPARATION
  deriving DecidableEq, Repr

open RuleType

/-- The integer value of an enumerator, `(int)rule`. -/
def RuleType.toInt : RuleType → Int
  | RULE_WIN => 0
  | RULE_BLOCK => 1
  | RULE_CENTER => 2
  | RULE_CORNER => 3
  | RULE_SIDE => 4
  | RULE_PREPARATION => 5

/-- Embeds `struct RuleEvaluation`. -/
structure RuleEvaluation where
  moveIndex : Int
  ruleIndex : RuleType
  score : ℚ
  deriving DecidableEq

/-- Read of `weights[k]` in a `std::vector<double>`; the sources read it
only after the size check. -/
def weightAt (weights : List ℚ) (k : Int) : ℚ :=
  weights.getD k.toNat 0

/-- Embeds `RulEvolutionRules::isWinningMove`. -/
def isWinningMove (board : Board) (idx : Int) (symbol : Char) : Bool :=
  (board.place idx symbol).1.winner == symbol

/-- One line analysis of the preparation rule: the loop over the three cells of
a line, returning the counters `(self, empty)`. -/
def lineAnalysis (board : Board) (playerSymbol : Char) (line : List Int) : Nat × Nat :=
  line.foldl (fun acc idx =>
    if board.isEmpty idx then (acc.1, acc.2 + 1)
    else if board.winner != playerSymbol then (acc.1 + 1, acc.2)
    else acc) (0, 0)

/-- Whether a line analysis increments `potential`:
`self == 1 && empty >= 2`. -/
def lineQualifies (board : Board) (playerSymbol : Char) (line : List Int) : Bool :=
  let sc := lineAnalysis board playerSymbol line
  decide (sc.1 = 1) && decide (sc.2 ≥ 2)

/-- The value of `potential` computed for cell `i` by the preparation rule
(`i` ranges over `0..8`, where `/` and `%` agree with the C++ operators). -/
def potential (board : Board) (playerSymbol : Char) (i : Int) : Nat :=
  let row := i / 3
  let col := i % 3
  let p := 0
  let p := if lineQualifies board playerSymbol [row * 3 + 0, row * 3 + 1, row * 3 + 2]
    then p + 1 else p
  let p := if lineQualifies board playerSymbol [col + 3 * 0, col + 3 * 1, col + 3 * 2]
    then p + 1 else p
  if i % 2 = 0 then
    let p := if lineQualifies board playerSymbol [0, 4, 8] then p + 1 else p
    let p := if lineQualifies board playerSymbol [2, 4, 6] then p + 1 else p
    p
  else p

/-- The body of the loop of `evaluate` for one value of `i`, acting on
`results`. -/
def evaluateCell (board : Board) (playerSymbol opponent : Char) (weights : List ℚ)
    (results : List RuleEvaluation) (i : Int) : List RuleEvaluation :=
  if !board.isEmpty i then results
  else
    let results :=
      if isWinningMove board i opponent then
        results ++ [⟨i, RULE_BLOCK, weightAt weights (RULE_BLOCK.toInt - 1)⟩]
      else results
    let results :=
      if i = 4 then results ++ [⟨i, RULE_CENTER, weightAt weights (RULE_CENTER.toInt - 1)⟩]
      else results
    let results :=
      if i = 0 ∨ i = 2 ∨ i = 6 ∨ i = 8 then
        results ++ [⟨i, RULE_CORNER, weightAt weights (RULE_CORNER.toInt - 1)⟩]
      else results
    let results :=
      if i = 1 ∨ i = 3 ∨ i = 5 ∨ i = 7 then
        results ++ [⟨i, RULE_SIDE, weightAt weights (RULE_SIDE.toInt - 1)⟩]
      else results
    let pot := potential board playerSymbol i
    if pot > 0 then
      results ++ [⟨i, RULE_PREPARATION,
        weightAt weights (RULE_PREPARATION.toInt - 1) * (pot : ℚ)⟩]
    else results

/-- The opponent symbol computed by `evaluate`:
`(playerSymbol == 'X') ? 'O' : 'X'`. -/
def opponentOf (playerSymbol : Char) : Char :=
  if playerSymbol = 'X' then 'O' else 'X'

/-- Embeds `RulEvolutionRules::evaluate`. -/
def evaluate (board : Board) (playerSymbol : Char) (weights : List ℚ) :
    List RuleEvaluation :=
  let opponent := opponentOf playerSymbol
  let expectedRules : Int := 5
  if (weights.length : Int) < expectedRules then []
  else cellIndices.foldl (evaluateCell board playerSymbol opponent weights) []

/-! ## RulEvolutionPlayer -/

/-- Embeds `struct LearningState`. -/
structure LearningState where
  weights : List ℚ

/-- Embeds `class RulEvolutionPlayer` (with the `symbol` of its base class
`Player`). -/
structure RulEvolutionPlayer where
  symbol : Char
  state : LearningState

/-- The statement `m[k] = f(m[k])` on a `std::map<int, V>` whose
`operator[]` inserts the value `d` for an absent key. -/
def mapModify {α : Type} (d : α) (f : α → α) (k : Int) :
    List (Int × α) → List (Int × α)
  | [] => [(k, f d)]
  | kv :: rest =>
    if k < kv.1 then (k, f d) :: kv :: rest
    else if k = kv.1 then (kv.1, f kv.2) :: rest
    else kv :: mapModify d f k rest

/-- The call `m.find(k)` on a `std::map<int, V>`. -/
def mapFind {α : Type} (k : Int) : List (Int × α) → Option α
  | [] => none
  | kv :: rest => if kv.1 = k then some kv.2 else mapFind k rest

/-- The aggregation loop of `chooseMove` over `evals`, building
`(scoreMap, ruleMap)`. -/
def aggregate (evals : List RuleEvaluation) :
    List (Int × ℚ) × List (Int × List RuleType) :=
  evals.foldl (fun maps e =>
    if e.moveIndex < 0 ∨ e.moveIndex ≥ 9 then maps
    else (mapModify 0 (fun s => s + e.score) e.moveIndex maps.1,
          mapModify [] (fun rs => rs ++ [e.ruleIndex]) e.moveIndex maps.2)) ([], [])

/-- The loop computing `totalScore`: the sum of the strictly positive
entries of `scoreMap`. -/
def totalPositive (scoreMap : List (Int × ℚ)) : ℚ :=
  scoreMap.foldl (fun total kv => if kv.2 > 0 then total + kv.2 else total) 0

/-- The selection loop of `chooseMove`: walks `scoreMap` in key order from
the running sum `cumulative` and returns the first key with
`r <= cumulative`, or the initial `chosenMove = -1`. -/
def drawWalk (r : ℚ) : List (Int × ℚ) → ℚ → Int
  | [], _ => -1
  | kv :: rest, cumulative =>
    if r ≤ cumulative + kv.2 then kv.1 else drawWalk r rest (cumulative + kv.2)

/-- The loop `for i in 0..8: if board.isEmpty(i) ...` stopping at the first
empty cell. -/
def firstEmpty (board : Board) : Option Int :=
  cellIndices.find? (fun i => board.isEmpty i)

/-- The loop of the absolute WIN rule: the first `i` in `0..8` that is empty
and for which the copy of the board with `symbol` placed at `i` has
`winner() == symbol`. -/
def winningCell (board : Board) (symbol : Char) : Option Int :=
  cellIndices.find? (fun i => board.isEmpty i && ((board.place i symbol).1.winner == symbol))

/-- Embeds `int RulEvolutionPlayer::chooseMove(const Board&, std::vector<RuleType>&)`;
the pair is the returned index and the final content of `rulesUsed`. -/
def RulEvolutionPlayer.chooseMove (p : RulEvolutionPlayer) (board : Board) (draw : ℚ) :
    Int × List RuleType :=
  match winningCell board p.symbol with
  | some i => (i, [RULE_WIN])
  | none =>
    let evals := evaluate board p.symbol p.state.weights
    if evals.isEmpty then
      match firstEmpty board with
      | some i => (i, [])
      | none => (0, [])
    else
      let maps := aggregate evals
      let scoreMap := maps.1
      let ruleMap := maps.2
      let totalScore := totalPositive scoreMap
      let r := draw * totalScore
      let chosenMove := drawWalk r scoreMap 0
      let chosenMove :=
        if chosenMove < 0 then
          match firstEmpty board with
          | some i => i
          | none => chosenMove
        else chosenMove
      match mapFind chosenMove ruleMap with
      | some rules => (chosenMove, rules)
      | none => (chosenMove, [])

/-! ## Vocabulary of the selection policy

The notions used to state what `chooseMove` selects: they are written from
the description of the policy, not from its code. -/

/-- The aggregate score of cell `c`: the sum of the scores of all
contributions of `evals` for `c`. -/
def cellScore (evals : List RuleEvaluation) (c : Int) : ℚ :=
  ((evals.filter (fun e => decide (e.moveIndex = c))).map (fun e => e.score)).sum

/-- The rule ids of all contributions of `evals` for cell `c`, in the order
of `evals`. -/
def cellRules (evals : List RuleEvaluation) (c : Int) : List RuleType :=
  (evals.filter (fun e => decide (e.moveIndex = c))).map (fun e => e.ruleIndex)

/-- The candidate cells: the cells `0..8`, in increasing order, that have at
least one contribution in `evals`. -/
def candidateCells (evals : List RuleEvaluation) : List Int :=
  cellIndices.filter (fun c => evals.any (fun e => decide (e.moveIndex = c)))

/-- The running sum reached at candidate cell `c` when the candidate cells
are walked in increasing order: the sum of the scores of the candidates
`k ≤ c`. -/
def cumulativeScore (evals : List RuleEvaluation) (c : Int) : ℚ :=
  (((candidateCells evals).filter (fun k => decide (k ≤ c))).map (cellScore evals)).sum

/-- The probability mass: the sum of the strictly positive aggregate
scores. -/
def totalPositiveScore (evals : List RuleEvaluation) : ℚ :=
  (((candidateCells evals).map (cellScore evals)).filter (fun x => decide (0 < x))).sum

/-! ## GameHistory and LearningModule -/

/-- Embeds `struct MoveRecord`. -/
structure MoveRecord where
  move : Int
  rules : List RuleType

/-- Embeds `class GameHistory`. -/
structure GameHistory where
  moves : List MoveRecord
  hasWon : Bool
  totalMoves : Int
  rulevMoves : Int

/-- Embeds `struct RuleStats`. -/
structure RuleStats where
  weight : ℚ
  counter : ℚ
  threshold : ℚ
  deriving DecidableEq

/-- The constructor `RuleStats(double w = 0.5, double t = 5.0)`, which sets
`counter` to `0.0`. -/
def RuleStats.mk0 (w : ℚ) (t : ℚ) : RuleStats :=
  ⟨w, 0, t⟩

/-- The default-constructed `RuleStats()` that `ruleData[rule]` inserts for
an absent key. -/
def RuleStats.default : RuleStats :=
  RuleStats.mk0 (1/2) 5

/-- Embeds `struct TrainingStats`. -/
structure TrainingStats where
  humanVsRulev : Int
  stochasticVsRulev : Int
  rulevVsRulev : Int
  deriving DecidableEq

/-- Embeds `class LearningModule`. -/
structure LearningModule where
  learningRate : ℚ
  ruleData : RuleType → Option RuleStats
  initialWeights : RuleType → Option ℚ
  trainingStats : TrainingStats

/-- All enumerators of `RuleType`; the order stands for the (unspecified)
iteration order of the `std::unordered_map`. -/
def allRules : List RuleType :=
  [RULE_WIN, RULE_BLOCK, RULE_CENTER, RULE_CORNER, RULE_SIDE, RULE_PREPARATION]

/-- The expression `std::max(lo, std::min(hi, x))`. -/
def clampTo (lo hi x : ℚ) : ℚ :=
  max lo (min hi x)

/-- The weights of the entries of a rule table, in iteration order. -/
def weightsOf (ruleData : RuleType → Option RuleStats) : List ℚ :=
  allRules.filterMap (fun r => (ruleData r).map (fun rs => rs.weight))

/-- Embeds `LearningModule::normalizeWeights(double minW, double maxW)`:
the first pass clamps every weight and accumulates `sum`, the second divides
every weight by `sum` when `sum > 0.0`. -/
def LearningModule.normalizeWeights (lm : LearningModule) (minW maxW : ℚ) : LearningModule :=
  let clamped : RuleType → Option RuleStats := fun r =>
    (lm.ruleData r).map (fun rs => { rs with weight := clampTo minW maxW rs.weight })
  let sum : ℚ := (weightsOf clamped).sum
  if sum > 0 then
    { lm with ruleData := fun r =>
        (clamped r).map (fun rs => { rs with weight := rs.weight / sum }) }
  else { lm with ruleData := clamped }

/-- The body of the inner loop of `updateFromGame` for one `rule`, acting on
`ruleData`. -/
def updateRule (learningRate : ℚ) (hasWon : Bool) (ruleData : RuleType → Option RuleStats)
    (rule : RuleType) : RuleType → Option RuleStats :=
  let stats := (ruleData rule).getD RuleStats.default
  let stats := { stats with counter := stats.counter + (if hasWon then 1 else -1) }
  let stats :=
    if stats.counter ≥ stats.threshold then
      { stats with weight := stats.weight + learningRate, counter := 0 }
    else if stats.counter ≤ -stats.threshold then
      { stats with weight := stats.weight - learningRate, counter := 0 }
    else stats
  let stats := { stats with weight := max 0 (min 1 stats.weight) }
  Function.update ruleData rule (some stats)

/-- The two nested loops of `updateFromGame` over `history.moves` and the
`rules` of each record. -/
def updateLoop (learningRate : ℚ) (hasWon : Bool) (moves : List MoveRecord)
    (ruleData : RuleType → Option RuleStats) : RuleType → Option RuleStats :=
  moves.foldl (fun rd moveRecord =>
    moveRecord.rules.foldl (updateRule learningRate hasWon) rd) ruleData

/-- Embeds `LearningModule::updateFromGame(const GameHistory&, bool hasWon)`;
the closing `normalizeWeights()` call uses the default bounds `0.0, 1.0`. -/
def LearningModule.updateFromGame (lm : LearningModule) (history : GameHistory)
    (hasWon : Bool) : LearningModule :=
  let lm := { lm with ruleData := updateLoop lm.learningRate hasWon history.moves lm.ruleData }
  lm.normalizeWeights 0 1

/-- Embeds `LearningModule::getWeights() const`. -/
def LearningModule.getWeights (lm : LearningModule) : RuleType → Option ℚ :=
  fun r => (lm.ruleData r).map (fun rs => rs.weight)

/-- Embeds `bool LearningModule::setWeight(RuleType rule, double newWeight)`;
the pair is the engine after the call and the returned flag. -/
def LearningModule.setWeight (lm : LearningModule) (rule : RuleType) (newWeight : ℚ) :
    LearningModule × Bool :=
  match lm.ruleData rule with
  | none =>
    let created := RuleStats.mk0 newWeight 5
    ({ lm with ruleData := Function.update lm.ruleData rule (some created) }, true)
  | some rs =>
    let changed := { rs with weight := max 0 (min 1 newWeight) }
    ({ lm with ruleData := Function.update lm.ruleData rule (some changed) }, true)

/-- Embeds `void LearningModule::incrementTrainingCount(const std::string&)`. -/
def LearningModule.incrementTrainingCount (lm : LearningModule) (gameType : String) :
    LearningModule :=
  if gameType = "HumanVsRulev" then
    { lm with trainingStats :=
        { lm.trainingStats with humanVsRulev := lm.trainingStats.humanVsRulev + 1 } }
  else if gameType = "StochasticVsRulev" then
    { lm with trainingStats :=
        { lm.trainingStats with stochasticVsRulev := lm.trainingStats.stochasticVsRulev + 1 } }
  else if gameType = "RulevVsRulev" then
    { lm with trainingStats :=
        { lm.trainingStats with rulevVsRulev := lm.trainingStats.rulevVsRulev + 1 } }
  else lm

/-- The constructor `GameHistory()`. -/
def GameHistory.new : GameHistory :=
  ⟨[], false, 0, 0⟩

/-- Embeds `void GameHistory::addMove(int move, const std::vector<RuleType>& rules)`. -/
def GameHistory.addMove (h : GameHistory) (move : Int) (rules : List RuleType) : GameHistory :=
  { h with
    moves := h.moves ++ [⟨move, rules⟩]
    totalMoves := h.totalMoves + 1
    rulevMoves := if !rules.isEmpty then h.rulevMoves + 1 else h.rulevMoves }

/-- Embeds `void GameHistory::clear()`. -/
def GameHistory.clear (_h : GameHistory) : GameHistory :=
  ⟨[], false, 0, 0⟩

/-! ## Players and Game -/

/-- The constructor `RulEvolutionPlayer(char s, const LearningState& initState)`:
empty weights are replaced by five weights `0.5`. -/
def RulEvolutionPlayer.new (s : Char) (initState : LearningState) : RulEvolutionPlayer :=
  if initState.weights.isEmpty then ⟨s, ⟨List.replicate 5 (1/2)⟩⟩ else ⟨s, initState⟩

/-- Embeds `int StochasticPlayer::chooseMove(const Board&)`; `rand` is the value
returned by `std::rand()`. -/
def stochasticChooseMove (board : Board) (rand : Nat) : Int :=
  let available := cellIndices.filter (fun i => board.isEmpty i)
  if available.isEmpty then 0
  else available.getD (rand % available.length) 0

/-- Embeds `int HumanPlayer::chooseMove(const Board&)`; `typed` is the sequence
of integers read from the input, the loop returns the first one that is an
empty cell and does not return when there is none. -/
def humanChooseMove (board : Board) (typed : List Int) : Option Int :=
  typed.find? (fun idx => board.isEmpty idx)

/-- The players behind a `Player*`: the three subclasses of the sources and any
further subclass of the abstract `class Player`. Each carries the external
inputs consumed by its `chooseMove`, indexed by the move number of the match:
the integers typed, the value of `std::rand()`, the value of
`(double)std::rand() / RAND_MAX`, or the returned index itself. -/
inductive Player where
  | human (symbol : Char) (typed : Nat → List Int)
  | stochastic (symbol : Char) (rand : Nat → Nat)
  | rulEvolution (player : RulEvolutionPlayer) (draw : Nat → ℚ)
  | other (symbol : Char) (choose : Nat → Board → Int)

/-- Whether `dynamic_cast<RulEvolutionPlayer*>` succeeds. -/
def Player.isRulEvolution : Player → Bool
  | Player.rulEvolution _ _ => true
  | _ => false

/-- The move request of `Game::play` at move number `n`: a `RulEvolutionPlayer`
is asked through `chooseMove(board, rulesUsed)`, any other player through
`chooseMove(board)` with `rulesUsed` left empty. -/
def Player.requestMove (pl : Player) (n : Nat) (board : Board) :
    Option (Int × List RuleType) :=
  match pl with
  | Player.human _ typed => (humanChooseMove board (typed n)).map (fun idx => (idx, []))
  | Player.stochastic _ rand => some (stochasticChooseMove board (rand n), [])
  | Player.rulEvolution player draw => some (player.chooseMove board (draw n))
  | Player.other _ choose => some (choose n board, [])

/-- Embeds `class Game`. -/
structure Game where
  board : Board
  playerX : Player
  playerO : Player
  currentTurn : Char
  gameHistory : GameHistory

/-- The constructor `Game::Game(Player* pX, Player* pO)`. -/
def Game.new (pX pO : Player) : Game :=
  ⟨⟨fun _ => ' '⟩, pX, pO, 'X', GameHistory.new⟩

/-- The `while (true)` loop of `Game::play`, with `moveCount` the number of
moves already made. The result is the returned symbol and the game object at
that point; `none` stands for a call that does not return (a human player who
never types a valid move) and for exhausted fuel. -/
def Game.playLoop : Nat → Game → Nat → Option (Char × Game)
  | 0, _, _ => none
  | fuel + 1, g, moveCount =>
    let player := if g.currentTurn = 'X' then g.playerX else g.playerO
    match player.requestMove moveCount g.board with
    | none => none
    | some (move, rulesUsed) =>
      let placed := g.board.place move g.currentTurn
      if !placed.2 then
        some (if g.currentTurn = 'X' then 'O' else 'X', { g with board := placed.1 })
      else
        let g := { g with
          board := placed.1
          gameHistory := g.gameHistory.addMove move rulesUsed }
        let winner := g.board.winner
        if winner ≠ ' ' then some (winner, g)
        else if g.board.isFull then some (' ', g)
        else
          Game.playLoop fuel
            { g with currentTurn := if g.currentTurn = 'X' then 'O' else 'X' } (moveCount + 1)

/-- Embeds `char Game::play(bool verbose)`; `startRand` is the value of
`std::rand()` that draws the starting side. Nine iterations are enough: every
iteration that continues has filled one more cell of the reset board. -/
def Game.play (g : Game) (startRand : Nat) : Option (Char × Game) :=
  let g := { g with
    board := g.board.reset
    currentTurn := if startRand % 2 = 0 then 'X' else 'O'
    gameHistory := g.gameHistory.clear }
  Game.playLoop 9 g 0

/-- Embeds `char Game::playAndLearn(GameHistory& history, bool verbose)` acting
on the global `learner`; the result is the returned symbol, the game object,
the global `learner` and `history` after the call. -/
def Game.playAndLearn (g : Game) (learner : LearningModule) (startRand : Nat) :
    Option (Char × Game × LearningModule × GameHistory) :=
  match g.play startRand with
  | none => none
  | some (winner, g) =>
    let isDraw := winner == ' '
    let rulevWon :=
      if !isDraw then
        if g.playerX.isRulEvolution && winner == 'X' then true
        else if g.playerO.isRulEvolution && winner == 'O' then true
        else false
      else false
    let rulevLost :=
      if !isDraw then
        if g.playerX.isRulEvolution && winner == 'X' then false
        else if g.playerO.isRulEvolution && winner == 'O' then false
        else if g.playerX.isRulEvolution && winner == 'O' then true
        else if g.playerO.isRulEvolution && winner == 'X' then true
        else false
      else false
    if isDraw then some (winner, g, learner, g.gameHistory)
    else
      let learner :=
        if rulevWon then learner.updateFromGame g.gameHistory true
        else if rulevLost then learner.updateFromGame g.gameHistory false
        else learner
      some (winner, g, learner, g.gameHistory)

/-! ## Main: the super-training batch -/

/-- The external inputs of one iteration of the match loop of `main`: the
players `pX` and `pO` with the inputs they consume during that match, and the
value of `std::rand()` that draws the starting side. -/
structure MatchInput where
  playerX : Player
  playerO : Player
  startRand : Nat

/-- The match loop of the super-training mode (sequential build), for the
remaining matches: each iteration plays `Game g(pX, pO)` through
`playAndLearn`, which acts on the global `learner`, computes
`rulevWon = (winner == 'X' || winner == 'O')` and updates `learners[i]`, a copy
of `baseline` (the global `learner` when the vector `learners` was built). The
result is the global `learner` and the vector `learners` after the loop. -/
def trainingLoop (baseline : LearningModule) :
    List MatchInput → LearningModule → Option (LearningModule × List LearningModule)
  | [], learner => some (learner, [])
  | m :: rest, learner =>
    match (Game.new m.playerX m.playerO).playAndLearn learner m.startRand with
    | none => none
    | some (winner, _, learner, history) =>
      let rulevWon := (winner == 'X') || (winner == 'O')
      let updated := baseline.updateFromGame history rulevWon
      match trainingLoop baseline rest learner with
      | none => none
      | some (learner, learners) => some (learner, updated :: learners)

/-- The statement `globalWeights[it->first] += it->second` for every entry of
`localWeights`; `operator[]` inserts `0.0` for an absent key. -/
def addWeights (globalWeights localWeights : RuleType → Option ℚ) : RuleType → Option ℚ :=
  fun r =>
    match localWeights r with
    | none => globalWeights r
    | some w => some ((globalWeights r).getD 0 + w)

/-- The merge step of the super-training mode: `globalWeights` starts from the
weights of the global `learner`, receives the weights of every `learners[i]`,
and every entry divided by `learners.size()` is written back with
`setWeight`. -/
def mergeStep (learner : LearningModule) (learners : List LearningModule) : LearningModule :=
  let globalWeights :=
    learners.foldl (fun gw l => addWeights gw l.getWeights) learner.getWeights
  allRules.foldl (fun lm rule =>
    match globalWeights rule with
    | none => lm
    | some total => (lm.setWeight rule (total / (learners.length : ℚ))).1) learner

/-- The super-training mode of `main` from the construction of `learners` to
the update of the training statistics; `scenario` is the scenario number
typed by the user and `inputs` has `numMatches` entries. -/
def superTraining (learner : LearningModule) (scenario : Int) (inputs : List MatchInput) :
    Option LearningModule :=
  match trainingLoop learner inputs learner with
  | none => none
  | some (learner, learners) =>
    let learner := mergeStep learner learners
    some (inputs.foldl (fun lm _ =>
      if scenario = 1 then lm.incrementTrainingCount ("StochasticVsRulev")
      else lm.incrementTrainingCount ("RulevVsRulev")) learner)

/-! ## LearningModule utilities and WeightsIO -/

/-- Embeds `void LearningModule::resetCounters()`. -/
def LearningModule.resetCounters (lm : LearningModule) : LearningModule :=
  { lm with ruleData := fun r => (lm.ruleData r).map (fun rs => { rs with counter := 0 }) }

/-- Embeds `void LearningModule::setRuleParameters(RuleType, double, double)`. -/
def LearningModule.setRuleParameters (lm : LearningModule) (rule : RuleType)
    (initialWeight threshold : ℚ) : LearningModule :=
  { lm with
    ruleData := Function.update lm.ruleData rule (some (RuleStats.mk0 initialWeight threshold)) }

/-- A line of the weights file after the stream extraction of `WeightsIO::load`:
an empty line, a line starting with `#`, a line from which
`iss >> id >> w` extracts an integer and a number, or any other line. -/
inductive FileLine where
  | blank
  | comment (text : String)
  | data (id : Int) (value : ℚ)
  | unparsable (text : String)
  deriving DecidableEq

/-- The number printed by `std::fixed << std::setprecision(3)`: the multiple of
`0.001` nearest to `x`, a tie going to the even last digit. -/
def fixed3 (x : ℚ) : ℚ :=
  let scaled := x * 1000
  let low : Int := ⌊scaled⌋
  let rest := scaled - (low : ℚ)
  let digits : Int :=
    if rest < 1/2 then low
    else if 1/2 < rest then low + 1
    else if low % 2 = 0 then low else low + 1
  (digits : ℚ) / 1000

/-- The lambda `emit` of `WeightsIO::save`: one data line when `rule` is a key of
`weights`, nothing otherwise. -/
def WeightsIO.emit (weights : RuleType → Option ℚ) (rule : RuleType) : List FileLine :=
  match weights rule with
  | some w => [FileLine.data rule.toInt (fixed3 w)]
  | none => []

/-- Embeds `void WeightsIO::save(const LearningModule&, const std::string&)`:
the lines written to the file, `none` when the stream is not `good()` and
nothing is written; `stamp` is the text returned by `nowStamp()`. -/
def WeightsIO.save (learner : LearningModule) (good : Bool) (stamp : String) :
    Option (List FileLine) :=
  let weights := learner.getWeights
  if !good then none
  else
    some ([FileLine.comment ("# RulEvolution TicTacToe Weights v1"),
        FileLine.comment ("# Saved: " ++ stamp),
        FileLine.comment ("# Format: <rule_id> <weight>"),
        FileLine.comment ("# RULE_WIN (0) is absolute and not saved")] ++
      WeightsIO.emit weights RULE_BLOCK ++
      WeightsIO.emit weights RULE_PREPARATION ++
      WeightsIO.emit weights RULE_CENTER ++
      WeightsIO.emit weights RULE_CORNER ++
      WeightsIO.emit weights RULE_SIDE)

/-! ## LearningState, WeightsIO::load and the selection on a given list -/

/-- Embeds `void LearningState::normalize()`; `std::accumulate` adds the
weights from the left, starting from `0.0`. -/
def LearningState.normalize (s : LearningState) : LearningState :=
  let sum := s.weights.foldl (fun acc w => acc + w) 0
  if sum > 0 then { s with weights := s.weights.map (fun w => w / sum) } else s

/-- Embeds `void LearningState::update(const std::vector<double>& newWeights)`;
the size test only prints a warning. -/
def LearningState.update (s : LearningState) (newWeights : List ℚ) : LearningState :=
  let s := { s with weights := newWeights }
  s.normalize

/-- Embeds `WeightsIO::isValidRuleId(int id)`. -/
def WeightsIO.isValidRuleId (id : Int) : Bool :=
  id == RULE_BLOCK.toInt || id == RULE_PREPARATION.toInt || id == RULE_CENTER.toInt ||
    id == RULE_CORNER.toInt || id == RULE_SIDE.toInt

/-- The cast `static_cast<RuleType>(id)`. `load` evaluates it only for an `id`
accepted by `isValidRuleId`; an `id` that names no enumerator is sent to
`RULE_WIN` here. -/
def RuleType.ofInt (id : Int) : RuleType :=
  if id = 1 then RULE_BLOCK
  else if id = 2 then RULE_CENTER
  else if id = 3 then RULE_CORNER
  else if id = 4 then RULE_SIDE
  else if id = 5 then RULE_PREPARATION
  else RULE_WIN

/-- The body of the `while (std::getline(in, line))` loop of `WeightsIO::load`
for one line, acting on the engine and on the count `loaded`. -/
def WeightsIO.loadLine (st : LearningModule × Int) (line : FileLine) : LearningModule × Int :=
  match line with
  | FileLine.blank => st
  | FileLine.comment _ => st
  | FileLine.unparsable _ => st
  | FileLine.data id w =>
    if ! WeightsIO.isValidRuleId id then st
    else ((st.1.setWeight (RuleType.ofInt id) (max 0 (min 1 w))).1, st.2 + 1)

/-- Embeds `bool WeightsIO::load(LearningModule&, const std::string&)` on the
lines of the file; `good` is the value of `in.good()` after opening it. The
pair is the engine after the call and the returned flag. -/
def WeightsIO.load (learner : LearningModule) (good : Bool) (file : List FileLine) :
    LearningModule × Bool :=
  if !good then (learner, false)
  else
    let st := file.foldl WeightsIO.loadLine (learner, 0)
    (st.1, decide (st.2 > 0))

/-- Embeds `RulEvolutionPlayer::chooseMove` with the value of
`auto evals = RulEvolutionRules::evaluate(board, symbol, state.weights)` given
as the argument `evals`: the same statements as `chooseMove`, run on a list of
contributions in any order. -/
def RulEvolutionPlayer.chooseMoveWith (p : RulEvolutionPlayer) (board : Board)
    (evals : List RuleEvaluation) (draw : ℚ) : Int × List RuleType :=
  match winningCell board p.symbol with
  | some i => (i, [RULE_WIN])
  | none =>
    if evals.isEmpty then
      match firstEmpty board with
      | some i => (i, [])
      | none => (0, [])
    else
      let maps := aggregate evals
      let scoreMap := maps.1
      let ruleMap := maps.2
      let totalScore := totalPositive scoreMap
      let r := draw * totalScore
      let chosenMove := drawWalk r scoreMap 0
      let chosenMove :=
        if chosenMove < 0 then
          match firstEmpty board with
          | some i => i
          | none => chosenMove
        else chosenMove
      match mapFind chosenMove ruleMap with
      | some rules => (chosenMove, rules)
      | none => (chosenMove, [])

/-! ## Reference descriptions

Definitions written from the description of the behaviour (not from the
code), against which the embedded code is compared. -/

/-- Reference step on one rule entry: add `+1` (win) or `-1` to the
counter; when the counter has reached the threshold add the learning rate and
reset the counter, when it has reached minus the threshold subtract it and
reset the counter; clamp the weight into `[0, 1]`. -/
def refStep (learningRate : ℚ) (hasWon : Bool) (rs : RuleStats) : RuleStats :=
  let counter := rs.counter + (if hasWon then 1 else -1)
  if rs.threshold ≤ counter then ⟨clampTo 0 1 (rs.weight + learningRate), 0, rs.threshold⟩
  else if counter ≤ -rs.threshold then ⟨clampTo 0 1 (rs.weight - learningRate), 0, rs.threshold⟩
  else ⟨clampTo 0 1 rs.weight, counter, rs.threshold⟩

/-- Reference pass over the visited rules, in order; an absent rule starts
from the default entry (weight `0.5`, counter `0`, threshold `5.0`). -/
def refVisit (learningRate : ℚ) (hasWon : Bool) :
    List RuleType → (RuleType → Option RuleStats) → (RuleType → Option RuleStats)
  | [], table => table
  | rule :: rest, table =>
    refVisit learningRate hasWon rest (fun q =>
      if q = rule then
        some (refStep learningRate hasWon (match table rule with
          | some rs => rs
          | none => ⟨1/2, 0, 5⟩))
      else table q)

/-- Reference for `updateFromGame`: the rules are visited record by record
in trace order and, within a record, in list order; `normalizeWeights(0, 1)` is
applied once after the last record. -/
def updateFromGameRef (lm : LearningModule) (history : GameHistory) (hasWon : Bool) :
    LearningModule :=
  let visited := history.moves.flatMap (fun moveRecord => moveRecord.rules)
  let table := refVisit lm.learningRate hasWon visited lm.ruleData
  LearningModule.normalizeWeights { lm with ruleData := table } 0 1

/-- Reference line test of the preparation rule: the line holds exactly one
mark of the acting side and at least two empty cells. -/
def ownLineQualifies (board : Board) (playerSymbol : Char) (line : List Int) : Bool :=
  decide (line.countP (fun idx => board.cell idx == playerSymbol) = 1) &&
    decide (line.countP (fun idx => board.cell idx == ' ') ≥ 2)

/-- Reference `potential` of the preparation rule for cell `i`: the number of
qualifying lines among the row of `i`, the column of `i` and, when `i` lies on
a diagonal, both diagonals. -/
def ownPotential (board : Board) (playerSymbol : Char) (i : Int) : Nat :=
  (([[i / 3 * 3, i / 3 * 3 + 1, i / 3 * 3 + 2], [i % 3, i % 3 + 3, i % 3 + 6]] ++
    (if i % 2 = 0 then [[0, 4, 8], [2, 4, 6]] else [])).countP
      (ownLineQualifies board playerSymbol))

/-- The number of visits of `rule` in a trace: its occurrences as a supporting
rule over all move records. -/
def supportCount (rule : RuleType) (moves : List MoveRecord) : Nat :=
  (moves.flatMap (fun moveRecord => moveRecord.rules)).count rule

/-- The sum of the weights of a rule table after clamping each into
`[lo, hi]`: the value of `sum` at the end of the first pass of
`normalizeWeights`. -/
def clampedSum (lo hi : ℚ) (ruleData : RuleType → Option RuleStats) : ℚ :=
  ((weightsOf ruleData).map (clampTo lo hi)).sum

/-- A call on the learning engine, for stating what holds after any sequence
of calls. -/
inductive EngineCall where
  | updateFromGame (history : GameHistory) (hasWon : Bool)
  | setWeight (rule : RuleType) (newWeight : ℚ)
  | resetCounters
  | normalizeWeights (minW maxW : ℚ)

/-- The engine after one call. -/
def EngineCall.run (lm : LearningModule) : EngineCall → LearningModule
  | EngineCall.updateFromGame history hasWon => lm.updateFromGame history hasWon
  | EngineCall.setWeight rule newWeight => (lm.setWeight rule newWeight).1
  | EngineCall.resetCounters => lm.resetCounters
  | EngineCall.normalizeWeights minW maxW => lm.normalizeWeights minW maxW

/-- The eight lines of the grid: three rows, three columns, two diagonals. -/
def winningLines : List (Int × Int × Int) :=
  [(0, 1, 2), (3, 4, 5), (6, 7, 8), (0, 3, 6), (1, 4, 7), (2, 5, 8), (0, 4, 8), (2, 4, 6)]

/-- The three cells of `line` are occupied by the same non-empty symbol `s`. -/
def lineComplete (board : Board) (line : Int × Int × Int) (s : Char) : Prop :=
  s ≠ ' ' ∧ board.cell line.1 = s ∧ board.cell line.2.1 = s ∧ board.cell line.2.2 = s

/-- The data lines of a file, as pairs of rule id and printed value. -/
def dataLines (file : List FileLine) : List (Int × ℚ) :=
  file.filterMap (fun line =>
    match line with
    | FileLine.data id value => some (id, value)
    | _ => none)

/-- The value of the last data line of `file` whose id is the id of `rule`,
if there is one. -/
def lastValue (rule : RuleType) (file : List FileLine) : Option ℚ :=
  (((dataLines file).filter (fun line => decide (line.1 = rule.toInt))).getLast?).map
    (fun line => line.2)

/-! ## Concrete inputs -/

/-- The board `X _ _ / O O _ / _ _ X`. -/
def boardScenario : Board :=
  Board.ofList ['X', ' ', ' ', 'O', 'O', ' ', ' ', ' ', 'X']

/-- The empty board. -/
def boardEmpty : Board :=
  Board.ofList []

/-- A player `O` with five weights `0.5`. -/
def playerO : RulEvolutionPlayer :=
  ⟨'O', ⟨[1/2, 1/2, 1/2, 1/2, 1/2]⟩⟩

/-- The board `O _ _ / _ _ _ / _ _ _`. -/
def boardOpponentCorner : Board :=
  Board.ofList ['O']

/-- Five weights `0.2`. -/
def weightsFifth : List ℚ :=
  [1/5, 1/5, 1/5, 1/5, 1/5]

/-- The engine configured by `main`: learning rate `0.02` and the five
adaptive rules with threshold `5.0`. -/
def learnerMain : LearningModule :=
  { learningRate := 1/50
    ruleData := fun r =>
      match r with
      | RULE_WIN => none
      | RULE_BLOCK => some (RuleStats.mk0 (139/500) 5)
      | RULE_PREPARATION => some (RuleStats.mk0 (111/500) 5)
      | RULE_CENTER => some (RuleStats.mk0 (111/500) 5)
      | RULE_CORNER => some (RuleStats.mk0 (167/1000) 5)
      | RULE_SIDE => some (RuleStats.mk0 (111/1000) 5)
    initialWeights := fun _ => none
    trainingStats := ⟨0, 0, 0⟩ }

/-- An engine holding the single rule `RULE_BLOCK` with weight `w`. -/
def learnerBlockOnly (w : ℚ) : LearningModule :=
  { learningRate := 1/50
    ruleData := fun r =>
      match r with
      | RULE_BLOCK => some (RuleStats.mk0 w 5)
      | _ => none
    initialWeights := fun _ => none
    trainingStats := ⟨0, 0, 0⟩ }

/-- An engine holding `RULE_BLOCK` with weight `0.5` and `RULE_CENTER` with
weight `-1`. -/
def learnerNegative : LearningModule :=
  { learningRate := 1/50
    ruleData := fun r =>
      match r with
      | RULE_BLOCK => some (RuleStats.mk0 (1/2) 5)
      | RULE_CENTER => some (RuleStats.mk0 (-1) 5)
      | _ => none
    initialWeights := fun _ => none
    trainingStats := ⟨0, 0, 0⟩ }

/-- An engine holding `RULE_BLOCK` with weight `0` and `RULE_CENTER` with
weight `0.5`. -/
def learnerBlockZero : LearningModule :=
  { learningRate := 1/50
    ruleData := fun r =>
      match r with
      | RULE_BLOCK => some (RuleStats.mk0 0 5)
      | RULE_CENTER => some (RuleStats.mk0 (1/2) 5)
      | _ => none
    initialWeights := fun _ => none
    trainingStats := ⟨0, 0, 0⟩ }

/-- A trace of `n` moves each supported by the single rule `rule`. -/
def traceOf (rule : RuleType) (n : Nat) : List MoveRecord :=
  List.replicate n ⟨0, [rule]⟩

/-- A won history with the given move records. -/
def historyOf (moves : List MoveRecord) : GameHistory :=
  ⟨moves, true, moves.length, moves.length⟩

/-- The full board `X O X / X O O / O X X`, on which nobody has won. -/
def boardFull : Board :=
  Board.ofList ['X', 'O', 'X', 'X', 'O', 'O', 'O', 'X', 'X']

/-- A player `O` with only two weights. -/
def playerShort : RulEvolutionPlayer :=
  ⟨'O', ⟨[1/2, 1/2]⟩⟩

/-- A player `O` whose Corner weight is `0`, the other weights being `0.5`. -/
def playerZeroCorner : RulEvolutionPlayer :=
  ⟨'O', ⟨[1/2, 1/2, 0, 1/2, 1/2]⟩⟩

/-- A player `O` whose Corner weight is `-0.5`, the other weights being `0.5`. -/
def playerNegativeCorner : RulEvolutionPlayer :=
  ⟨'O', ⟨[1/2, 1/2, -1/2, 1/2, 1/2]⟩⟩

/-- A player `O` whose five weights are `0`. -/
def playerZero : RulEvolutionPlayer :=
  ⟨'O', ⟨[0, 0, 0, 0, 0]⟩⟩

/-- A match of scenario 1 (`StochasticPlayer('X')` against
`RulEvolutionPlayer('O')`) that ends in a draw: `std::rand()` returns `1` at
every move of `X` and `19660` (with `RAND_MAX = 32767`) at every move of `O`,
and `X` starts. -/
def matchDraw : MatchInput :=
  ⟨Player.stochastic 'X' (fun _ => 1),
    Player.rulEvolution (RulEvolutionPlayer.new 'O' ⟨[]⟩) (fun _ => 19660/32767), 0⟩

/-- A match of scenario 1 won by the stochastic player `X`: `std::rand()` returns
`0` at every move of `X` and `19660` (with `RAND_MAX = 32767`) at every move of
`O`, and `X` starts. -/
def matchStochasticWins : MatchInput :=
  ⟨Player.stochastic 'X' (fun _ => 0),
    Player.rulEvolution (RulEvolutionPlayer.new 'O' ⟨[]⟩) (fun _ => 19660/32767), 0⟩

/-- A match of scenario 1 won by the RulEvolution player `O`: `std::rand()`
returns `0` at every move of `X` and `6553` (with `RAND_MAX = 32767`) at every
move of `O`, and `X` starts. -/
def matchRulevWins : MatchInput :=
  ⟨Player.stochastic 'X' (fun _ => 0),
    Player.rulEvolution (RulEvolutionPlayer.new 'O' ⟨[]⟩) (fun _ => 6553/32767), 0⟩

/-- An engine without any rule, as after `LearningModule learner(0.02)`. -/
def learnerFresh : LearningModule :=
  { learningRate := 1/50
    ruleData := fun _ => none
    initialWeights := fun _ => none
    trainingStats := ⟨0, 0, 0⟩ }

/-- A game in which `X` is to move on the empty board and answers `9`. -/
def gameOutOfRange : Game :=
  Game.new (Player.other 'X' (fun _ _ => 9)) (Player.other 'O' (fun _ _ => 0))

/-- A game in which both players answer `0` at every move. -/
def gameOccupied : Game :=
  Game.new (Player.other 'X' (fun _ _ => 0)) (Player.other 'O' (fun _ _ => 0))

/-- The engine configured by `main`, after
`setRuleParameters(RULE_BLOCK, 1.5, 5.0)`. -/
def learnerWide : LearningModule :=
  learnerMain.setRuleParameters RULE_BLOCK (3/2) 5

/-- A weights file with a comment, an empty line, a line without numbers, lines
with the ids `0` and `9`, two lines for Block and one line for Corner. -/
def fileMixed : List FileLine :=
  [FileLine.comment ("# weights"), FileLine.blank, FileLine.unparsable ("abc"),
    FileLine.data 0 (9/10), FileLine.data 9 (1/2), FileLine.data 1 (7/10),
    FileLine.data 3 (-1/5), FileLine.data 1 (3/2)]

/-- A file without any usable line. -/
def fileUnusable : List FileLine :=
  [FileLine.comment ("# weights"), FileLine.blank, FileLine.unparsable ("abc"),
    FileLine.data 0 (9/10), FileLine.data 9 (1/2)]

/-- A trace of eight move records in which Block supports six moves and Side
five. -/
def traceMixed : List MoveRecord :=
  [⟨4, [RULE_BLOCK]⟩, ⟨0, [RULE_BLOCK, RULE_SIDE]⟩, ⟨8, [RULE_BLOCK]⟩, ⟨2, [RULE_SIDE]⟩,
    ⟨6, [RULE_BLOCK, RULE_SIDE]⟩, ⟨1, [RULE_SIDE, RULE_BLOCK]⟩, ⟨3, [RULE_BLOCK]⟩,
    ⟨5, [RULE_SIDE]⟩]

/-! ## Theorems -/

/-! ### The absolute WIN rule -/

theorem mem_cellIndices (i : Int) : i ∈ cellIndices ↔ 0 ≤ i ∧ i < 9 := by
  simp only [cellIndices, List.mem_cons, List.mem_singleton, List.not_mem_nil, or_false]
  omega

theorem cellIndices_sorted : cellIndices.Pairwise (· < ·) := by
  decide

theorem isEmpty_range {b : Board} {i : Int} (h : b.isEmpty i = true) : 0 ≤ i ∧ i < 9 := by
  simp only [Board.isEmpty, Bool.and_eq_true, decide_eq_true_eq] at h
  exact ⟨h.1.1, h.1.2⟩

theorem isEmpty_mem {b : Board} {i : Int} (h : b.isEmpty i = true) : i ∈ cellIndices :=
  (mem_cellIndices i).2 (isEmpty_range h)

theorem find?_sorted_some {p : Int → Bool} :
    ∀ {l : List Int}, l.Pairwise (· < ·) → ∀ {c : Int}, l.find? p = some c →
      p c = true ∧ c ∈ l ∧ ∀ j ∈ l, p j = true → c ≤ j
  | [], _, c, h => by simp at h
  | a :: l, hs, c, h => by
    rw [List.pairwise_cons] at hs
    by_cases hp : p a = true
    · rw [List.find?_cons_of_pos _ hp] at h
      cases h
      refine ⟨hp, List.mem_cons_self _ _, ?_⟩
      intro j hj _
      rcases List.mem_cons.1 hj with rfl | hj
      · exact le_refl _
      · exact le_of_lt (hs.1 j hj)
    · rw [List.find?_cons_of_neg _ hp] at h
      obtain ⟨h1, h2, h3⟩ := find?_sorted_some hs.2 h
      refine ⟨h1, List.mem_cons_of_mem _ h2, ?_⟩
      intro j hj hpj
      rcases List.mem_cons.1 hj with rfl | hj
      · exact absurd hpj hp
      · exact h3 j hj hpj

theorem winningCell_some {board : Board} {symbol : Char}
    (h : ∃ i : Int, board.isEmpty i = true ∧ (board.place i symbol).1.winner = symbol) :
    ∃ c, winningCell board symbol = some c := by
  obtain ⟨i, hi, hw⟩ := h
  cases hc : winningCell board symbol with
  | some c => exact ⟨c, rfl⟩
  | none =>
    rw [winningCell, List.find?_eq_none] at hc
    have := hc i (isEmpty_mem hi)
    simp [hi, hw] at this

theorem winningCell_least {board : Board} {symbol : Char} {c : Int}
    (h : winningCell board symbol = some c) :
    IsLeast {i : Int | board.isEmpty i = true ∧ (board.place i symbol).1.winner = symbol} c := by
  obtain ⟨h1, _, h3⟩ := find?_sorted_some cellIndices_sorted h
  simp only [Bool.and_eq_true, beq_iff_eq] at h1
  refine ⟨h1, ?_⟩
  intro j hj
  exact h3 j (isEmpty_mem hj.1) (by simp [hj.1, hj.2])

/-- C1 (win override): when some empty cell makes `winner()` return the acting
side once its mark is placed there, `chooseMove` returns the smallest-indexed
such cell, the supporting heuristics are exactly `[RULE_WIN]`, and a player
of the same side with any other weight vector and any other draw returns the
same result. -/
theorem chooseMove_win_override (p : RulEvolutionPlayer) (board : Board) (draw : ℚ)
    (h : ∃ i : Int, board.isEmpty i = true ∧ (board.place i p.symbol).1.winner = p.symbol) :
    (p.chooseMove board draw).2 = [RULE_WIN] ∧
    IsLeast {i : Int | board.isEmpty i = true ∧ (board.place i p.symbol).1.winner = p.symbol}
      (p.chooseMove board draw).1 ∧
    ∀ (weights : List ℚ) (draw2 : ℚ),
      RulEvolutionPlayer.chooseMove ⟨p.symbol, ⟨weights⟩⟩ board draw2 =
        p.chooseMove board draw := by
  obtain ⟨c, hc⟩ := winningCell_some h
  have hl := winningCell_least hc
  have e : ∀ (q : RulEvolutionPlayer) (d : ℚ), q.symbol = p.symbol →
      q.chooseMove board d = (c, [RULE_WIN]) := by
    intro q d hq
    simp only [RulEvolutionPlayer.chooseMove, hq, hc]
  rw [e p draw rfl]
  exact ⟨rfl, hl, fun weights draw2 => e _ draw2 rfl⟩

/-- Witness of C1: on the board `X _ _ / O O _ / _ _ X` the side `O` returns cell
`5` with `[RULE_WIN]`. -/
theorem chooseMove_win_override_witness :
    playerO.chooseMove boardScenario (1/3) = (5, [RULE_WIN]) ∧
    (playerO.chooseMove boardScenario (1/3)).2 = [RULE_WIN] ∧
    IsLeast {i : Int | boardScenario.isEmpty i = true ∧
        (boardScenario.place i playerO.symbol).1.winner = playerO.symbol}
      (playerO.chooseMove boardScenario (1/3)).1 ∧
    ∀ (weights : List ℚ) (draw2 : ℚ),
      RulEvolutionPlayer.chooseMove ⟨playerO.symbol, ⟨weights⟩⟩ boardScenario draw2 =
        playerO.chooseMove boardScenario (1/3) :=
  ⟨by decide, chooseMove_win_override playerO boardScenario (1/3) ⟨5, by decide, by decide⟩⟩

/-! ### The contributions of `evaluate` -/

theorem foldl_append_flatMap {α β : Type} (f : List β → α → List β)
    (hf : ∀ r a, f r a = r ++ f [] a) :
    ∀ (l : List α) (acc : List β), l.foldl f acc = acc ++ l.flatMap (f [])
  | [], acc => by simp
  | a :: l, acc => by
    rw [List.foldl_cons, foldl_append_flatMap f hf l, hf acc a, List.flatMap_cons,
      List.append_assoc]

theorem evaluateCell_nil (board : Board) (s o : Char) (w : List ℚ) (i : Int) :
    evaluateCell board s o w [] i =
      if board.isEmpty i = true then
        (if isWinningMove board i o = true then [⟨i, RULE_BLOCK, weightAt w 0⟩] else []) ++
        (if i = 4 then [⟨i, RULE_CENTER, weightAt w 1⟩] else []) ++
        (if i = 0 ∨ i = 2 ∨ i = 6 ∨ i = 8 then [⟨i, RULE_CORNER, weightAt w 2⟩] else []) ++
        (if i = 1 ∨ i = 3 ∨ i = 5 ∨ i = 7 then [⟨i, RULE_SIDE, weightAt w 3⟩] else []) ++
        (if potential board s i > 0 then
          [⟨i, RULE_PREPARATION, weightAt w 4 * (potential board s i : ℚ)⟩] else [])
      else [] := by
  simp only [evaluateCell, RuleType.toInt]
  by_cases he : board.isEmpty i = true
  · simp only [he, Bool.not_true, Bool.false_eq_true, if_false, if_true]
    norm_num
    split_ifs <;> simp
  · simp [he]

theorem evaluateCell_append (board : Board) (s o : Char) (w : List ℚ)
    (results : List RuleEvaluation) (i : Int) :
    evaluateCell board s o w results i = results ++ evaluateCell board s o w [] i := by
  simp only [evaluateCell]
  split_ifs <;> simp

theorem evaluate_eq_flatMap (board : Board) (s : Char) (w : List ℚ) (hw : 5 ≤ w.length) :
    evaluate board s w = cellIndices.flatMap (evaluateCell board s (opponentOf s) w []) := by
  have h5 : ¬ ((w.length : Int) < 5) := by omega
  simp only [evaluate, h5, if_false]
  rw [foldl_append_flatMap _ (evaluateCell_append board s (opponentOf s) w)]
  simp

theorem evaluate_short (board : Board) (s : Char) (w : List ℚ) (hw : w.length < 5) :
    evaluate board s w = [] := by
  have h5 : (w.length : Int) < 5 := by omega
  simp [evaluate, h5]

theorem evaluateCell_moveIndex (board : Board) (s o : Char) (w : List ℚ) (i : Int) :
    ∀ e ∈ evaluateCell board s o w [] i, e.moveIndex = i := by
  intro e he
  rw [evaluateCell_nil] at he
  by_cases hE : board.isEmpty i = true
  · simp only [hE, if_true, List.mem_append] at he
    rcases he with (((h | h) | h) | h) | h <;>
      (split_ifs at h <;> simp at h; rw [h])
  · simp [hE] at he


theorem filter_flatMap_key (g : Int → List RuleEvaluation)
    (hg : ∀ j, ∀ e ∈ g j, e.moveIndex = j) (i : Int) :
    ∀ (l : List Int), l.Nodup →
      (l.flatMap g).filter (fun e => decide (e.moveIndex = i)) = if i ∈ l then g i else []
  | [], _ => by simp
  | a :: l, hl => by
    rw [List.nodup_cons] at hl
    rw [List.flatMap_cons, List.filter_append, filter_flatMap_key g hg i l hl.2]
    by_cases ha : a = i
    · subst ha
      have h1 : (g a).filter (fun e => decide (e.moveIndex = a)) = g a :=
        List.filter_eq_self.2 (fun e he => by simp [hg a e he])
      simp [h1, hl.1]
    · have h1 : (g a).filter (fun e => decide (e.moveIndex = i)) = [] :=
        List.filter_eq_nil_iff.2 (fun e he => by simp [hg a e he, ha])
      have h2 : (i ∈ a :: l) ↔ i ∈ l := by
        simp [List.mem_cons, Ne.symm ha]
      simp only [h1, h2, List.nil_append]

theorem cellIndices_nodup : cellIndices.Nodup := by
  decide

theorem evaluate_filter_cell (board : Board) (s : Char) (w : List ℚ) (hw : 5 ≤ w.length)
    (i : Int) :
    (evaluate board s w).filter (fun e => decide (e.moveIndex = i)) =
      evaluateCell board s (opponentOf s) w [] i := by
  rw [evaluate_eq_flatMap board s w hw,
    filter_flatMap_key _ (evaluateCell_moveIndex board s (opponentOf s) w) i _ cellIndices_nodup]
  by_cases hi : i ∈ cellIndices
  · simp [hi]
  · have : ¬ board.isEmpty i = true := fun h => hi (isEmpty_mem h)
    simp [hi, evaluateCell_nil, this]

/-! ### Block and positional rules -/

theorem filter_and_cell (l : List RuleEvaluation) (i : Int) (q : RuleEvaluation → Bool) :
    l.filter (fun e => decide (e.moveIndex = i) && q e) =
      (l.filter (fun e => decide (e.moveIndex = i))).filter q := by
  rw [List.filter_filter]
  congr 1
  funext e
  exact Bool.and_comm _ _

/-- C8 (block predicate): with at least five weights, the output of `evaluate`
for the acting side `s` contains a contribution for cell `i` with rule
`RULE_BLOCK` exactly when `i` is empty and the board with the opponent's symbol
placed at `i` has `winner()` equal to the opponent, where the opponent is `'O'`
for the acting side `'X'` and `'X'` otherwise (so `'X'` for the acting side
`'O'`); the contributions `(i, RULE_BLOCK)` are then the single entry whose
score is the first weight `weights[0]`, and there is none otherwise. -/
theorem evaluate_block (board : Board) (s : Char) (w : List ℚ) (hw : 5 ≤ w.length) (i : Int) :
    ((∃ e ∈ evaluate board s w, e.moveIndex = i ∧ e.ruleIndex = RULE_BLOCK) ↔
      (board.isEmpty i = true ∧
        (board.place i (if s = 'X' then 'O' else 'X')).1.winner =
          (if s = 'X' then 'O' else 'X'))) ∧
    (evaluate board s w).filter
        (fun e => decide (e.moveIndex = i) && decide (e.ruleIndex = RULE_BLOCK)) =
      if board.isEmpty i = true ∧
        (board.place i (if s = 'X' then 'O' else 'X')).1.winner =
          (if s = 'X' then 'O' else 'X')
      then [⟨i, RULE_BLOCK, w.getD 0 0⟩] else [] := by
  have hf : (evaluate board s w).filter
        (fun e => decide (e.moveIndex = i) && decide (e.ruleIndex = RULE_BLOCK)) =
      if board.isEmpty i = true ∧
        (board.place i (if s = 'X' then 'O' else 'X')).1.winner =
          (if s = 'X' then 'O' else 'X')
      then [⟨i, RULE_BLOCK, w.getD 0 0⟩] else [] := by
    rw [filter_and_cell, evaluate_filter_cell board s w hw i, evaluateCell_nil]
    have hw0 : weightAt w 0 = w.getD 0 0 := rfl
    rw [hw0]
    by_cases hE : board.isEmpty i = true
    · simp only [hE, if_true, true_and, List.filter_append, isWinningMove, beq_iff_eq,
        opponentOf]
      split_ifs <;> simp
    · simp [hE]
  refine ⟨?_, hf⟩
  constructor
  · rintro ⟨e, he, h1, h2⟩
    by_contra hc
    rw [if_neg hc] at hf
    have : e ∈ (evaluate board s w).filter
        (fun e => decide (e.moveIndex = i) && decide (e.ruleIndex = RULE_BLOCK)) := by
      simp [List.mem_filter, he, h1, h2]
    rw [hf] at this
    simp at this
  · intro hc
    rw [if_pos hc] at hf
    have : (⟨i, RULE_BLOCK, w.getD 0 0⟩ : RuleEvaluation) ∈ (evaluate board s w).filter
        (fun e => decide (e.moveIndex = i) && decide (e.ruleIndex = RULE_BLOCK)) := by
      rw [hf]; simp
    rw [List.mem_filter] at this
    exact ⟨_, this.1, rfl, rfl⟩


/-- C10 (positional predicates): with at least five weights, `evaluate` emits
contributions only for empty cells; for every empty cell `i` the positional
contributions (Center, Corner, Side) of `i` are exactly one entry, which is
Center with score `weights[1]` and `i = 4`, or Corner with score `weights[2]`
and `i` one of `0, 2, 6, 8`, or Side with score `weights[3]` and `i` one of
`1, 3, 5, 7`; and a cell appears in the output exactly when it is empty. -/
theorem evaluate_positional (board : Board) (s : Char) (w : List ℚ) (hw : 5 ≤ w.length) :
    (∀ e ∈ evaluate board s w, board.isEmpty e.moveIndex = true) ∧
    (∀ i : Int, board.isEmpty i = true →
      ((evaluate board s w).filter (fun e => decide (e.moveIndex = i) &&
          (decide (e.ruleIndex = RULE_CENTER) || decide (e.ruleIndex = RULE_CORNER) ||
            decide (e.ruleIndex = RULE_SIDE))) = [⟨i, RULE_CENTER, weightAt w 1⟩] ∧ i = 4) ∨
      ((evaluate board s w).filter (fun e => decide (e.moveIndex = i) &&
          (decide (e.ruleIndex = RULE_CENTER) || decide (e.ruleIndex = RULE_CORNER) ||
            decide (e.ruleIndex = RULE_SIDE))) = [⟨i, RULE_CORNER, weightAt w 2⟩] ∧
        (i = 0 ∨ i = 2 ∨ i = 6 ∨ i = 8)) ∨
      ((evaluate board s w).filter (fun e => decide (e.moveIndex = i) &&
          (decide (e.ruleIndex = RULE_CENTER) || decide (e.ruleIndex = RULE_CORNER) ||
            decide (e.ruleIndex = RULE_SIDE))) = [⟨i, RULE_SIDE, weightAt w 3⟩] ∧
        (i = 1 ∨ i = 3 ∨ i = 5 ∨ i = 7))) ∧
    (∀ i : Int, (∃ e ∈ evaluate board s w, e.moveIndex = i) ↔ board.isEmpty i = true) := by
  have hcell : ∀ i : Int, board.isEmpty i = true →
      (evaluate board s w).filter (fun e => decide (e.moveIndex = i) &&
          (decide (e.ruleIndex = RULE_CENTER) || decide (e.ruleIndex = RULE_CORNER) ||
            decide (e.ruleIndex = RULE_SIDE))) =
        if i = 4 then [⟨i, RULE_CENTER, weightAt w 1⟩]
        else if i = 0 ∨ i = 2 ∨ i = 6 ∨ i = 8 then [⟨i, RULE_CORNER, weightAt w 2⟩]
        else [⟨i, RULE_SIDE, weightAt w 3⟩] := by
    intro i hE
    rw [filter_and_cell, evaluate_filter_cell board s w hw i, evaluateCell_nil]
    simp only [hE, if_true, List.filter_append]
    obtain ⟨h0, h9⟩ := isEmpty_range hE
    interval_cases i <;> simp <;> split_ifs <;> simp
  have hmem : ∀ i : Int, (∃ e ∈ evaluate board s w, e.moveIndex = i) ↔
      board.isEmpty i = true := by
    intro i
    constructor
    · rintro ⟨e, he, hi⟩
      by_contra hE
      have h1 : e ∈ (evaluate board s w).filter (fun e => decide (e.moveIndex = i)) := by
        simp [List.mem_filter, he, hi]
      rw [evaluate_filter_cell board s w hw i, evaluateCell_nil, if_neg hE] at h1
      simp at h1
    · intro hE
      have h1 := hcell i hE
      have h2 : ∃ e, e ∈ (evaluate board s w).filter (fun e => decide (e.moveIndex = i) &&
          (decide (e.ruleIndex = RULE_CENTER) || decide (e.ruleIndex = RULE_CORNER) ||
            decide (e.ruleIndex = RULE_SIDE))) := by
        rw [h1]
        split_ifs <;> exact ⟨_, List.mem_singleton_self _⟩
      obtain ⟨e, he⟩ := h2
      rw [List.mem_filter] at he
      refine ⟨e, he.1, ?_⟩
      have := he.2
      simp only [Bool.and_eq_true, decide_eq_true_eq] at this
      exact this.1
  refine ⟨fun e he => (hmem e.moveIndex).1 ⟨e, he, rfl⟩, ?_, hmem⟩
  intro i hE
  rw [hcell i hE]
  obtain ⟨h0, h9⟩ := isEmpty_range hE
  interval_cases i <;> simp

/-! ### Ordered maps -/

theorem mapFind_eq_none {α : Type} (k : Int) :
    ∀ (m : List (Int × α)), mapFind k m = none ↔ k ∉ m.map Prod.fst
  | [] => by simp [mapFind]
  | kv :: rest => by
    by_cases h : kv.1 = k
    · simp [mapFind, h]
    · simp [mapFind, h, mapFind_eq_none k rest, Ne.symm h]

theorem mem_keys_mapModify {α : Type} (d : α) (f : α → α) (k' k : Int) :
    ∀ (m : List (Int × α)),
      k ∈ (mapModify d f k' m).map Prod.fst ↔ k = k' ∨ k ∈ m.map Prod.fst
  | [] => by simp [mapModify]
  | kv :: rest => by
    simp only [mapModify]
    split_ifs with h1 h2
    · simp
    · simp [h2]
    · simp only [List.map_cons, List.mem_cons, mem_keys_mapModify d f k' k rest]
      tauto

theorem keysSorted_mapModify {α : Type} (d : α) (f : α → α) (k' : Int) :
    ∀ (m : List (Int × α)), (m.map Prod.fst).Pairwise (· < ·) →
      ((mapModify d f k' m).map Prod.fst).Pairwise (· < ·)
  | [], _ => by simp [mapModify]
  | kv :: rest, hs => by
    simp only [List.map_cons, List.pairwise_cons] at hs
    simp only [mapModify]
    split_ifs with h1 h2
    · simp only [List.map_cons, List.pairwise_cons, List.mem_cons]
      refine ⟨?_, hs⟩
      rintro a (rfl | ha)
      · exact h1
      · exact lt_trans h1 (hs.1 a ha)
    · simpa [List.pairwise_cons] using hs
    · simp only [List.map_cons, List.pairwise_cons]
      refine ⟨?_, keysSorted_mapModify d f k' rest hs.2⟩
      intro a ha
      rcases (mem_keys_mapModify d f k' a rest).1 ha with rfl | ha
      · omega
      · exact hs.1 a ha

theorem mapFind_mapModify {α : Type} (d : α) (f : α → α) (k' k : Int) :
    ∀ (m : List (Int × α)), (m.map Prod.fst).Pairwise (· < ·) →
      mapFind k (mapModify d f k' m) =
        if k = k' then some (f ((mapFind k' m).getD d)) else mapFind k m
  | [], _ => by
    by_cases h : k = k'
    · simp [mapModify, mapFind, h]
    · simp [mapModify, mapFind, h, Ne.symm h]
  | kv :: rest, hs => by
    simp only [List.map_cons, List.pairwise_cons] at hs
    have ih := mapFind_mapModify d f k' k rest hs.2
    by_cases h1 : k' < kv.1
    · have hne : ¬ kv.1 = k' := by omega
      have hnot : mapFind k' rest = none :=
        (mapFind_eq_none k' rest).2 (fun hm => by have := hs.1 k' hm; omega)
      by_cases hk : k = k'
      · subst hk
        simp [mapModify, h1, mapFind, hne, hnot]
      · simp [mapModify, h1, mapFind, hk, Ne.symm hk]
    · by_cases h2 : k' = kv.1
      · by_cases hk : k = k'
        · subst hk
          simp [mapModify, h2, mapFind]
        · have hne : ¬ kv.1 = k := by rw [← h2]; exact Ne.symm hk
          have hne2 : ¬ k = kv.1 := fun h => hne h.symm
          simp [mapModify, h1, h2, mapFind, hk, hne, hne2]
      · by_cases hk : k = k'
        · subst hk
          have hne : ¬ kv.1 = k := Ne.symm h2
          simp [mapModify, h1, h2, mapFind, hne, ih]
        · by_cases h6 : kv.1 = k
          · simp only [mapModify, if_neg h1, if_neg h2, mapFind, if_pos h6, if_neg hk]
          · simp [mapModify, h1, h2, mapFind, h6, ih, hk]

theorem sortedMap_ext {α : Type} :
    ∀ (m1 m2 : List (Int × α)), (m1.map Prod.fst).Pairwise (· < ·) →
      (m2.map Prod.fst).Pairwise (· < ·) → (∀ k, mapFind k m1 = mapFind k m2) → m1 = m2
  | [], [], _, _, _ => rfl
  | [], kv :: rest, _, _, h => by
    have := h kv.1
    simp [mapFind] at this
  | kv :: rest, [], _, _, h => by
    have := h kv.1
    simp [mapFind] at this
  | kv1 :: r1, kv2 :: r2, hs1, hs2, h => by
    simp only [List.map_cons, List.pairwise_cons] at hs1 hs2
    have hk : kv1.1 = kv2.1 := by
      by_contra hne
      have e1 := h kv1.1
      have e2 := h kv2.1
      simp only [mapFind, if_true] at e1 e2
      rw [if_neg (Ne.symm hne)] at e1
      rw [if_neg hne] at e2
      have m1 : kv1.1 ∈ r2.map Prod.fst := by
        by_contra hc
        rw [(mapFind_eq_none kv1.1 r2).2 hc] at e1
        exact Option.noConfusion e1
      have m2 : kv2.1 ∈ r1.map Prod.fst := by
        by_contra hc
        rw [(mapFind_eq_none kv2.1 r1).2 hc] at e2
        exact Option.noConfusion e2
      have := hs1.1 _ m2
      have := hs2.1 _ m1
      omega
    have hv : kv1.2 = kv2.2 := by
      have e1 := h kv1.1
      simp only [mapFind, if_true] at e1
      rw [if_pos hk.symm] at e1
      exact Option.some.inj e1
    have hkv : kv1 = kv2 := Prod.ext hk hv
    subst hkv
    congr 1
    apply sortedMap_ext r1 r2 hs1.2 hs2.2
    intro k
    by_cases hkk : kv1.1 = k
    · subst hkk
      have n1 : kv1.1 ∉ r1.map Prod.fst := fun hm => lt_irrefl _ (hs1.1 _ hm)
      have n2 : kv1.1 ∉ r2.map Prod.fst := fun hm => lt_irrefl _ (hs2.1 _ hm)
      rw [(mapFind_eq_none _ r1).2 n1, (mapFind_eq_none _ r2).2 n2]
    · have := h k
      simpa [mapFind, hkk] using this

theorem mapFind_map_keys {α : Type} (v : Int → α) (k : Int) :
    ∀ (ks : List Int), mapFind k (ks.map (fun j => (j, v j))) = if k ∈ ks then some (v k) else none
  | [] => by simp [mapFind]
  | a :: ks => by
    by_cases h : a = k
    · subst h; simp [mapFind]
    · simp [mapFind, h, mapFind_map_keys v k ks, Ne.symm h]

/-! ### The aggregation loop -/

theorem mem_candidateCells (evals : List RuleEvaluation) (k : Int) :
    k ∈ candidateCells evals ↔ (0 ≤ k ∧ k < 9) ∧ ∃ e ∈ evals, e.moveIndex = k := by
  simp [candidateCells, List.mem_filter, mem_cellIndices]

theorem candidateCells_sorted (evals : List RuleEvaluation) :
    (candidateCells evals).Pairwise (· < ·) :=
  cellIndices_sorted.sublist (List.filter_sublist _)

theorem cellScore_snoc (l : List RuleEvaluation) (e : RuleEvaluation) (k : Int) :
    cellScore (l ++ [e]) k = cellScore l k + if e.moveIndex = k then e.score else 0 := by
  by_cases h : e.moveIndex = k <;> simp [cellScore, List.filter_append, List.filter_cons, h]

theorem cellRules_snoc (l : List RuleEvaluation) (e : RuleEvaluation) (k : Int) :
    cellRules (l ++ [e]) k = cellRules l k ++ if e.moveIndex = k then [e.ruleIndex] else [] := by
  by_cases h : e.moveIndex = k <;> simp [cellRules, List.filter_append, List.filter_cons, h]

theorem cellScore_absent (evals : List RuleEvaluation) (k : Int)
    (h : ¬ ∃ e ∈ evals, e.moveIndex = k) : cellScore evals k = 0 := by
  have : evals.filter (fun e => decide (e.moveIndex = k)) = [] :=
    List.filter_eq_nil_iff.2 (fun e he => by
      simp only [decide_eq_true_eq]
      exact fun hk => h ⟨e, he, hk⟩)
  simp [cellScore, this]

theorem cellRules_absent (evals : List RuleEvaluation) (k : Int)
    (h : ¬ ∃ e ∈ evals, e.moveIndex = k) : cellRules evals k = [] := by
  have : evals.filter (fun e => decide (e.moveIndex = k)) = [] :=
    List.filter_eq_nil_iff.2 (fun e he => by
      simp only [decide_eq_true_eq]
      exact fun hk => h ⟨e, he, hk⟩)
  simp [cellRules, this]

theorem aggregate_snoc (l : List RuleEvaluation) (e : RuleEvaluation) :
    aggregate (l ++ [e]) =
      if e.moveIndex < 0 ∨ e.moveIndex ≥ 9 then aggregate l
      else (mapModify 0 (fun s => s + e.score) e.moveIndex (aggregate l).1,
            mapModify [] (fun rs => rs ++ [e.ruleIndex]) e.moveIndex (aggregate l).2) := by
  simp only [aggregate, List.foldl_append, List.foldl_cons, List.foldl_nil]

theorem aggregate_spec (evals : List RuleEvaluation) :
    ((aggregate evals).1.map Prod.fst).Pairwise (· < ·) ∧
    ((aggregate evals).2.map Prod.fst).Pairwise (· < ·) ∧
    (∀ k, mapFind k (aggregate evals).1 =
      if k ∈ candidateCells evals then some (cellScore evals k) else none) ∧
    (∀ k, mapFind k (aggregate evals).2 =
      if k ∈ candidateCells evals then some (cellRules evals k) else none) := by
  induction evals using List.reverseRecOn with
  | nil =>
    refine ⟨by simp [aggregate], by simp [aggregate], ?_, ?_⟩ <;>
      intro k <;> simp [aggregate, mapFind, mem_candidateCells]
  | append_singleton l e ih =>
    obtain ⟨s1, s2, f1, f2⟩ := ih
    rw [aggregate_snoc]
    by_cases hr : e.moveIndex < 0 ∨ e.moveIndex ≥ 9
    · rw [if_pos hr]
      have hc : ∀ k, k ∈ candidateCells (l ++ [e]) ↔ k ∈ candidateCells l := by
        intro k
        simp only [mem_candidateCells, List.mem_append, List.mem_singleton]
        constructor
        · rintro ⟨hk, e', (he' | rfl), hm⟩
          · exact ⟨hk, e', he', hm⟩
          · omega
        · rintro ⟨hk, e', he', hm⟩
          exact ⟨hk, e', Or.inl he', hm⟩
      refine ⟨s1, s2, ?_, ?_⟩
      · intro k
        rw [f1 k]
        by_cases hk : k ∈ candidateCells l
        · have hne : ¬ e.moveIndex = k := by
            have := ((mem_candidateCells l k).1 hk).1
            omega
          simp [hk, (hc k).2 hk, cellScore_snoc, hne]
        · have : ¬ k ∈ candidateCells (l ++ [e]) := fun h => hk ((hc k).1 h)
          simp [hk, this]
      · intro k
        rw [f2 k]
        by_cases hk : k ∈ candidateCells l
        · have hne : ¬ e.moveIndex = k := by
            have := ((mem_candidateCells l k).1 hk).1
            omega
          simp [hk, (hc k).2 hk, cellRules_snoc, hne]
        · have : ¬ k ∈ candidateCells (l ++ [e]) := fun h => hk ((hc k).1 h)
          simp [hk, this]
    · rw [if_neg hr]
      have hrange : 0 ≤ e.moveIndex ∧ e.moveIndex < 9 := by omega
      have hc : ∀ k, k ∈ candidateCells (l ++ [e]) ↔ (k = e.moveIndex ∨ k ∈ candidateCells l) := by
        intro k
        simp only [mem_candidateCells, List.mem_append, List.mem_singleton]
        constructor
        · rintro ⟨hk, e', (he' | rfl), hm⟩
          · exact Or.inr ⟨hk, e', he', hm⟩
          · exact Or.inl hm.symm
        · rintro (rfl | ⟨hk, e', he', hm⟩)
          · exact ⟨hrange, e, Or.inr rfl, rfl⟩
          · exact ⟨hk, e', Or.inl he', hm⟩
      refine ⟨keysSorted_mapModify _ _ _ _ s1, keysSorted_mapModify _ _ _ _ s2, ?_, ?_⟩
      · intro k
        simp only []
        rw [mapFind_mapModify _ _ _ _ _ s1, f1, f1]
        by_cases hk : k = e.moveIndex
        · subst hk
          have hin : e.moveIndex ∈ candidateCells (l ++ [e]) := (hc _).2 (Or.inl rfl)
          rw [if_pos rfl, if_pos hin, cellScore_snoc, if_pos rfl]
          by_cases hl : e.moveIndex ∈ candidateCells l
          · simp [hl]
          · have h0 : cellScore l e.moveIndex = 0 :=
              cellScore_absent l _ (fun h => hl ((mem_candidateCells l _).2 ⟨hrange, h⟩))
            simp [hl, h0]
        · rw [if_neg hk]
          have hne : ¬ e.moveIndex = k := fun h => hk h.symm
          by_cases hl : k ∈ candidateCells l
          · simp [hl, (hc k).2 (Or.inr hl), cellScore_snoc, hne]
          · have : ¬ k ∈ candidateCells (l ++ [e]) := fun h => by
              rcases (hc k).1 h with h | h
              · exact hk h
              · exact hl h
            simp [hl, this]
      · intro k
        simp only []
        rw [mapFind_mapModify _ _ _ _ _ s2, f2, f2]
        by_cases hk : k = e.moveIndex
        · subst hk
          have hin : e.moveIndex ∈ candidateCells (l ++ [e]) := (hc _).2 (Or.inl rfl)
          rw [if_pos rfl, if_pos hin, cellRules_snoc, if_pos rfl]
          by_cases hl : e.moveIndex ∈ candidateCells l
          · simp [hl]
          · have h0 : cellRules l e.moveIndex = [] :=
              cellRules_absent l _ (fun h => hl ((mem_candidateCells l _).2 ⟨hrange, h⟩))
            simp [hl, h0]
        · rw [if_neg hk]
          have hne : ¬ e.moveIndex = k := fun h => hk h.symm
          by_cases hl : k ∈ candidateCells l
          · simp [hl, (hc k).2 (Or.inr hl), cellRules_snoc, hne]
          · have : ¬ k ∈ candidateCells (l ++ [e]) := fun h => by
              rcases (hc k).1 h with h | h
              · exact hk h
              · exact hl h
            simp [hl, this]

/-! ### The draw -/

theorem map_keys_fst {α : Type} (v : Int → α) (ks : List Int) :
    (ks.map (fun j => (j, v j))).map Prod.fst = ks := by
  induction ks with
  | nil => rfl
  | cons a ks ih => simp [ih]

theorem aggregate_fst (evals : List RuleEvaluation) :
    (aggregate evals).1 = (candidateCells evals).map (fun k => (k, cellScore evals k)) := by
  obtain ⟨s1, _, f1, _⟩ := aggregate_spec evals
  apply sortedMap_ext _ _ s1
  · rw [map_keys_fst]; exact candidateCells_sorted evals
  · intro k
    rw [f1 k, mapFind_map_keys]

theorem aggregate_snd (evals : List RuleEvaluation) :
    (aggregate evals).2 = (candidateCells evals).map (fun k => (k, cellRules evals k)) := by
  obtain ⟨_, s2, _, f2⟩ := aggregate_spec evals
  apply sortedMap_ext _ _ s2
  · rw [map_keys_fst]; exact candidateCells_sorted evals
  · intro k
    rw [f2 k, mapFind_map_keys]

theorem totalPositive_foldl (v : Int → ℚ) :
    ∀ (ks : List Int) (acc : ℚ),
      (ks.map (fun k => (k, v k))).foldl
          (fun total kv => if kv.2 > 0 then total + kv.2 else total) acc =
        acc + ((ks.map v).filter (fun x => decide (0 < x))).sum
  | [], acc => by simp
  | a :: ks, acc => by
    simp only [List.map_cons, List.foldl_cons]
    rw [totalPositive_foldl v ks]
    by_cases h : v a > 0
    · have h' : 0 < v a := h
      simp [h, h', List.filter_cons, add_assoc]
    · have h' : ¬ 0 < v a := h
      simp [h, h', List.filter_cons]

theorem totalPositive_aggregate (evals : List RuleEvaluation) :
    totalPositive (aggregate evals).1 = totalPositiveScore evals := by
  rw [aggregate_fst, totalPositive, totalPositive_foldl, totalPositiveScore, zero_add]

theorem find?_congr_mem {p q : Int → Bool} :
    ∀ {l : List Int}, (∀ x ∈ l, p x = q x) → l.find? p = l.find? q
  | [], _ => rfl
  | a :: l, h => by
    have ha := h a (List.mem_cons_self _ _)
    have hl : ∀ x ∈ l, p x = q x := fun x hx => h x (List.mem_cons_of_mem _ hx)
    simp only [List.find?_cons, ha, find?_congr_mem hl]

theorem drawWalk_sorted (r : ℚ) (v : Int → ℚ) :
    ∀ (ks : List Int) (acc : ℚ), ks.Pairwise (· < ·) →
      drawWalk r (ks.map (fun k => (k, v k))) acc =
        match ks.find? (fun c =>
            decide (r ≤ acc + ((ks.filter (fun k => decide (k ≤ c))).map v).sum)) with
        | some c => c
        | none => -1
  | [], acc, _ => by simp [drawWalk]
  | a :: ks, acc, hs => by
    rw [List.pairwise_cons] at hs
    have hrest : ks.filter (fun k => decide (k ≤ a)) = [] :=
      List.filter_eq_nil_iff.2 (fun k hk => by
        have := hs.1 k hk
        simp only [decide_eq_true_eq]
        omega)
    simp only [List.map_cons, drawWalk, List.find?_cons, List.filter_cons, le_refl,
      decide_True, if_true, hrest, List.map_nil, List.sum_cons, List.sum_nil, add_zero]
    by_cases h : r ≤ acc + v a
    · simp [h]
    · simp only [h, if_false, decide_False]
      rw [drawWalk_sorted r v ks (acc + v a) hs.2]
      have hcongr : ∀ q : Int → Bool,
          (∀ c ∈ ks, (decide (r ≤ acc + v a +
            ((ks.filter (fun k => decide (k ≤ c))).map v).sum)) = q c) →
          (match ks.find? (fun c => decide (r ≤ acc + v a +
              ((ks.filter (fun k => decide (k ≤ c))).map v).sum)) with
            | some c => c
            | none => (-1 : Int)) =
          (match ks.find? q with
            | some c => c
            | none => (-1 : Int)) := by
        intro q hq
        rw [find?_congr_mem hq]
      apply hcongr
      intro c hc
      have hac : a ≤ c := le_of_lt (hs.1 c hc)
      simp [hac, add_assoc]

/-! ### The evaluator path of `chooseMove` -/

theorem evaluate_mem (board : Board) (s : Char) (w : List ℚ) (e : RuleEvaluation)
    (he : e ∈ evaluate board s w) :
    board.isEmpty e.moveIndex = true ∧ e.ruleIndex ≠ RULE_WIN := by
  by_cases hw : 5 ≤ w.length
  · have h1 : e ∈ (evaluate board s w).filter (fun x => decide (x.moveIndex = e.moveIndex)) := by
      simp [List.mem_filter, he]
    rw [evaluate_filter_cell board s w hw, evaluateCell_nil] at h1
    by_cases hE : board.isEmpty e.moveIndex = true
    · refine ⟨hE, ?_⟩
      simp only [hE, if_true, List.mem_append] at h1
      rcases h1 with (((h | h) | h) | h) | h <;>
        (split_ifs at h <;> simp at h; rw [h]; simp)
    · simp [hE] at h1
  · rw [evaluate_short board s w (by omega)] at he
    simp at he

theorem winningCell_eq_none (board : Board) (symbol : Char)
    (h : ∀ i : Int, board.isEmpty i = true → (board.place i symbol).1.winner ≠ symbol) :
    winningCell board symbol = none := by
  rw [winningCell, List.find?_eq_none]
  intro i _
  by_cases hE : board.isEmpty i = true
  · simp [hE, h i hE]
  · simp [hE]

theorem firstEmpty_some (board : Board) (h : ∃ i : Int, board.isEmpty i = true) :
    ∃ c, firstEmpty board = some c ∧ board.isEmpty c = true ∧
      ∀ j : Int, board.isEmpty j = true → c ≤ j := by
  obtain ⟨i, hi⟩ := h
  cases hc : firstEmpty board with
  | some c =>
    obtain ⟨h1, _, h3⟩ := find?_sorted_some cellIndices_sorted hc
    exact ⟨c, rfl, h1, fun j hj => h3 j (isEmpty_mem hj) hj⟩
  | none =>
    rw [firstEmpty, List.find?_eq_none] at hc
    exact absurd hi (hc i (isEmpty_mem hi))

theorem firstEmpty_isEmpty {board : Board} {c : Int} (h : firstEmpty board = some c) :
    board.isEmpty c = true :=
  (find?_sorted_some cellIndices_sorted h).1

theorem drawWalk_aggregate (evals : List RuleEvaluation) (r : ℚ) :
    drawWalk r (aggregate evals).1 0 =
      match (candidateCells evals).find? (fun c => decide (r ≤ cumulativeScore evals c)) with
      | some c => c
      | none => -1 := by
  rw [aggregate_fst, drawWalk_sorted r (cellScore evals) _ 0 (candidateCells_sorted evals)]
  simp only [zero_add, cumulativeScore]

theorem mapFind_ruleMap (evals : List RuleEvaluation)
    (hr : ∀ e ∈ evals, 0 ≤ e.moveIndex ∧ e.moveIndex < 9) (c : Int) :
    (match mapFind c (aggregate evals).2 with
      | some rules => (c, rules)
      | none => (c, [])) = (c, cellRules evals c) := by
  rw [aggregate_snd, mapFind_map_keys]
  by_cases hc : c ∈ candidateCells evals
  · simp [hc]
  · have : cellRules evals c = [] :=
      cellRules_absent evals c (fun ⟨e, he, hm⟩ =>
        hc ((mem_candidateCells evals c).2 ⟨hm ▸ hr e he, e, he, hm⟩))
    simp [hc, this]

/-- The cell selected on the evaluator path: the first candidate cell whose
running sum reaches `r`, else the first empty cell, else `-1`. -/
theorem chooseMove_eval_path (p : RulEvolutionPlayer) (board : Board) (draw : ℚ)
    (hwin : winningCell board p.symbol = none)
    (hne : evaluate board p.symbol p.state.weights ≠ []) :
    p.chooseMove board draw =
      ((match (candidateCells (evaluate board p.symbol p.state.weights)).find? (fun c =>
            decide (draw * totalPositiveScore (evaluate board p.symbol p.state.weights) ≤
              cumulativeScore (evaluate board p.symbol p.state.weights) c)) with
        | some c => c
        | none => match firstEmpty board with
          | some i => i
          | none => -1),
       cellRules (evaluate board p.symbol p.state.weights)
        (match (candidateCells (evaluate board p.symbol p.state.weights)).find? (fun c =>
            decide (draw * totalPositiveScore (evaluate board p.symbol p.state.weights) ≤
              cumulativeScore (evaluate board p.symbol p.state.weights) c)) with
        | some c => c
        | none => match firstEmpty board with
          | some i => i
          | none => -1)) := by
  have hr : ∀ e ∈ evaluate board p.symbol p.state.weights, 0 ≤ e.moveIndex ∧ e.moveIndex < 9 :=
    fun e he => isEmpty_range (evaluate_mem board p.symbol p.state.weights e he).1
  have hemp : (evaluate board p.symbol p.state.weights).isEmpty = false := by
    cases h : evaluate board p.symbol p.state.weights with
    | nil => exact absurd h hne
    | cons a l => rfl
  simp only [RulEvolutionPlayer.chooseMove, hwin, hemp, Bool.false_eq_true, if_false]
  rw [totalPositive_aggregate, drawWalk_aggregate]
  cases hf : (candidateCells (evaluate board p.symbol p.state.weights)).find? (fun c =>
      decide (draw * totalPositiveScore (evaluate board p.symbol p.state.weights) ≤
        cumulativeScore (evaluate board p.symbol p.state.weights) c)) with
  | some c =>
    have hc : c ∈ candidateCells (evaluate board p.symbol p.state.weights) :=
      List.mem_of_find?_eq_some hf
    have hc0 : ¬ c < 0 := by
      have := ((mem_candidateCells _ c).1 hc).1
      omega
    simp only [hc0, if_false]
    exact mapFind_ruleMap _ hr c
  | none =>
    simp only [show ((-1 : Int) < 0) from by decide, if_true]
    exact mapFind_ruleMap _ hr _

/-! ### Claims on the selection policy -/

/-- C6 (supporting heuristics): on the evaluator path (no immediate winning
cell, `evaluate` non-empty) the reported supporting heuristics are the rule ids
of all contributions of `evaluate` whose cell index is the returned cell, each
once, in the order of `evaluate`, and none from another cell. -/
theorem chooseMove_supporting (p : RulEvolutionPlayer) (board : Board) (draw : ℚ)
    (hwin : ∀ i : Int, board.isEmpty i = true → (board.place i p.symbol).1.winner ≠ p.symbol)
    (hne : evaluate board p.symbol p.state.weights ≠ []) :
    (p.chooseMove board draw).2 =
      ((evaluate board p.symbol p.state.weights).filter
        (fun e => decide (e.moveIndex = (p.chooseMove board draw).1))).map
          (fun e => e.ruleIndex) := by
  rw [chooseMove_eval_path p board draw (winningCell_eq_none board p.symbol hwin) hne]
  rfl

theorem boardEmpty_no_win :
    ∀ i : Int, boardEmpty.isEmpty i = true →
      (boardEmpty.place i playerO.symbol).1.winner ≠ playerO.symbol := by
  intro i hi
  obtain ⟨h0, h9⟩ := isEmpty_range hi
  interval_cases i <;> decide

/-- Witness of C6 on the empty board for the side `O` with the draw `1/2`. -/
theorem chooseMove_supporting_witness :
    (playerO.chooseMove boardEmpty (1/2)).2 =
      ((evaluate boardEmpty playerO.symbol playerO.state.weights).filter
        (fun e => decide (e.moveIndex = (playerO.chooseMove boardEmpty (1/2)).1))).map
          (fun e => e.ruleIndex) :=
  chooseMove_supporting playerO boardEmpty (1/2)
    boardEmpty_no_win (by decide)

/-- C7 (legal move without Win): on a board with an empty cell and no
immediate winning cell for the acting side, for every weight vector and draw,
`chooseMove` returns an empty cell of the board, hence an index in `0..8`, and
`RULE_WIN` is not among the supporting heuristics. -/
theorem chooseMove_legal (p : RulEvolutionPlayer) (board : Board) (draw : ℚ)
    (hE : ∃ i : Int, board.isEmpty i = true)
    (hwin : ∀ i : Int, board.isEmpty i = true → (board.place i p.symbol).1.winner ≠ p.symbol) :
    board.isEmpty (p.chooseMove board draw).1 = true ∧
    (0 ≤ (p.chooseMove board draw).1 ∧ (p.chooseMove board draw).1 ≤ 8) ∧
    RULE_WIN ∉ (p.chooseMove board draw).2 := by
  have hw := winningCell_eq_none board p.symbol hwin
  obtain ⟨c0, hc0, hc0E, _⟩ := firstEmpty_some board hE
  have key : board.isEmpty (p.chooseMove board draw).1 = true ∧
      RULE_WIN ∉ (p.chooseMove board draw).2 := by
    by_cases hne : evaluate board p.symbol p.state.weights = []
    · have e : p.chooseMove board draw = (c0, []) := by
        simp only [RulEvolutionPlayer.chooseMove, hw, hne, List.isEmpty_nil, if_true, hc0]
      rw [e]
      exact ⟨hc0E, by simp⟩
    · rw [chooseMove_eval_path p board draw hw hne]
      refine ⟨?_, ?_⟩
      · cases hf : (candidateCells (evaluate board p.symbol p.state.weights)).find? (fun c =>
            decide (draw * totalPositiveScore (evaluate board p.symbol p.state.weights) ≤
              cumulativeScore (evaluate board p.symbol p.state.weights) c)) with
        | some c =>
          obtain ⟨_, e, he, hm⟩ := (mem_candidateCells _ c).1 (List.mem_of_find?_eq_some hf)
          have := (evaluate_mem board p.symbol p.state.weights e he).1
          rw [hm] at this
          exact this
        | none =>
          simp only [hc0]
          exact hc0E
      · intro hmem
        simp only [cellRules, List.mem_map, List.mem_filter] at hmem
        obtain ⟨e, ⟨he, _⟩, hr⟩ := hmem
        exact (evaluate_mem board p.symbol p.state.weights e he).2 hr
  have hrange := isEmpty_range key.1
  exact ⟨key.1, ⟨hrange.1, by omega⟩, key.2⟩

/-- Witness of C7 on the empty board for the side `O` with the draw `1/2`. -/
theorem chooseMove_legal_witness :
    (∃ i : Int, boardEmpty.isEmpty i = true) ∧
    boardEmpty.isEmpty (playerO.chooseMove boardEmpty (1/2)).1 = true ∧
    (0 ≤ (playerO.chooseMove boardEmpty (1/2)).1 ∧ (playerO.chooseMove boardEmpty (1/2)).1 ≤ 8) ∧
    RULE_WIN ∉ (playerO.chooseMove boardEmpty (1/2)).2 :=
  ⟨⟨0, by decide⟩,
    chooseMove_legal playerO boardEmpty (1/2) ⟨0, by decide⟩ boardEmpty_no_win⟩

/-- C5 (weighted draw): without an immediate winning cell, for every weight
vector and draw fraction, with `r = draw * totalPositiveScore`, whenever some
candidate cell has a running sum `≥ r` the returned cell is the first such cell
in increasing index order: it is a candidate, its running sum is `≥ r`, and
every smaller candidate has a running sum `< r`. (The bounds on the number of
weights and on the draw are not needed.) -/
theorem chooseMove_weighted_draw (p : RulEvolutionPlayer) (board : Board) (draw : ℚ)
    (hwin : ∀ i : Int, board.isEmpty i = true → (board.place i p.symbol).1.winner ≠ p.symbol)
    (hex : ∃ c ∈ candidateCells (evaluate board p.symbol p.state.weights),
      draw * totalPositiveScore (evaluate board p.symbol p.state.weights) ≤
        cumulativeScore (evaluate board p.symbol p.state.weights) c) :
    (p.chooseMove board draw).1 ∈ candidateCells (evaluate board p.symbol p.state.weights) ∧
    draw * totalPositiveScore (evaluate board p.symbol p.state.weights) ≤
      cumulativeScore (evaluate board p.symbol p.state.weights) (p.chooseMove board draw).1 ∧
    ∀ c ∈ candidateCells (evaluate board p.symbol p.state.weights),
      c < (p.chooseMove board draw).1 →
        cumulativeScore (evaluate board p.symbol p.state.weights) c <
          draw * totalPositiveScore (evaluate board p.symbol p.state.weights) := by
  have hw := winningCell_eq_none board p.symbol hwin
  obtain ⟨c1, hc1, hr1⟩ := hex
  have hne : evaluate board p.symbol p.state.weights ≠ [] := by
    intro h
    rw [h] at hc1
    simp [candidateCells] at hc1
  rw [chooseMove_eval_path p board draw hw hne]
  cases hf : (candidateCells (evaluate board p.symbol p.state.weights)).find? (fun c =>
      decide (draw * totalPositiveScore (evaluate board p.symbol p.state.weights) ≤
        cumulativeScore (evaluate board p.symbol p.state.weights) c)) with
  | some c =>
    obtain ⟨h1, h2, h3⟩ := find?_sorted_some (candidateCells_sorted _) hf
    simp only [decide_eq_true_eq] at h1 h3
    refine ⟨h2, h1, ?_⟩
    intro c' hc' hlt
    by_contra hcon
    have hle := h3 c' hc' (not_lt.1 hcon)
    have hlt' : c' < c := hlt
    omega
  | none =>
    rw [List.find?_eq_none] at hf
    have := hf c1 hc1
    simp only [decide_eq_true_eq] at this
    exact absurd hr1 this

/-- Witness of C5 on the empty board: with nine scores `0.5` and the draw `1/2` the
first running sum reaching `r = 2.25` is that of cell `4`. -/
theorem chooseMove_weighted_draw_witness :
    playerO.chooseMove boardEmpty (1/2) = (4, [RULE_CENTER]) ∧
    (playerO.chooseMove boardEmpty (1/2)).1 ∈
      candidateCells (evaluate boardEmpty playerO.symbol playerO.state.weights) ∧
    (1/2 : ℚ) * totalPositiveScore (evaluate boardEmpty playerO.symbol playerO.state.weights) ≤
      cumulativeScore (evaluate boardEmpty playerO.symbol playerO.state.weights)
        (playerO.chooseMove boardEmpty (1/2)).1 ∧
    ∀ c ∈ candidateCells (evaluate boardEmpty playerO.symbol playerO.state.weights),
      c < (playerO.chooseMove boardEmpty (1/2)).1 →
        cumulativeScore (evaluate boardEmpty playerO.symbol playerO.state.weights) c <
          (1/2 : ℚ) * totalPositiveScore
            (evaluate boardEmpty playerO.symbol playerO.state.weights) :=
  ⟨by decide!, chooseMove_weighted_draw playerO boardEmpty (1/2)
    boardEmpty_no_win ⟨8, by decide, by decide!⟩⟩

/-! ### Evaluation claims at concrete inputs and the reference update -/

/-- Witness of C8 on the board `X _ _ / O O _ / _ _ X`, where cell `5` completes
the middle row of `O`: for the acting side `X` (opponent `O`) cell `5` carries
a Block contribution, and it is the only Block contribution, with score `0.2`;
for the acting side `O` (opponent `X`, who wins at no cell) cell `5` is the
side's own winning cell and carries no Block contribution, and there is none
at all. -/
theorem evaluate_block_witness :
    5 ≤ weightsFifth.length ∧
    (∃ e ∈ evaluate boardScenario 'X' weightsFifth,
      e.moveIndex = 5 ∧ e.ruleIndex = RULE_BLOCK) ∧
    (¬ ∃ e ∈ evaluate boardScenario 'O' weightsFifth,
      e.moveIndex = 5 ∧ e.ruleIndex = RULE_BLOCK) ∧
    (evaluate boardScenario 'X' weightsFifth).filter
        (fun e => decide (e.ruleIndex = RULE_BLOCK)) = [⟨5, RULE_BLOCK, 1/5⟩] ∧
    (evaluate boardScenario 'O' weightsFifth).filter
        (fun e => decide (e.ruleIndex = RULE_BLOCK)) = [] :=
  ⟨by decide,
   (evaluate_block boardScenario 'X' weightsFifth (by decide) 5).1.2 ⟨by decide, by decide⟩,
   fun h => absurd ((evaluate_block boardScenario 'O' weightsFifth (by decide) 5).1.1 h).2
     (by decide),
   by decide!, by decide!⟩

/-- Witness of C10 on the board `X _ _ / O O _ / _ _ X` for the side `O` and cell `2`. -/
theorem evaluate_positional_witness :
    5 ≤ weightsFifth.length ∧
    ((∃ e ∈ evaluate boardScenario 'O' weightsFifth, e.moveIndex = 2) ↔
      boardScenario.isEmpty 2 = true) :=
  ⟨by decide, (evaluate_positional boardScenario 'O' weightsFifth (by decide)).2.2 2⟩

/-- C9 (preparation predicate), evaluation of the code on the board
`O _ _ / _ _ _ / _ _ _` for the side `X` and cell `1`: no cell holds an `X`, so
no line has exactly one own mark and the described `potential` is `0`, yet the
code computes `potential = 1` (it counts the `O` of the top row) and emits the
contribution `(1, RULE_PREPARATION, 0.2)`. -/
theorem evaluate_preparation_counts_any_mark :
    (∀ j ∈ cellIndices, boardOpponentCorner.cell j ≠ 'X') ∧
    ownPotential boardOpponentCorner 'X' 1 = 0 ∧
    potential boardOpponentCorner 'X' 1 = 1 ∧
    (evaluate boardOpponentCorner 'X' weightsFifth).filter
        (fun e => decide (e.moveIndex = 1) && decide (e.ruleIndex = RULE_PREPARATION)) =
      [⟨1, RULE_PREPARATION, 1/5⟩] := by
  decide!

theorem updateRule_eq_refStep (L : ℚ) (hasWon : Bool) (rd : RuleType → Option RuleStats)
    (rule : RuleType) :
    updateRule L hasWon rd rule = fun q =>
      if q = rule then
        some (refStep L hasWon (match rd rule with
          | some rs => rs
          | none => ⟨1/2, 0, 5⟩))
      else rd q := by
  funext q
  by_cases hq : q = rule
  · subst hq
    simp only [updateRule, Function.update_same, if_true, refStep, clampTo]
    cases h : rd q with
    | none =>
      simp only [Option.getD_none, RuleStats.default, RuleStats.mk0, ge_iff_le]
      split_ifs <;> rfl
    | some rs =>
      simp only [Option.getD_some, ge_iff_le]
      split_ifs <;> rfl
  · simp only [updateRule, Function.update_noteq hq, if_neg hq]

theorem foldl_updateRule_eq_refVisit (L : ℚ) (hasWon : Bool) :
    ∀ (rules : List RuleType) (rd : RuleType → Option RuleStats),
      rules.foldl (updateRule L hasWon) rd = refVisit L hasWon rules rd
  | [], rd => rfl
  | rule :: rest, rd => by
    rw [List.foldl_cons, foldl_updateRule_eq_refVisit L hasWon rest, updateRule_eq_refStep]
    rfl

theorem updateLoop_eq_foldl (L : ℚ) (hasWon : Bool) :
    ∀ (moves : List MoveRecord) (rd : RuleType → Option RuleStats),
      updateLoop L hasWon moves rd =
        (moves.flatMap (fun moveRecord => moveRecord.rules)).foldl (updateRule L hasWon) rd
  | [], rd => rfl
  | m :: moves, rd => by
    have ih := updateLoop_eq_foldl L hasWon moves (m.rules.foldl (updateRule L hasWon) rd)
    simp only [updateLoop, List.foldl_cons, List.flatMap_cons, List.foldl_append] at ih ⊢
    exact ih

/-- C2 (learning update): `updateFromGame` equals the reference update, which
visits the move records in trace order and their rules in list order, steps
each visited rule (default entry when absent; counter `±1`; threshold test with
weight step and counter reset; clamp into `[0, 1]`) and applies
`normalizeWeights(0, 1)` once at the end. -/
theorem updateFromGame_eq_reference (lm : LearningModule) (history : GameHistory)
    (hasWon : Bool) :
    lm.updateFromGame history hasWon = updateFromGameRef lm history hasWon := by
  simp only [LearningModule.updateFromGame, updateFromGameRef, updateLoop_eq_foldl,
    foldl_updateRule_eq_refVisit]

/-! ### normalizeWeights -/

theorem weightsOf_map (rd : RuleType → Option RuleStats) (g : ℚ → ℚ) :
    weightsOf (fun r => (rd r).map (fun rs => { rs with weight := g rs.weight })) =
      (weightsOf rd).map g := by
  simp only [weightsOf, List.map_filterMap, Option.map_map]
  rfl

theorem normalizeWeights_ruleData (lm : LearningModule) (lo hi : ℚ) (r : RuleType) :
    (lm.normalizeWeights lo hi).ruleData r =
      (lm.ruleData r).map (fun rs =>
        { rs with weight :=
            if 0 < clampedSum lo hi lm.ruleData
            then clampTo lo hi rs.weight / clampedSum lo hi lm.ruleData
            else clampTo lo hi rs.weight }) := by
  simp only [LearningModule.normalizeWeights, clampedSum, weightsOf_map, gt_iff_lt]
  split_ifs with h
  · simp only [Option.map_map]
    rfl
  · rfl

theorem weightsOf_normalizeWeights (lm : LearningModule) (lo hi : ℚ) :
    weightsOf (lm.normalizeWeights lo hi).ruleData =
      (weightsOf lm.ruleData).map (fun x =>
        if 0 < clampedSum lo hi lm.ruleData
        then clampTo lo hi x / clampedSum lo hi lm.ruleData
        else clampTo lo hi x) := by
  simp only [weightsOf, normalizeWeights_ruleData, List.map_filterMap, Option.map_map]
  rfl

theorem clampTo_nonneg {lo hi : ℚ} (h0 : 0 ≤ lo) (x : ℚ) : 0 ≤ clampTo lo hi x :=
  le_trans h0 (le_max_left _ _)

theorem clampTo_pos {lo hi x : ℚ} (hhi : 0 < hi) (hx : 0 < x) : 0 < clampTo lo hi x :=
  lt_of_lt_of_le (lt_min hhi hx) (le_max_right _ _)

theorem clampedSum_pos (lo hi : ℚ) (rd : RuleType → Option RuleStats) (h0 : 0 ≤ lo)
    (hhi : 0 < hi) (hex : ∃ x ∈ weightsOf rd, 0 < x) : 0 < clampedSum lo hi rd := by
  obtain ⟨x, hx, hpos⟩ := hex
  have hmem : clampTo lo hi x ∈ (weightsOf rd).map (clampTo lo hi) := List.mem_map_of_mem _ hx
  have hnn : ∀ y ∈ (weightsOf rd).map (clampTo lo hi), 0 ≤ y := by
    intro y hy
    obtain ⟨z, _, rfl⟩ := List.mem_map.1 hy
    exact clampTo_nonneg h0 z
  exact lt_of_lt_of_le (clampTo_pos hhi hpos) (List.single_le_sum hnn _ hmem)

/-- C4 (normalization invariant, amended): for bounds with `0 ≤ min` and
`0 < max` and a rule table with at least one positive weight, after
`normalizeWeights(min, max)` the weights sum to `1` and every weight lies in
`[0, 1]` (the configured interval for the default bounds). -/
theorem normalizeWeights_sum_one (lm : LearningModule) (minW maxW : ℚ)
    (h0 : 0 ≤ minW) (hmax : 0 < maxW)
    (hex : ∃ x ∈ weightsOf lm.ruleData, 0 < x) :
    (weightsOf (lm.normalizeWeights minW maxW).ruleData).sum = 1 ∧
    ∀ x ∈ weightsOf (lm.normalizeWeights minW maxW).ruleData, 0 ≤ x ∧ x ≤ 1 := by
  have hS := clampedSum_pos minW maxW lm.ruleData h0 hmax hex
  have hnn : ∀ y ∈ (weightsOf lm.ruleData).map (clampTo minW maxW), 0 ≤ y := by
    intro y hy
    obtain ⟨z, _, rfl⟩ := List.mem_map.1 hy
    exact clampTo_nonneg h0 z
  rw [weightsOf_normalizeWeights]
  simp only [hS, if_true]
  constructor
  · have : (weightsOf lm.ruleData).map (fun x =>
        clampTo minW maxW x / clampedSum minW maxW lm.ruleData) =
        ((weightsOf lm.ruleData).map (clampTo minW maxW)).map
          (fun y => y * (clampedSum minW maxW lm.ruleData)⁻¹) := by
      rw [List.map_map]
      apply List.map_congr_left
      intro x _
      simp [div_eq_mul_inv]
    rw [this, List.sum_map_mul_right]
    simp only [List.map_id']
    exact mul_inv_cancel₀ (ne_of_gt hS)
  · intro x hx
    obtain ⟨z, hz, rfl⟩ := List.mem_map.1 hx
    have hle : clampTo minW maxW z ≤ clampedSum minW maxW lm.ruleData :=
      List.single_le_sum hnn _ (List.mem_map_of_mem _ hz)
    exact ⟨div_nonneg (clampTo_nonneg h0 z) (le_of_lt hS), (div_le_one hS).2 hle⟩

/-- Witness of C4 (amended) on the engine configured by `main` with the default
bounds. -/
theorem normalizeWeights_sum_one_witness :
    ((0 : ℚ) ≤ 0 ∧ (0 : ℚ) < 1 ∧ ∃ x ∈ weightsOf learnerMain.ruleData, 0 < x) ∧
    (weightsOf (learnerMain.normalizeWeights 0 1).ruleData).sum = 1 ∧
    ∀ x ∈ weightsOf (learnerMain.normalizeWeights 0 1).ruleData, 0 ≤ x ∧ x ≤ 1 :=
  ⟨by decide!, normalizeWeights_sum_one learnerMain 0 1 (by decide!) (by decide!) (by decide!)⟩

/-- Counterexample to C4 as stated: with the bounds `[0, 0.25]` a single weight
`0.5` becomes `1`, outside the bounds; with the bounds `[-1, 1]` the weights
`0.5` and `-1` keep the sum `-0.5`; with the bounds `[0, 0]` a single weight
`0.5` becomes `0`. -/
theorem normalizeWeights_bounds_counterexample :
    ((∃ x ∈ weightsOf (learnerBlockOnly (1/2)).ruleData, 0 < x) ∧ (0 : ℚ) ≤ 1/4 ∧
      (weightsOf ((learnerBlockOnly (1/2)).normalizeWeights 0 (1/4)).ruleData) = [1] ∧
      ¬ (∀ x ∈ weightsOf ((learnerBlockOnly (1/2)).normalizeWeights 0 (1/4)).ruleData,
          0 ≤ x ∧ x ≤ 1/4)) ∧
    ((∃ x ∈ weightsOf learnerNegative.ruleData, 0 < x) ∧ (-1 : ℚ) ≤ 1 ∧
      (weightsOf (learnerNegative.normalizeWeights (-1) 1).ruleData).sum = -1/2 ∧
      (weightsOf (learnerNegative.normalizeWeights (-1) 1).ruleData).sum ≠ 1) ∧
    ((∃ x ∈ weightsOf (learnerBlockOnly (1/2)).ruleData, 0 < x) ∧ (0 : ℚ) ≤ 0 ∧
      (weightsOf ((learnerBlockOnly (1/2)).normalizeWeights 0 0).ruleData).sum = 0 ∧
      (weightsOf ((learnerBlockOnly (1/2)).normalizeWeights 0 0).ruleData).sum ≠ 1) := by
  decide!

/-! ### The update loop on one rule -/

theorem updateRule_other (L : ℚ) (hasWon : Bool) (rd : RuleType → Option RuleStats)
    {rule R : RuleType} (h : R ≠ rule) : updateRule L hasWon rd rule R = rd R := by
  simp only [updateRule, Function.update_noteq h]

theorem updateRule_win_below (L : ℚ) (rd : RuleType → Option RuleStats) (R : RuleType)
    (w : ℚ) (k T : Nat) (hw0 : 0 ≤ w) (hw1 : w ≤ 1) (hR : rd R = some ⟨w, k, T⟩)
    (hk : k + 1 < T) :
    updateRule L true rd R R = some ⟨w, ((k + 1 : Nat) : ℚ), T⟩ := by
  have h1 : ¬ ((T : ℚ) ≤ (k : ℚ) + 1) := by
    have : ((k + 1 : Nat) : ℚ) < (T : ℚ) := by exact_mod_cast hk
    push_cast at this
    linarith
  have h2 : ¬ ((k : ℚ) + 1 ≤ -(T : ℚ)) := by
    have hk0 : (0 : ℚ) ≤ (k : ℚ) := Nat.cast_nonneg k
    have hT0 : (0 : ℚ) ≤ (T : ℚ) := Nat.cast_nonneg T
    linarith
  simp only [updateRule, hR, Option.getD_some, if_true, ge_iff_le, h1, h2, if_false,
    Function.update_same, min_eq_right hw1, max_eq_right hw0]
  push_cast
  rfl

theorem updateRule_win_reach (L : ℚ) (rd : RuleType → Option RuleStats) (R : RuleType)
    (w : ℚ) (k T : Nat) (hR : rd R = some ⟨w, k, T⟩) (hk : k + 1 = T) :
    updateRule L true rd R R = some ⟨clampTo 0 1 (w + L), 0, T⟩ := by
  have h1 : (T : ℚ) ≤ (k : ℚ) + 1 := by
    have : ((k + 1 : Nat) : ℚ) = (T : ℚ) := by exact_mod_cast hk
    push_cast at this
    linarith
  simp only [updateRule, hR, Option.getD_some, if_true, ge_iff_le, h1,
    Function.update_same, clampTo]

theorem foldl_updateRule_absent (L : ℚ) (hasWon : Bool) (R : RuleType) :
    ∀ (vs : List RuleType) (rd : RuleType → Option RuleStats), vs.count R = 0 →
      vs.foldl (updateRule L hasWon) rd R = rd R
  | [], _, _ => rfl
  | v :: vs, rd, h => by
    have hne : R ≠ v := by
      intro heq
      subst heq
      simp at h
    have hc : vs.count R = 0 := by
      rw [List.count_cons_of_ne hne] at h
      exact h
    rw [List.foldl_cons, foldl_updateRule_absent L hasWon R vs _ hc, updateRule_other L hasWon rd hne]

theorem foldl_updateRule_below (L : ℚ) (R : RuleType) (w : ℚ) (T : Nat)
    (hw0 : 0 ≤ w) (hw1 : w ≤ 1) :
    ∀ (vs : List RuleType) (rd : RuleType → Option RuleStats) (k : Nat),
      rd R = some ⟨w, k, T⟩ → k + vs.count R < T →
      vs.foldl (updateRule L true) rd R = some ⟨w, ((k + vs.count R : Nat) : ℚ), T⟩
  | [], rd, k, hR, _ => by simpa using hR
  | v :: vs, rd, k, hR, hlt => by
    rw [List.foldl_cons]
    by_cases hv : v = R
    · subst hv
      rw [List.count_cons_self] at hlt ⊢
      have hstep := updateRule_win_below L rd v w k T hw0 hw1 hR (by omega)
      have := foldl_updateRule_below L v w T hw0 hw1 vs _ (k + 1) hstep (by omega)
      rw [this]
      congr 3
      omega
    · rw [List.count_cons_of_ne (Ne.symm hv)] at hlt ⊢
      have hR' : updateRule L true rd v R = some ⟨w, k, T⟩ := by
        rw [updateRule_other L true rd (Ne.symm hv)]
        exact hR
      exact foldl_updateRule_below L R w T hw0 hw1 vs _ k hR' hlt

theorem foldl_updateRule_reach (L : ℚ) (R : RuleType) (w : ℚ) (T : Nat)
    (hw0 : 0 ≤ w) (hw1 : w ≤ 1) :
    ∀ (vs : List RuleType) (rd : RuleType → Option RuleStats) (k : Nat),
      rd R = some ⟨w, k, T⟩ → k < T → k + vs.count R = T →
      vs.foldl (updateRule L true) rd R = some ⟨clampTo 0 1 (w + L), 0, T⟩
  | [], rd, k, _, hk, hc => by
    simp at hc
    omega
  | v :: vs, rd, k, hR, hk, hc => by
    rw [List.foldl_cons]
    by_cases hv : v = R
    · subst hv
      rw [List.count_cons_self] at hc
      by_cases hlast : k + 1 = T
      · have hstep := updateRule_win_reach L rd v w k T hR hlast
        rw [foldl_updateRule_absent L true v vs _ (by omega), hstep]
      · have hstep := updateRule_win_below L rd v w k T hw0 hw1 hR (by omega)
        exact foldl_updateRule_reach L v w T hw0 hw1 vs _ (k + 1) hstep (by omega) (by omega)
    · rw [List.count_cons_of_ne (Ne.symm hv)] at hc
      have hR' : updateRule L true rd v R = some ⟨w, k, T⟩ := by
        rw [updateRule_other L true rd (Ne.symm hv)]
        exact hR
      exact foldl_updateRule_reach L R w T hw0 hw1 vs _ k hR' hk hc

/-! ### Threshold behaviour of `updateFromGame` -/

theorem clampTo_unit_of_mem {x : ℚ} (h0 : 0 ≤ x) (h1 : x ≤ 1) : clampTo 0 1 x = x := by
  simp [clampTo, min_eq_right h1, max_eq_right h0]

theorem clampTo_unit_idem (x : ℚ) : clampTo 0 1 (clampTo 0 1 x) = clampTo 0 1 x := by
  apply clampTo_unit_of_mem
  · exact le_max_left _ _
  · exact max_le (by norm_num) (min_le_left _ _)

theorem updateFromGame_ruleData (lm : LearningModule) (history : GameHistory) (hasWon : Bool)
    (r : RuleType) :
    (lm.updateFromGame history hasWon).ruleData r =
      (updateLoop lm.learningRate hasWon history.moves lm.ruleData r).map (fun rs =>
        { rs with weight :=
            if 0 < clampedSum 0 1 (updateLoop lm.learningRate hasWon history.moves lm.ruleData)
            then clampTo 0 1 rs.weight /
              clampedSum 0 1 (updateLoop lm.learningRate hasWon history.moves lm.ruleData)
            else clampTo 0 1 rs.weight }) := by
  simp only [LearningModule.updateFromGame]
  rw [normalizeWeights_ruleData]

theorem mem_allRules (R : RuleType) : R ∈ allRules := by
  cases R <;> decide

theorem clampTo_le_clampedSum (rd : RuleType → Option RuleStats) (R : RuleType)
    (rs : RuleStats) (hR : rd R = some rs) :
    clampTo 0 1 rs.weight ≤ clampedSum 0 1 rd := by
  have hmem : rs.weight ∈ weightsOf rd := by
    simp only [weightsOf, List.mem_filterMap]
    exact ⟨R, mem_allRules R, by rw [hR]; rfl⟩
  have hnn : ∀ y ∈ (weightsOf rd).map (clampTo 0 1), 0 ≤ y := by
    intro y hy
    obtain ⟨z, _, rfl⟩ := List.mem_map.1 hy
    exact clampTo_nonneg (le_refl 0) z
  exact List.single_le_sum hnn _ (List.mem_map_of_mem _ hmem)

theorem div_unchanged_iff {w S : ℚ} (hw0 : 0 ≤ w) (hwS : w ≤ S) :
    (if 0 < S then w / S else w) = w ↔ (S = 1 ∨ w = 0) := by
  by_cases hS : 0 < S
  · simp only [hS, if_true]
    rw [div_eq_iff (ne_of_gt hS)]
    constructor
    · intro h
      by_cases hw : w = 0
      · exact Or.inr hw
      · left
        have : w * 1 = w * S := by rw [mul_one]; exact h
        exact (mul_left_cancel₀ hw this).symm
    · rintro (h | h)
      · rw [h, mul_one]
      · rw [h, zero_mul]
  · simp only [hS, if_false, true_iff]
    right
    linarith

/-- C3 (threshold determinism, amended): let rule `R` have weight `w` in
`[0, 1]`, counter `0` and threshold `T ≥ 1`, and let `S` be the sum of the
clamped weights after the update loop. On a won trace visiting `R` exactly `T`
times the loop steps `R` once (weight `clamp(w + L)`, counter `0`) and the
call returns `R` with counter `0` and weight `clamp(w + L) / S` when `S > 0`
(`clamp(w + L)` otherwise); on a won trace visiting `R` exactly `T - 1` times
the loop leaves the weight `w` with counter `T - 1` and the call returns
counter `T - 1` and weight `w / S` when `S > 0` (`w` otherwise), so that the
returned entry still has weight `w` exactly when `S = 1` or `w = 0`. -/
theorem updateFromGame_threshold (lm : LearningModule) (history : GameHistory) (R : RuleType)
    (w : ℚ) (T : Nat) (hT : 1 ≤ T) (hw0 : 0 ≤ w) (hw1 : w ≤ 1)
    (hR : lm.ruleData R = some ⟨w, 0, T⟩) :
    (supportCount R history.moves = T →
      updateLoop lm.learningRate true history.moves lm.ruleData R =
        some ⟨clampTo 0 1 (w + lm.learningRate), 0, T⟩ ∧
      (lm.updateFromGame history true).ruleData R =
        some ⟨if 0 < clampedSum 0 1 (updateLoop lm.learningRate true history.moves lm.ruleData)
          then clampTo 0 1 (w + lm.learningRate) /
            clampedSum 0 1 (updateLoop lm.learningRate true history.moves lm.ruleData)
          else clampTo 0 1 (w + lm.learningRate), 0, T⟩) ∧
    (supportCount R history.moves = T - 1 →
      updateLoop lm.learningRate true history.moves lm.ruleData R =
        some ⟨w, ((T - 1 : Nat) : ℚ), T⟩ ∧
      (lm.updateFromGame history true).ruleData R =
        some ⟨if 0 < clampedSum 0 1 (updateLoop lm.learningRate true history.moves lm.ruleData)
          then w / clampedSum 0 1 (updateLoop lm.learningRate true history.moves lm.ruleData)
          else w, ((T - 1 : Nat) : ℚ), T⟩ ∧
      ((lm.updateFromGame history true).ruleData R = some ⟨w, ((T - 1 : Nat) : ℚ), T⟩ ↔
        (clampedSum 0 1 (updateLoop lm.learningRate true history.moves lm.ruleData) = 1 ∨
          w = 0))) := by
  have hR0 : lm.ruleData R = some ⟨w, ((0 : Nat) : ℚ), T⟩ := by
    simpa using hR
  constructor
  · intro hc
    have hloop : updateLoop lm.learningRate true history.moves lm.ruleData R =
        some ⟨clampTo 0 1 (w + lm.learningRate), 0, T⟩ := by
      rw [updateLoop_eq_foldl]
      exact foldl_updateRule_reach lm.learningRate R w T hw0 hw1 _ _ 0 hR0 (by omega)
        (by rw [supportCount] at hc; omega)
    refine ⟨hloop, ?_⟩
    rw [updateFromGame_ruleData, hloop]
    simp only [Option.map_some', clampTo_unit_idem]
  · intro hc
    have hloop : updateLoop lm.learningRate true history.moves lm.ruleData R =
        some ⟨w, ((T - 1 : Nat) : ℚ), T⟩ := by
      rw [updateLoop_eq_foldl]
      have := foldl_updateRule_below lm.learningRate R w T hw0 hw1
        (history.moves.flatMap (fun moveRecord => moveRecord.rules)) _ 0 hR0
        (by rw [supportCount] at hc; omega)
      rw [this]
      rw [supportCount] at hc
      rw [hc, Nat.zero_add]
    have hret : (lm.updateFromGame history true).ruleData R =
        some ⟨if 0 < clampedSum 0 1 (updateLoop lm.learningRate true history.moves lm.ruleData)
          then w / clampedSum 0 1 (updateLoop lm.learningRate true history.moves lm.ruleData)
          else w, ((T - 1 : Nat) : ℚ), T⟩ := by
      rw [updateFromGame_ruleData, hloop]
      simp only [Option.map_some', clampTo_unit_of_mem hw0 hw1]
    refine ⟨hloop, hret, ?_⟩
    have hle := clampTo_le_clampedSum _ R _ hloop
    simp only [clampTo_unit_of_mem hw0 hw1] at hle
    rw [hret, ← div_unchanged_iff hw0 hle]
    constructor
    · intro h
      have := congrArg (fun o : Option RuleStats => o.map (fun rs => rs.weight)) h
      simpa using this
    · intro h
      rw [h]

/-- Witness of C3 (amended) for `RULE_BLOCK` with threshold `5`: on the engine
configured by `main`, five visits and four visits; on the same engine four
visits beside five visits of `RULE_CENTER`, where `S = 1.02` and the weight
`0.278` becomes `139/510`; and on an engine holding `RULE_BLOCK` at weight `0`
beside `RULE_CENTER` at `0.5`, four visits, where `S = 0.5` and the weight
stays `0`. -/
theorem updateFromGame_threshold_witness :
    ((learnerMain.updateFromGame (historyOf (traceOf RULE_BLOCK 5)) true).ruleData RULE_BLOCK =
      some ⟨if 0 < clampedSum 0 1 (updateLoop learnerMain.learningRate true
            (historyOf (traceOf RULE_BLOCK 5)).moves learnerMain.ruleData)
          then clampTo 0 1 (139/500 + learnerMain.learningRate) /
            clampedSum 0 1 (updateLoop learnerMain.learningRate true
              (historyOf (traceOf RULE_BLOCK 5)).moves learnerMain.ruleData)
          else clampTo 0 1 (139/500 + learnerMain.learningRate), 0, (5 : Nat)⟩) ∧
    ((learnerMain.updateFromGame (historyOf (traceOf RULE_BLOCK 4)) true).ruleData RULE_BLOCK =
      some ⟨if 0 < clampedSum 0 1 (updateLoop learnerMain.learningRate true
            (historyOf (traceOf RULE_BLOCK 4)).moves learnerMain.ruleData)
          then 139/500 / clampedSum 0 1 (updateLoop learnerMain.learningRate true
              (historyOf (traceOf RULE_BLOCK 4)).moves learnerMain.ruleData)
          else 139/500, ((5 - 1 : Nat) : ℚ), (5 : Nat)⟩) ∧
    (((learnerMain.updateFromGame (historyOf (traceOf RULE_BLOCK 4 ++ traceOf RULE_CENTER 5))
          true).ruleData RULE_BLOCK = some ⟨139/500, ((5 - 1 : Nat) : ℚ), (5 : Nat)⟩ ↔
        (clampedSum 0 1 (updateLoop learnerMain.learningRate true
            (historyOf (traceOf RULE_BLOCK 4 ++ traceOf RULE_CENTER 5)).moves
            learnerMain.ruleData) = 1 ∨ (139/500 : ℚ) = 0)) ∧
      clampedSum 0 1 (updateLoop learnerMain.learningRate true
        (historyOf (traceOf RULE_BLOCK 4 ++ traceOf RULE_CENTER 5)).moves
        learnerMain.ruleData) = 51/50 ∧
      (learnerMain.updateFromGame (historyOf (traceOf RULE_BLOCK 4 ++ traceOf RULE_CENTER 5))
          true).ruleData RULE_BLOCK = some ⟨139/510, 4, 5⟩) ∧
    (((learnerBlockZero.updateFromGame (historyOf (traceOf RULE_BLOCK 4)) true).ruleData
          RULE_BLOCK = some ⟨0, ((5 - 1 : Nat) : ℚ), (5 : Nat)⟩ ↔
        (clampedSum 0 1 (updateLoop learnerBlockZero.learningRate true
            (historyOf (traceOf RULE_BLOCK 4)).moves learnerBlockZero.ruleData) = 1 ∨
          (0 : ℚ) = 0)) ∧
      clampedSum 0 1 (updateLoop learnerBlockZero.learningRate true
        (historyOf (traceOf RULE_BLOCK 4)).moves learnerBlockZero.ruleData) = 1/2 ∧
      (learnerBlockZero.updateFromGame (historyOf (traceOf RULE_BLOCK 4)) true).ruleData
        RULE_BLOCK = some ⟨0, 4, 5⟩) :=
  ⟨((updateFromGame_threshold learnerMain (historyOf (traceOf RULE_BLOCK 5)) RULE_BLOCK
      (139/500) 5 (by decide) (by decide!) (by decide!) (by decide!)).1 (by decide)).2,
   ((updateFromGame_threshold learnerMain (historyOf (traceOf RULE_BLOCK 4)) RULE_BLOCK
      (139/500) 5 (by decide) (by decide!) (by decide!) (by decide!)).2 (by decide)).2.1,
   ⟨((updateFromGame_threshold learnerMain
      (historyOf (traceOf RULE_BLOCK 4 ++ traceOf RULE_CENTER 5)) RULE_BLOCK
      (139/500) 5 (by decide) (by decide!) (by decide!) (by decide!)).2 (by decide)).2.2,
    by decide!, by decide!⟩,
   ⟨((updateFromGame_threshold learnerBlockZero (historyOf (traceOf RULE_BLOCK 4)) RULE_BLOCK
      0 5 (by decide) (by decide!) (by decide!) (by decide!)).2 (by decide)).2.2,
    by decide!, by decide!⟩⟩

/-- Counterexample to C3 as stated, on the engine configured by `main`
(`L = 0.02`, `RULE_BLOCK` at weight `0.278`, counter `0`, threshold `5`): after
five won visits the weight is `149/510`, not `0.278 + 0.02`; after four won
visits in a trace where `RULE_CENTER` is visited five times the weight is
`139/510`, not `0.278`; and a weight `1.5` outside `[0, 1]` is clamped to `1`
by four won visits. -/
theorem updateFromGame_threshold_counterexample :
    (learnerMain.learningRate = 1/50 ∧
      learnerMain.ruleData RULE_BLOCK = some ⟨139/500, 0, 5⟩ ∧
      supportCount RULE_BLOCK (traceOf RULE_BLOCK 5) = 5 ∧
      (learnerMain.updateFromGame (historyOf (traceOf RULE_BLOCK 5)) true).ruleData RULE_BLOCK =
        some ⟨149/510, 0, 5⟩ ∧
      (149/510 : ℚ) ≠ 139/500 + 1/50) ∧
    (supportCount RULE_BLOCK (traceOf RULE_BLOCK 4 ++ traceOf RULE_CENTER 5) = 4 ∧
      (learnerMain.updateFromGame
          (historyOf (traceOf RULE_BLOCK 4 ++ traceOf RULE_CENTER 5)) true).ruleData RULE_BLOCK =
        some ⟨139/510, 4, 5⟩ ∧
      (139/510 : ℚ) ≠ 139/500) ∧
    ((learnerBlockOnly (3/2)).ruleData RULE_BLOCK = some ⟨3/2, 0, 5⟩ ∧
      supportCount RULE_BLOCK (traceOf RULE_BLOCK 4) = 4 ∧
      ((learnerBlockOnly (3/2)).updateFromGame
          (historyOf (traceOf RULE_BLOCK 4)) true).ruleData RULE_BLOCK =
        some ⟨1, 4, 5⟩ ∧
      (1 : ℚ) ≠ 3/2) := by
  decide!

/-! ### Weight configuration and fallbacks -/

theorem weightAt_of_take_eq {w w2 : List ℚ} (h : w2.take 5 = w.take 5) (k : Nat) (hk : k < 5) :
    weightAt w2 (k : Int) = weightAt w (k : Int) := by
  have e : ∀ v : List ℚ, weightAt v (k : Int) = (v.take 5).getD k 0 := by
    intro v
    simp only [weightAt, Int.toNat_ofNat, List.getD_eq_getElem?_getD]
    rw [List.getElem?_take_of_lt hk]
  rw [e w2, e w, h]

/-- C11 (invalid configuration): with fewer than five weights `evaluate`
returns the empty list; with five or more its result is determined by the
first five entries (a second weight vector with at least five entries and the
same first five gives the same result), so no weight at index 5 or above is
read. -/
theorem evaluate_invalid_configuration (board : Board) (s : Char) (w : List ℚ) :
    (w.length < 5 → evaluate board s w = []) ∧
    (5 ≤ w.length → ∀ w2 : List ℚ, 5 ≤ w2.length → w2.take 5 = w.take 5 →
      evaluate board s w2 = evaluate board s w) := by
  refine ⟨evaluate_short board s w, ?_⟩
  intro hw w2 hw2 ht
  rw [evaluate_eq_flatMap board s w hw, evaluate_eq_flatMap board s w2 hw2]
  congr 1
  funext i
  have h0 := weightAt_of_take_eq ht 0 (by decide)
  have h1 := weightAt_of_take_eq ht 1 (by decide)
  have h2 := weightAt_of_take_eq ht 2 (by decide)
  have h3 := weightAt_of_take_eq ht 3 (by decide)
  have h4 := weightAt_of_take_eq ht 4 (by decide)
  simp only [Nat.cast_ofNat, Nat.cast_zero, Nat.cast_one] at h0 h1 h2 h3 h4
  rw [evaluateCell_nil, evaluateCell_nil, h0, h1, h2, h3, h4]

/-- Witness of C11: two weights give no contribution, and two extra weights after
the five of `weightsFifth` change nothing. -/
theorem evaluate_invalid_configuration_witness :
    ([1/2, 1/2] : List ℚ).length < 5 ∧ evaluate boardScenario 'O' [1/2, 1/2] = [] ∧
    (5 ≤ weightsFifth.length ∧ 5 ≤ (weightsFifth ++ [7, 9]).length ∧
      (weightsFifth ++ [7, 9]).take 5 = weightsFifth.take 5) ∧
    evaluate boardScenario 'O' (weightsFifth ++ [7, 9]) = evaluate boardScenario 'O' weightsFifth :=
  ⟨by decide, (evaluate_invalid_configuration boardScenario 'O' [1/2, 1/2]).1 (by decide),
    ⟨by decide, by decide, by decide!⟩,
    (evaluate_invalid_configuration boardScenario 'O' weightsFifth).2 (by decide)
      (weightsFifth ++ [7, 9]) (by decide) (by decide!)⟩

/-- C12 (fallback on missing guidance): on a board with an empty cell and no
immediate winning cell, a player with fewer than five weights returns the
lowest-indexed empty cell with an empty list of supporting heuristics, for
every draw. -/
theorem chooseMove_short_weights (p : RulEvolutionPlayer) (board : Board) (draw : ℚ)
    (hE : ∃ i : Int, board.isEmpty i = true)
    (hwin : ∀ i : Int, board.isEmpty i = true → (board.place i p.symbol).1.winner ≠ p.symbol)
    (hw : p.state.weights.length < 5) :
    (p.chooseMove board draw).2 = [] ∧
    IsLeast {i : Int | board.isEmpty i = true} (p.chooseMove board draw).1 := by
  obtain ⟨c0, hc0, hc0E, hmin⟩ := firstEmpty_some board hE
  have e : p.chooseMove board draw = (c0, []) := by
    simp only [RulEvolutionPlayer.chooseMove, winningCell_eq_none board p.symbol hwin,
      evaluate_short board p.symbol p.state.weights hw, List.isEmpty_nil, if_true, hc0]
  rw [e]
  exact ⟨rfl, hc0E, fun j hj => hmin j hj⟩

theorem isEmpty_false_of_isFull {board : Board} (h : board.isFull = true) (i : Int) :
    board.isEmpty i = false := by
  by_contra hne
  have hE : board.isEmpty i = true := by
    cases hb : board.isEmpty i with
    | true => rfl
    | false => exact absurd hb hne
  obtain ⟨h0, h9⟩ := isEmpty_range hE
  simp only [Board.isEmpty, Bool.and_eq_true, decide_eq_true_eq, beq_iff_eq] at hE
  have hcell := hE.2
  simp only [Board.cell, h0, h9, and_self, dite_true] at hcell
  simp only [Board.isFull, List.all_eq_true, bne_iff_ne, ne_eq] at h
  exact h _ (List.mem_finRange _) hcell

/-- C15 (full board, amended): on a board with no empty cell `chooseMove`
signals no failure; it returns the index `0` with an empty list of supporting
heuristics, for every player and draw. -/
theorem chooseMove_full_board (p : RulEvolutionPlayer) (board : Board) (draw : ℚ)
    (hfull : board.isFull = true) :
    p.chooseMove board draw = (0, []) := by
  have hno : ∀ i : Int, board.isEmpty i = false := isEmpty_false_of_isFull hfull
  have hwin : winningCell board p.symbol = none := by
    rw [winningCell, List.find?_eq_none]
    intro i _
    simp [hno i]
  have hfirst : firstEmpty board = none := by
    rw [firstEmpty, List.find?_eq_none]
    intro i _
    simp [hno i]
  have hev : evaluate board p.symbol p.state.weights = [] := by
    by_cases hw : 5 ≤ p.state.weights.length
    · rw [evaluate_eq_flatMap board p.symbol p.state.weights hw, List.flatMap_eq_nil_iff]
      intro i _
      rw [evaluateCell_nil, hno i]
      simp
    · exact evaluate_short board p.symbol p.state.weights (by omega)
  simp only [RulEvolutionPlayer.chooseMove, hwin, hev, List.isEmpty_nil, if_true, hfirst]

/-- Witness of C12 on the empty board for a player with two weights. -/
theorem chooseMove_short_weights_witness :
    ((∃ i : Int, boardEmpty.isEmpty i = true) ∧ playerShort.state.weights.length < 5) ∧
    playerShort.chooseMove boardEmpty (1/2) = (0, []) ∧
    (playerShort.chooseMove boardEmpty (1/2)).2 = [] ∧
    IsLeast {i : Int | boardEmpty.isEmpty i = true} (playerShort.chooseMove boardEmpty (1/2)).1 :=
  ⟨⟨⟨0, by decide⟩, by decide⟩, by decide,
    chooseMove_short_weights playerShort boardEmpty (1/2) ⟨0, by decide⟩ boardEmpty_no_win
      (by decide)⟩

/-- Witness of C15 (amended) on the full board `X O X / X O O / O X X`. -/
theorem chooseMove_full_board_witness :
    boardFull.isFull = true ∧ playerO.chooseMove boardFull (1/2) = (0, []) :=
  ⟨by decide, chooseMove_full_board playerO boardFull (1/2) (by decide)⟩

/-- Counterexample to C15 as stated: on the full board `X O X / X O O / O X X`
`chooseMove` returns the cell index `0`, for players with five and with two
weights. -/
theorem chooseMove_full_board_counterexample :
    boardFull.isFull = true ∧ (∀ i ∈ cellIndices, boardFull.isEmpty i = false) ∧
    boardFull.winner = ' ' ∧
    playerO.chooseMove boardFull 0 = (0, []) ∧
    playerO.chooseMove boardFull (1/2) = (0, []) ∧
    playerShort.chooseMove boardFull 1 = (0, []) := by
  decide!

/-- C13 (non-positive scores), evaluation of the code on the empty board,
where no cell wins. With the Corner weight `0` and the draw `0`, cell `4` has the
positive score `0.5` but the returned cell is `0`, whose aggregate score is `0`.
With the Corner weight `-0.5` and the draw `1`, the returned cell is `0`, whose
aggregate score is `-0.5`. -/
theorem chooseMove_selects_nonpositive_score :
    ((∀ i ∈ cellIndices, boardEmpty.isEmpty i = true →
        (boardEmpty.place i playerZeroCorner.symbol).1.winner ≠ playerZeroCorner.symbol) ∧
      5 ≤ playerZeroCorner.state.weights.length ∧
      0 < cellScore (evaluate boardEmpty 'O' playerZeroCorner.state.weights) 4 ∧
      playerZeroCorner.chooseMove boardEmpty 0 = (0, [RULE_CORNER]) ∧
      cellScore (evaluate boardEmpty 'O' playerZeroCorner.state.weights) 0 = 0) ∧
    (5 ≤ playerNegativeCorner.state.weights.length ∧
      0 < cellScore (evaluate boardEmpty 'O' playerNegativeCorner.state.weights) 4 ∧
      playerNegativeCorner.chooseMove boardEmpty 1 = (0, [RULE_CORNER]) ∧
      cellScore (evaluate boardEmpty 'O' playerNegativeCorner.state.weights) 0 = -1/2) := by
  decide!

theorem sum_filter_le_of_nonpos (f : Int → ℚ) (hf : ∀ k, f k ≤ 0) (p q : Int → Bool)
    (hpq : ∀ k, p k = true → q k = true) :
    ∀ l : List Int, ((l.filter q).map f).sum ≤ ((l.filter p).map f).sum
  | [] => by simp
  | a :: l => by
    have ih := sum_filter_le_of_nonpos f hf p q hpq l
    by_cases hp : p a = true
    · have hq := hpq a hp
      simp only [List.filter_cons, hp, hq, if_true, List.map_cons, List.sum_cons]
      linarith
    · by_cases hq : q a = true
      · simp only [List.filter_cons, hp, hq, if_true, if_false, Bool.false_eq_true,
          List.map_cons, List.sum_cons]
        have := hf a
        linarith
      · simp only [List.filter_cons, hp, hq, if_false, Bool.false_eq_true]
        exact ih

theorem evaluate_exists_cell (board : Board) (s : Char) (w : List ℚ) (hw : 5 ≤ w.length)
    (c : Int) : (∃ e ∈ evaluate board s w, e.moveIndex = c) ↔ board.isEmpty c = true := by
  constructor
  · rintro ⟨e, he, hc⟩
    rw [← hc]
    exact (evaluate_mem board s w e he).1
  · intro hE
    have hne : evaluateCell board s (opponentOf s) w [] c ≠ [] := by
      rw [evaluateCell_nil]
      simp only [hE, if_true]
      obtain ⟨h0, h9⟩ := isEmpty_range hE
      interval_cases c <;> simp
    obtain ⟨e, he⟩ := List.exists_mem_of_ne_nil _ hne
    rw [← evaluate_filter_cell board s w hw c, List.mem_filter] at he
    exact ⟨e, he.1, by simpa using he.2⟩

theorem mem_candidateCells_evaluate (board : Board) (s : Char) (w : List ℚ)
    (hw : 5 ≤ w.length) (c : Int) :
    c ∈ candidateCells (evaluate board s w) ↔ board.isEmpty c = true := by
  rw [mem_candidateCells, evaluate_exists_cell board s w hw c]
  constructor
  · exact fun h => h.2
  · exact fun h => ⟨isEmpty_range h, h⟩

/-- C14 (zero-mass fallback): on a board with an empty cell and no immediate
winning cell, with at least five weights, when no cell has a strictly positive
aggregate score `chooseMove` returns the lowest-indexed empty cell, for every
draw. -/
theorem chooseMove_zero_mass (p : RulEvolutionPlayer) (board : Board) (draw : ℚ)
    (hE : ∃ i : Int, board.isEmpty i = true)
    (hwin : ∀ i : Int, board.isEmpty i = true → (board.place i p.symbol).1.winner ≠ p.symbol)
    (hw : 5 ≤ p.state.weights.length)
    (hnp : ∀ c : Int, cellScore (evaluate board p.symbol p.state.weights) c ≤ 0) :
    IsLeast {i : Int | board.isEmpty i = true} (p.chooseMove board draw).1 := by
  obtain ⟨c0, hc0, hc0E, hmin⟩ := firstEmpty_some board hE
  have hc0mem : c0 ∈ candidateCells (evaluate board p.symbol p.state.weights) :=
    (mem_candidateCells_evaluate board p.symbol p.state.weights hw c0).2 hc0E
  have hne : evaluate board p.symbol p.state.weights ≠ [] := by
    intro h
    rw [h] at hc0mem
    simp [candidateCells] at hc0mem
  have hres : (p.chooseMove board draw).1 = c0 := by
    rw [chooseMove_eval_path p board draw (winningCell_eq_none board p.symbol hwin) hne]
    cases hf : (candidateCells (evaluate board p.symbol p.state.weights)).find? (fun c =>
        decide (draw * totalPositiveScore (evaluate board p.symbol p.state.weights) ≤
          cumulativeScore (evaluate board p.symbol p.state.weights) c)) with
    | some c =>
      obtain ⟨h1, h2, h3⟩ := find?_sorted_some (candidateCells_sorted _) hf
      simp only [decide_eq_true_eq] at h1 h3
      have hcE : board.isEmpty c = true :=
        (mem_candidateCells_evaluate board p.symbol p.state.weights hw c).1 h2
      have hle : c0 ≤ c := hmin c hcE
      have hcum : cumulativeScore (evaluate board p.symbol p.state.weights) c ≤
          cumulativeScore (evaluate board p.symbol p.state.weights) c0 :=
        sum_filter_le_of_nonpos _ hnp (fun k => decide (k ≤ c0)) (fun k => decide (k ≤ c))
          (fun k hk => by
            simp only [decide_eq_true_eq] at hk ⊢
            omega) _
      have hge : c ≤ c0 := h3 c0 hc0mem (le_trans h1 hcum)
      show c = c0
      omega
    | none =>
      simp only [hc0]
  rw [hres]
  exact ⟨hc0E, fun j hj => hmin j hj⟩

/-- Witness of C14 on the empty board for a player whose five weights are `0`. -/
theorem chooseMove_zero_mass_witness :
    ((∃ i : Int, boardEmpty.isEmpty i = true) ∧ 5 ≤ playerZero.state.weights.length) ∧
    playerZero.chooseMove boardEmpty (1/2) = (0, [RULE_CORNER]) ∧
    IsLeast {i : Int | boardEmpty.isEmpty i = true} (playerZero.chooseMove boardEmpty (1/2)).1 :=
  ⟨⟨⟨0, by decide⟩, by decide⟩, by decide!,
    chooseMove_zero_mass playerZero boardEmpty (1/2) ⟨0, by decide⟩ boardEmpty_no_win
      (by decide) (by
        intro c
        by_cases hc : c ∈ cellIndices
        · have h := (mem_cellIndices c).1 hc
          obtain ⟨h0, h9⟩ := h
          interval_cases c <;> decide!
        · rw [cellScore_absent]
          intro ⟨e, he, hm⟩
          have := isEmpty_mem (evaluate_mem _ _ _ e he).1
          rw [hm] at this
          exact hc this)⟩

/-! ### Match loop and learning -/

/-- C16 (no-signal draws): when `play` returns `' '`, `playAndLearn` returns
`' '` and leaves the global `learner` exactly as it was (every weight, counter
and threshold), whatever the recorded trace. -/
theorem playAndLearn_draw (g : Game) (learner : LearningModule) (startRand : Nat)
    (h : (g.play startRand).map Prod.fst = some ' ') :
    ∃ g2 : Game, g.play startRand = some (' ', g2) ∧
      g.playAndLearn learner startRand = some (' ', g2, learner, g2.gameHistory) := by
  cases hp : g.play startRand with
  | none =>
    rw [hp] at h
    simp at h
  | some r =>
    obtain ⟨winner, g2⟩ := r
    rw [hp] at h
    simp only [Option.map_some', Option.some.injEq] at h
    subst h
    refine ⟨g2, rfl, ?_⟩
    simp [Game.playAndLearn, hp]

/-- Witness of C16 on a drawn match between a stochastic `X` and a RulEvolution
`O`. -/
theorem playAndLearn_draw_witness :
    ((Game.new matchDraw.playerX matchDraw.playerO).play 0).map Prod.fst = some ' ' ∧
    ∃ g2 : Game, (Game.new matchDraw.playerX matchDraw.playerO).play 0 = some (' ', g2) ∧
      (Game.new matchDraw.playerX matchDraw.playerO).playAndLearn learnerMain 0 =
        some (' ', g2, learnerMain, g2.gameHistory) :=
  ⟨by decide!, playAndLearn_draw (Game.new matchDraw.playerX matchDraw.playerO) learnerMain 0
    (by decide!)⟩

/-- C17 (batch outcome), evaluation of the match loop of `main` on one match.
A drawn match gives `learners[0]` the loss steps: its counters go from `0` to
`-1, -1, -2, -1, -3`. A match won by the stochastic player `X`, hence lost by
the RulEvolution player, gives `learners[0]` the win steps: the counters of
Corner, Side and Preparation go to `+1`. -/
theorem trainingLoop_ignores_outcome :
    (((Game.new matchDraw.playerX matchDraw.playerO).play matchDraw.startRand).map Prod.fst =
        some ' ' ∧
      (trainingLoop learnerMain [matchDraw] learnerMain).map (fun r =>
          r.2.map (fun l => allRules.map (fun rule =>
            (l.ruleData rule).map (fun rs => rs.counter)))) =
        some [[none, some (-1), some (-1), some (-2), some (-1), some (-3)]]) ∧
    (((Game.new matchStochasticWins.playerX matchStochasticWins.playerO).play
          matchStochasticWins.startRand).map Prod.fst = some 'X' ∧
      matchStochasticWins.playerX.isRulEvolution = false ∧
      (trainingLoop learnerMain [matchStochasticWins] learnerMain).map (fun r =>
          r.2.map (fun l => allRules.map (fun rule =>
            (l.ruleData rule).map (fun rs => rs.counter)))) =
        some [[none, some 0, some 0, some 1, some 1, some 1]]) := by
  decide!

/-- C19 (batch isolation), evaluation of the match loop of `main` on one match
won by the stochastic player `X`: after the loop and before the merge the
counters of Corner, Side and Preparation of the global `learner` are `-1`,
while they were `0` in the baseline. -/
theorem trainingLoop_changes_shared_learner :
    ((Game.new matchStochasticWins.playerX matchStochasticWins.playerO).play
        matchStochasticWins.startRand).map Prod.fst = some 'X' ∧
    allRules.map (fun rule => (learnerMain.ruleData rule).map (fun rs => rs.counter)) =
      [none, some 0, some 0, some 0, some 0, some 0] ∧
    (trainingLoop learnerMain [matchStochasticWins] learnerMain).map (fun r =>
        allRules.map (fun rule => (r.1.ruleData rule).map (fun rs => rs.counter))) =
      some [none, some 0, some 0, some (-1), some (-1), some (-1)] := by
  decide!

/-- C18 (merge by averaging), evaluation of the super-training mode of `main`.
With one drawn match the global `learner` and `learners[0]` both hold Block at
`0.278` before the merge, and the merge writes `0.556`, the sum divided by `1`,
not `0.278`, the sum divided by `1 + 1`. With two drawn matches it writes
`0.417`, the sum divided by `2`, not by `2 + 1`. -/
theorem mergeStep_divides_by_count :
    (trainingLoop learnerMain [matchDraw] learnerMain).map (fun r =>
        ((r.1.ruleData RULE_BLOCK).map (fun rs => rs.weight),
          r.2.map (fun l => (l.ruleData RULE_BLOCK).map (fun rs => rs.weight)))) =
      some (some (139/500), [some (139/500)]) ∧
    (superTraining learnerMain 1 [matchDraw]).map (fun l =>
        (l.ruleData RULE_BLOCK).map (fun rs => rs.weight)) = some (some (139/250)) ∧
    (139/250 : ℚ) ≠ clampTo 0 1 ((139/500 + 139/500) / (1 + 1)) ∧
    (superTraining learnerMain 1 [matchDraw, matchDraw]).map (fun l =>
        (l.ruleData RULE_BLOCK).map (fun rs => rs.weight)) = some (some (417/1000)) ∧
    (417/1000 : ℚ) ≠ clampTo 0 1 ((139/500 + (139/500 + 139/500)) / (2 + 1)) := by
  decide!

/-- C20 (sum invariant), evaluation of `updateFromGame` on the engine configured
by `main` (five adaptive rules, weights summing to `1`) and the won trace of
one move supported by `RULE_WIN`, as `chooseMove` reports it: an entry for
`RULE_WIN` with weight `1/3` is created and the five adaptive weights sum to
`2/3`. -/
theorem updateFromGame_win_record_breaks_sum :
    (learnerMain.ruleData RULE_WIN = none ∧
      (weightsOf learnerMain.ruleData).sum = 1) ∧
    playerO.chooseMove boardScenario (1/2) = (5, [RULE_WIN]) ∧
    (learnerMain.updateFromGame (historyOf [⟨5, [RULE_WIN]⟩]) true).ruleData RULE_WIN =
      some ⟨1/3, 1, 5⟩ ∧
    ([RULE_BLOCK, RULE_CENTER, RULE_CORNER, RULE_SIDE, RULE_PREPARATION].map (fun rule =>
        (((learnerMain.updateFromGame (historyOf [⟨5, [RULE_WIN]⟩]) true).ruleData rule).map
          (fun rs => rs.weight)).getD 0)).sum = 2/3 := by
  decide!

/-! ### Termination of the match loop -/

theorem place_success {board : Board} {idx : Int} {player : Char}
    (h : (board.place idx player).2 = true) :
    (0 ≤ idx ∧ idx < 9) ∧ board.cell idx = ' ' ∧
      (board.place idx player).1 = board.setCell idx player := by
  simp only [Board.place] at h ⊢
  by_cases hr : idx < 0 ∨ idx ≥ 9
  · simp [hr] at h
  · by_cases hc : board.cell idx = ' '
    · simp only [hr, hc, if_false, if_true]
      exact ⟨by omega, trivial, trivial⟩
    · simp [hr, hc] at h

theorem emptyCells_setCell (board : Board) (idx : Int) (player : Char)
    (hr : 0 ≤ idx ∧ idx < 9) (hc : board.cell idx = ' ') (hp : player ≠ ' ') :
    (Finset.univ.filter (fun j : Fin 9 => (board.setCell idx player).cells j = ' ')).card + 1 =
      (Finset.univ.filter (fun j : Fin 9 => board.cells j = ' ')).card := by
  have hj0 : (⟨idx.toNat, by omega⟩ : Fin 9) ∈
      Finset.univ.filter (fun j : Fin 9 => board.cells j = ' ') := by
    simp only [Finset.mem_filter, Finset.mem_univ, true_and]
    simpa [Board.cell, hr.1, hr.2] using hc
  have hset : Finset.univ.filter (fun j : Fin 9 => (board.setCell idx player).cells j = ' ') =
      (Finset.univ.filter (fun j : Fin 9 => board.cells j = ' ')).erase
        (⟨idx.toNat, by omega⟩ : Fin 9) := by
    ext j
    simp only [Board.setCell, Finset.mem_filter, Finset.mem_univ, true_and, Finset.mem_erase]
    by_cases hj : (j.val : Int) = idx
    · have : j = (⟨idx.toNat, by omega⟩ : Fin 9) := by
        apply Fin.ext
        simp only
        omega
      simp [hj, hp, this, hr.1]
    · have : j ≠ (⟨idx.toNat, by omega⟩ : Fin 9) := by
        intro hcon
        apply hj
        rw [hcon]
        simp only
        omega
      simp [hj, this]
  rw [hset, Finset.card_erase_of_mem hj0]
  have hpos : 0 < (Finset.univ.filter (fun j : Fin 9 => board.cells j = ' ')).card :=
    Finset.card_pos.2 ⟨_, hj0⟩
  omega

theorem isFull_eq_false_iff (board : Board) :
    board.isFull = false ↔
      0 < (Finset.univ.filter (fun j : Fin 9 => board.cells j = ' ')).card := by
  rw [Finset.card_pos]
  constructor
  · intro h
    by_contra hne
    have : board.isFull = true := by
      simp only [Board.isFull, List.all_eq_true, bne_iff_ne, ne_eq]
      intro j _ hj
      exact hne ⟨j, by simp [hj]⟩
    rw [this] at h
    exact Bool.noConfusion h
  · rintro ⟨j, hj⟩
    simp only [Finset.mem_filter, Finset.mem_univ, true_and] at hj
    cases hf : board.isFull with
    | false => rfl
    | true =>
      simp only [Board.isFull, List.all_eq_true, bne_iff_ne, ne_eq] at hf
      exact absurd hj (hf j (List.mem_finRange j))

/-- With enough fuel the loop of `Game::play` returns, provided every move
request returns (no human player left without a valid entry). -/
theorem playLoop_returns :
    ∀ (fuel : Nat) (g : Game) (moveCount : Nat), 1 ≤ fuel →
      (Finset.univ.filter (fun j : Fin 9 => g.board.cells j = ' ')).card ≤ fuel →
      (g.currentTurn = 'X' ∨ g.currentTurn = 'O') →
      (∀ n board, g.playerX.requestMove n board ≠ none) →
      (∀ n board, g.playerO.requestMove n board ≠ none) →
      ∃ r, Game.playLoop fuel g moveCount = some r
  | 0, _, _, h1, _, _, _, _ => by omega
  | fuel + 1, g, moveCount, _, hcard, hturn, hX, hO => by
    have hreq : ∃ mv, (if g.currentTurn = 'X' then g.playerX else g.playerO).requestMove
        moveCount g.board = some mv := by
      by_cases ht : g.currentTurn = 'X'
      · simp only [ht, if_true]
        exact Option.ne_none_iff_exists'.1 (hX moveCount g.board)
      · simp only [ht, if_false]
        exact Option.ne_none_iff_exists'.1 (hO moveCount g.board)
    obtain ⟨⟨move, rulesUsed⟩, hmv⟩ := hreq
    simp only [Game.playLoop, hmv]
    by_cases hplaced : (g.board.place move g.currentTurn).2 = true
    · obtain ⟨hr, hc, hb⟩ := place_success hplaced
      have hp : g.currentTurn ≠ ' ' := by
        rcases hturn with h | h <;> rw [h] <;> decide
      have hdec := emptyCells_setCell g.board move g.currentTurn hr hc hp
      rw [← hb] at hdec
      simp only [hplaced, Bool.not_true, Bool.false_eq_true, if_false]
      by_cases hwin : (g.board.place move g.currentTurn).1.winner ≠ ' '
      · simp only [hwin, ne_eq, not_false_eq_true, if_true]
        exact ⟨_, rfl⟩
      · simp only [hwin, if_false]
        by_cases hfull : (g.board.place move g.currentTurn).1.isFull = true
        · simp only [hfull, if_true]
          exact ⟨_, rfl⟩
        · simp only [hfull, Bool.false_eq_true, if_false]
          have hnf : (g.board.place move g.currentTurn).1.isFull = false := by
            cases hb2 : (g.board.place move g.currentTurn).1.isFull with
            | false => rfl
            | true => exact absurd hb2 hfull
          have hpos := (isFull_eq_false_iff _).1 hnf
          apply playLoop_returns fuel _ (moveCount + 1)
          · omega
          · simp only
            omega
          · simp only
            rcases hturn with h | h <;> simp [h]
          · exact hX
          · exact hO
    · simp only [hplaced, Bool.not_false, if_true]
      exact ⟨_, rfl⟩

/-- `Game::play` returns whenever every move request returns: nine iterations
suffice on the reset board. -/
theorem play_returns (g : Game) (startRand : Nat)
    (hX : ∀ n board, g.playerX.requestMove n board ≠ none)
    (hO : ∀ n board, g.playerO.requestMove n board ≠ none) :
    ∃ r, g.play startRand = some r := by
  simp only [Game.play]
  apply playLoop_returns 9 _ 0 (by decide)
  · simp only
    calc (Finset.univ.filter (fun j : Fin 9 => (Board.reset g.board).cells j = ' ')).card
        ≤ (Finset.univ : Finset (Fin 9)).card := Finset.card_filter_le _ _
      _ = 9 := by simp
  · simp only
    by_cases h : startRand % 2 = 0 <;> simp [h]
  · exact hX
  · exact hO

/-! ### Engine utilities -/

/-- The rule state after `setWeight`, entry by entry. -/
theorem setWeight_ruleData (lm : LearningModule) (rule : RuleType) (w : ℚ) (r : RuleType) :
    (lm.setWeight rule w).1.ruleData r =
      if r = rule then
        (match lm.ruleData rule with
          | none => some ⟨w, 0, 5⟩
          | some rs => some ⟨max 0 (min 1 w), rs.counter, rs.threshold⟩)
      else lm.ruleData r := by
  cases h : lm.ruleData rule with
  | none =>
    by_cases hq : r = rule
    · subst hq
      simp [LearningModule.setWeight, h, RuleStats.mk0]
    · simp [LearningModule.setWeight, h, Function.update_noteq hq, hq]
  | some rs0 =>
    by_cases hq : r = rule
    · subst hq
      simp [LearningModule.setWeight, h]
    · simp [LearningModule.setWeight, h, Function.update_noteq hq, hq]

/-- C25 (setWeight never fails): for every engine state, rule and value
`setWeight` returns `true`; on an unknown rule it creates an entry holding the
given value, counter `0` and the default threshold `5`; on a known rule the
counter and the threshold are kept and the weight becomes the value clamped to
`[0, 1]`; the entries of all other rules are unchanged. -/
theorem setWeight_never_fails (lm : LearningModule) (rule : RuleType) (w : ℚ) :
    (lm.setWeight rule w).2 = true ∧
    (lm.ruleData rule = none →
      (lm.setWeight rule w).1.ruleData rule = some ⟨w, 0, 5⟩) ∧
    (∀ rs : RuleStats, lm.ruleData rule = some rs →
      (lm.setWeight rule w).1.ruleData rule =
        some ⟨max 0 (min 1 w), rs.counter, rs.threshold⟩) ∧
    (∀ other : RuleType, other ≠ rule →
      (lm.setWeight rule w).1.ruleData other = lm.ruleData other) := by
  cases h : lm.ruleData rule with
  | none =>
    simp only [LearningModule.setWeight, h, RuleStats.mk0]
    refine ⟨trivial, fun _ => by simp, ?_, ?_⟩
    · intro rs hrs
      exact absurd hrs (by simp)
    · intro other ho
      simp [Function.update_noteq ho]
  | some rs0 =>
    simp only [LearningModule.setWeight, h]
    refine ⟨trivial, fun hn => absurd hn (by simp), ?_, ?_⟩
    · intro rs hrs
      cases hrs
      simp
    · intro other ho
      simp [Function.update_noteq ho]

/-- Witness of C25 on the engine that holds only Block: an unknown rule (Corner)
and a known one (Block). -/
theorem setWeight_never_fails_witness :
    (learnerBlockOnly (1/2)).ruleData RULE_CORNER = none ∧
    (learnerBlockOnly (1/2)).ruleData RULE_BLOCK = some ⟨1/2, 0, 5⟩ ∧
    RULE_CENTER ≠ RULE_BLOCK ∧
    ((learnerBlockOnly (1/2)).setWeight RULE_CORNER (1/4)).1.ruleData RULE_CORNER =
      some ⟨1/4, 0, 5⟩ ∧
    ((learnerBlockOnly (1/2)).setWeight RULE_BLOCK 2).1.ruleData RULE_BLOCK =
      some ⟨max 0 (min 1 2), (0 : ℚ), (5 : ℚ)⟩ ∧
    ((learnerBlockOnly (1/2)).setWeight RULE_BLOCK 2).1.ruleData RULE_CENTER =
      (learnerBlockOnly (1/2)).ruleData RULE_CENTER :=
  ⟨by decide, by decide!, by decide,
    (setWeight_never_fails (learnerBlockOnly (1/2)) RULE_CORNER (1/4)).2.1 (by decide),
    (setWeight_never_fails (learnerBlockOnly (1/2)) RULE_BLOCK 2).2.2.1 ⟨1/2, 0, 5⟩ (by decide!),
    (setWeight_never_fails (learnerBlockOnly (1/2)) RULE_BLOCK 2).2.2.2 RULE_CENTER (by decide)⟩

/-- C26 (resetCounters frame): after `resetCounters` every rule has counter
`0` and its former weight and threshold, the set of rules is the same, and the
learning rate, the training-category counters and the initial weights are
unchanged. -/
theorem resetCounters_frame (lm : LearningModule) :
    (∀ rule : RuleType, lm.resetCounters.ruleData rule =
      (lm.ruleData rule).map (fun rs => ⟨rs.weight, 0, rs.threshold⟩)) ∧
    (∀ rule : RuleType, lm.resetCounters.ruleData rule = none ↔ lm.ruleData rule = none) ∧
    lm.resetCounters.learningRate = lm.learningRate ∧
    lm.resetCounters.trainingStats = lm.trainingStats ∧
    lm.resetCounters.initialWeights = lm.initialWeights := by
  refine ⟨fun rule => rfl, fun rule => ?_, rfl, rfl, rfl⟩
  simp [LearningModule.resetCounters]

/-- C23 (normalization preserves relative order): for every engine state,
every pair of bounds and any two rules `a`, `b` with entries, if the weight of
`a` is at most the weight of `b` before `normalizeWeights minW maxW`, then both
rules still have entries after it and the weight of `a` is at most the weight
of `b`. -/
theorem normalizeWeights_monotone (lm : LearningModule) (minW maxW : ℚ) (a b : RuleType)
    (ra rb : RuleStats) (ha : lm.ruleData a = some ra) (hb : lm.ruleData b = some rb)
    (hle : ra.weight ≤ rb.weight) :
    ∃ ra2 rb2 : RuleStats,
      (lm.normalizeWeights minW maxW).ruleData a = some ra2 ∧
      (lm.normalizeWeights minW maxW).ruleData b = some rb2 ∧
      ra2.weight ≤ rb2.weight := by
  have hc : clampTo minW maxW ra.weight ≤ clampTo minW maxW rb.weight :=
    max_le_max (le_refl _) (min_le_min (le_refl _) hle)
  rw [normalizeWeights_ruleData, normalizeWeights_ruleData, ha, hb]
  refine ⟨_, _, rfl, rfl, ?_⟩
  simp only
  split_ifs with hS
  · exact div_le_div_of_nonneg_right hc (le_of_lt hS)
  · exact hc

/-- Witness of C23 on `learnerMain` with the rules Side and Block and the bounds
`0` and `1/5`. -/
theorem normalizeWeights_monotone_witness :
    (learnerMain.ruleData RULE_SIDE = some ⟨111/1000, 0, 5⟩ ∧
      learnerMain.ruleData RULE_BLOCK = some ⟨139/500, 0, 5⟩ ∧
      (111/1000 : ℚ) ≤ 139/500) ∧
    ∃ ra2 rb2 : RuleStats,
      (learnerMain.normalizeWeights 0 (1/5)).ruleData RULE_SIDE = some ra2 ∧
      (learnerMain.normalizeWeights 0 (1/5)).ruleData RULE_BLOCK = some rb2 ∧
      ra2.weight ≤ rb2.weight :=
  ⟨by decide!, normalizeWeights_monotone learnerMain 0 (1/5) RULE_SIDE RULE_BLOCK
    ⟨111/1000, 0, 5⟩ ⟨139/500, 0, 5⟩ (by decide!) (by decide!) (by decide!)⟩

/-! ### The evidence counters -/

/-- One update step keeps every counter strictly inside its band. -/
theorem counter_updateRule (L : ℚ) (hasWon : Bool) (rd : RuleType → Option RuleStats)
    (rule : RuleType)
    (h : ∀ r rs, rd r = some rs →
      0 < rs.threshold ∧ -rs.threshold < rs.counter ∧ rs.counter < rs.threshold) :
    ∀ r rs, updateRule L hasWon rd rule r = some rs →
      0 < rs.threshold ∧ -rs.threshold < rs.counter ∧ rs.counter < rs.threshold := by
  intro r rs hr
  rw [updateRule_eq_refStep] at hr
  by_cases hq : r = rule
  · subst hq
    simp only [if_true, Option.some.injEq] at hr
    have hbase : ∀ rs0 : RuleStats,
        (0 < rs0.threshold ∧ -rs0.threshold < rs0.counter ∧ rs0.counter < rs0.threshold) →
        0 < (refStep L hasWon rs0).threshold ∧
          -(refStep L hasWon rs0).threshold < (refStep L hasWon rs0).counter ∧
          (refStep L hasWon rs0).counter < (refStep L hasWon rs0).threshold := by
      intro rs0 ⟨hT, hlo, hhi⟩
      simp only [refStep]
      generalize (if hasWon = true then (1 : ℚ) else -1) = d
      split_ifs with h1 h2
      · exact ⟨hT, by simpa using hT, hT⟩
      · exact ⟨hT, by simpa using hT, hT⟩
      · refine ⟨hT, ?_, ?_⟩
        · simp only
          exact lt_of_not_le h2
        · simp only
          exact lt_of_not_le h1
    rw [← hr]
    cases hrd : rd r with
    | none =>
      simp only
      apply hbase
      norm_num
    | some rs0 =>
      simp only
      exact hbase rs0 (h r rs0 hrd)
  · simp only [if_neg hq] at hr
    exact h r rs hr

/-- A sequence of update steps keeps every counter strictly inside its band. -/
theorem counter_foldl_updateRule (L : ℚ) (hasWon : Bool) :
    ∀ (rules : List RuleType) (rd : RuleType → Option RuleStats),
      (∀ r rs, rd r = some rs →
        0 < rs.threshold ∧ -rs.threshold < rs.counter ∧ rs.counter < rs.threshold) →
      ∀ r rs, rules.foldl (updateRule L hasWon) rd r = some rs →
        0 < rs.threshold ∧ -rs.threshold < rs.counter ∧ rs.counter < rs.threshold
  | [], _, h => h
  | rule :: rest, rd, h =>
    counter_foldl_updateRule L hasWon rest _ (counter_updateRule L hasWon rd rule h)

/-- Each of the four engine operations keeps every counter strictly inside its
band. -/
theorem counter_run (lm : LearningModule) (call : EngineCall)
    (h : ∀ r rs, lm.ruleData r = some rs →
      0 < rs.threshold ∧ -rs.threshold < rs.counter ∧ rs.counter < rs.threshold) :
    ∀ r rs, (EngineCall.run lm call).ruleData r = some rs →
      0 < rs.threshold ∧ -rs.threshold < rs.counter ∧ rs.counter < rs.threshold := by
  intro r rs hr
  cases call with
  | updateFromGame history hasWon =>
    simp only [EngineCall.run] at hr
    rw [updateFromGame_ruleData, updateLoop_eq_foldl] at hr
    cases hl : (history.moves.flatMap (fun moveRecord => moveRecord.rules)).foldl
        (updateRule lm.learningRate hasWon) lm.ruleData r with
    | none =>
      rw [hl] at hr
      simp at hr
    | some rs0 =>
      rw [hl] at hr
      simp only [Option.map_some', Option.some.injEq] at hr
      have := counter_foldl_updateRule lm.learningRate hasWon _ lm.ruleData h r rs0 hl
      rw [← hr]
      exact this
  | setWeight rule w =>
    simp only [EngineCall.run] at hr
    rw [setWeight_ruleData] at hr
    by_cases hq : r = rule
    · subst hq
      simp only [if_true] at hr
      cases hrd : lm.ruleData r with
      | none =>
        rw [hrd] at hr
        cases hr
        norm_num
      | some rs0 =>
        rw [hrd] at hr
        cases hr
        exact h r rs0 hrd
    · rw [if_neg hq] at hr
      exact h r rs hr
  | resetCounters =>
    simp only [EngineCall.run, LearningModule.resetCounters] at hr
    cases hrd : lm.ruleData r with
    | none =>
      rw [hrd] at hr
      simp at hr
    | some rs0 =>
      rw [hrd] at hr
      simp only [Option.map_some', Option.some.injEq] at hr
      have := h r rs0 hrd
      rw [← hr]
      exact ⟨this.1, by simpa using this.1, this.1⟩
  | normalizeWeights minW maxW =>
    simp only [EngineCall.run] at hr
    rw [normalizeWeights_ruleData] at hr
    cases hrd : lm.ruleData r with
    | none =>
      rw [hrd] at hr
      simp at hr
    | some rs0 =>
      rw [hrd] at hr
      simp only [Option.map_some', Option.some.injEq] at hr
      rw [← hr]
      exact h r rs0 hrd

/-- Any sequence of engine operations keeps every counter strictly inside its
band. -/
theorem counter_calls :
    ∀ (calls : List EngineCall) (lm : LearningModule),
      (∀ r rs, lm.ruleData r = some rs →
        0 < rs.threshold ∧ -rs.threshold < rs.counter ∧ rs.counter < rs.threshold) →
      ∀ r rs, (calls.foldl EngineCall.run lm).ruleData r = some rs →
        0 < rs.threshold ∧ -rs.threshold < rs.counter ∧ rs.counter < rs.threshold
  | [], _, h => h
  | call :: rest, lm, h => counter_calls rest _ (counter_run lm call h)

/-- C22 (evidence-counter invariant): from an engine whose rules all have a
positive threshold and counter `0`, after any sequence of `updateFromGame`,
`setWeight`, `resetCounters` and `normalizeWeights` calls every rule satisfies
`-threshold < counter < threshold`; and in one update step of a rule, a counter
that reaches `threshold` or `-threshold` is stored as exactly `0` in the entry
that carries the adjusted weight, while a counter strictly inside the band is
stored as stepped and the weight is only clamped. -/
theorem counter_invariant (lm : LearningModule) (calls : List EngineCall)
    (hinit : ∀ r rs, lm.ruleData r = some rs → 0 < rs.threshold ∧ rs.counter = 0) :
    (∀ r rs, (calls.foldl EngineCall.run lm).ruleData r = some rs →
      -rs.threshold < rs.counter ∧ rs.counter < rs.threshold) ∧
    (∀ (L : ℚ) (hasWon : Bool) (rd : RuleType → Option RuleStats) (rule : RuleType)
        (rs : RuleStats), rd rule = some rs →
      (rs.threshold ≤ rs.counter + (if hasWon then 1 else -1) →
        updateRule L hasWon rd rule rule =
          some ⟨clampTo 0 1 (rs.weight + L), 0, rs.threshold⟩) ∧
      (¬ rs.threshold ≤ rs.counter + (if hasWon then 1 else -1) →
        rs.counter + (if hasWon then 1 else -1) ≤ -rs.threshold →
        updateRule L hasWon rd rule rule =
          some ⟨clampTo 0 1 (rs.weight - L), 0, rs.threshold⟩) ∧
      (¬ rs.threshold ≤ rs.counter + (if hasWon then 1 else -1) →
        ¬ rs.counter + (if hasWon then 1 else -1) ≤ -rs.threshold →
        updateRule L hasWon rd rule rule =
          some ⟨clampTo 0 1 rs.weight, rs.counter + (if hasWon then 1 else -1),
            rs.threshold⟩)) := by
  constructor
  · intro r rs hr
    have h0 : ∀ r rs, lm.ruleData r = some rs →
        0 < rs.threshold ∧ -rs.threshold < rs.counter ∧ rs.counter < rs.threshold := by
      intro r rs h
      obtain ⟨hT, hc⟩ := hinit r rs h
      rw [hc]
      exact ⟨hT, by simpa using hT, hT⟩
    exact (counter_calls calls lm h0 r rs hr).2
  · intro L hasWon rd rule rs hrd
    rw [updateRule_eq_refStep]
    simp only [if_true, hrd, refStep]
    refine ⟨fun h1 => by rw [if_pos h1], fun h1 h2 => by rw [if_neg h1, if_pos h2],
      fun h1 h2 => by rw [if_neg h1, if_neg h2]⟩

/-- Witness of C22 on `learnerMain` and a sequence of five calls that uses all
four operations. -/
theorem counter_invariant_witness :
    ([EngineCall.updateFromGame (historyOf (traceOf RULE_BLOCK 7)) true,
        EngineCall.setWeight RULE_WIN 2, EngineCall.resetCounters,
        EngineCall.normalizeWeights 0 1,
        EngineCall.updateFromGame (historyOf (traceOf RULE_SIDE 3)) false].foldl
      EngineCall.run learnerMain).ruleData RULE_SIDE = some ⟨37/680, -3, 5⟩ ∧
    ∀ r rs,
      ([EngineCall.updateFromGame (historyOf (traceOf RULE_BLOCK 7)) true,
          EngineCall.setWeight RULE_WIN 2, EngineCall.resetCounters,
          EngineCall.normalizeWeights 0 1,
          EngineCall.updateFromGame (historyOf (traceOf RULE_SIDE 3)) false].foldl
        EngineCall.run learnerMain).ruleData r = some rs →
      -rs.threshold < rs.counter ∧ rs.counter < rs.threshold :=
  ⟨by decide!,
    (counter_invariant learnerMain _ (by
      intro r rs h
      cases r <;> simp [learnerMain, RuleStats.mk0] at h <;> (rw [← h]; norm_num))).1⟩

/-! ### Board -/

/-- C28 (Board::place contract): `place idx p` returns `true` exactly when
`0 ≤ idx < 9` and cell `idx` is empty; when it returns `true`, cell `idx` holds
`p` and every other cell is unchanged; when it returns `false` the board is
unchanged. -/
theorem place_contract (b : Board) (idx : Int) (p : Char) :
    ((b.place idx p).2 = true ↔ (0 ≤ idx ∧ idx < 9) ∧ b.cell idx = ' ') ∧
    ((b.place idx p).2 = true →
      (b.place idx p).1.cell idx = p ∧
        ∀ j : Int, j ≠ idx → (b.place idx p).1.cell j = b.cell j) ∧
    ((b.place idx p).2 = false → (b.place idx p).1 = b) := by
  by_cases hr : idx < 0 ∨ idx ≥ 9
  · have hnr : ¬ (0 ≤ idx ∧ idx < 9) := by omega
    simp [Board.place, hr, hnr]
  · have hin : 0 ≤ idx ∧ idx < 9 := by omega
    by_cases hc : b.cell idx = ' '
    · simp only [Board.place, hr, hc, if_false, if_true, hin, and_self, true_and, forall_true_left,
        iff_true, Bool.true_eq_false, false_implies, and_true]
      constructor
      · simp [Board.cell, Board.setCell, hin.1, hin.2]
      · intro j hj
        by_cases hjr : 0 ≤ j ∧ j < 9
        · have : ¬ ((j.toNat : Int) = idx) := by omega
          simp [Board.cell, Board.setCell, hjr.1, hjr.2, this, hj]
        · simp [Board.cell, hjr]
    · simp [Board.place, hr, hc]

/-- C27 (invalid move forfeits): in an iteration of the loop of `Game::play`,
if the player to move returns an index outside `0..8` or the index of an
occupied cell, the loop returns at once with the opponent's symbol (`'O'` when
X moved, `'X'` when O moved) and the game object is unchanged: the move is
neither placed on the board nor appended to the match trace. -/
theorem playLoop_invalid_move (fuel : Nat) (g : Game) (moveCount : Nat) (move : Int)
    (rulesUsed : List RuleType)
    (hreq : (if g.currentTurn = 'X' then g.playerX else g.playerO).requestMove moveCount
      g.board = some (move, rulesUsed))
    (hinv : ¬ (0 ≤ move ∧ move < 9) ∨ g.board.cell move ≠ ' ') :
    Game.playLoop (fuel + 1) g moveCount =
      some (if g.currentTurn = 'X' then 'O' else 'X', g) := by
  have hfail : (g.board.place move g.currentTurn).2 = false := by
    cases hp : (g.board.place move g.currentTurn).2 with
    | false => rfl
    | true =>
      obtain ⟨h1, h2, _⟩ := place_success hp
      rcases hinv with h | h
      · exact absurd h1 h
      · exact absurd h2 h
  have hboard : (g.board.place move g.currentTurn).1 = g.board := by
    simp only [Board.place] at hfail ⊢
    split_ifs at hfail ⊢ <;> simp_all
  simp only [Game.playLoop, hreq, hfail, hboard, Bool.not_false, if_true]

/-- Witness of C27: a first player who answers `9`, and a match where O answers
the cell that X has just taken. -/
theorem playLoop_invalid_move_witness :
    ((Player.other 'X' (fun _ _ => 9)).requestMove 0 gameOutOfRange.board = some (9, []) ∧
      ¬ (0 ≤ (9 : Int) ∧ (9 : Int) < 9)) ∧
    Game.playLoop (8 + 1) gameOutOfRange 0 = some ('O', gameOutOfRange) ∧
    (gameOccupied.play 0).map (fun r =>
        (r.1, r.2.gameHistory.moves.map (fun m => m.move),
          cellIndices.map (fun i => r.2.board.cell i))) =
      some ('X', [0], ['X', ' ', ' ', ' ', ' ', ' ', ' ', ' ', ' ']) :=
  ⟨⟨by decide, by decide⟩,
    playLoop_invalid_move 8 gameOutOfRange 0 9 [] (by decide) (Or.inl (by decide)),
    by decide⟩

/-- Witness of C28 on the scenario board: cell `5` is empty, cell `0` is
occupied. -/
theorem place_contract_witness :
    (boardScenario.place 5 'O').2 = true ∧ (boardScenario.place 0 'O').2 = false ∧
    ((boardScenario.place 5 'O').1.cell 5 = 'O' ∧
      ∀ j : Int, j ≠ 5 → (boardScenario.place 5 'O').1.cell j = boardScenario.cell j) ∧
    (boardScenario.place 0 'O').1 = boardScenario :=
  ⟨by decide, by decide, (place_contract boardScenario 5 'O').2.1 (by decide),
    (place_contract boardScenario 0 'O').2.2 (by decide)⟩

/-- The result of `winner` as the chain of the eight line tests, in the order
of the source table. -/
theorem winner_chain (b : Board) :
    b.winner =
      if (b.cell 0 != ' ' && b.cell 0 == b.cell 1 && b.cell 0 == b.cell 2) = true then b.cell 0
      else if (b.cell 3 != ' ' && b.cell 3 == b.cell 4 && b.cell 3 == b.cell 5) = true then
        b.cell 3
      else if (b.cell 6 != ' ' && b.cell 6 == b.cell 7 && b.cell 6 == b.cell 8) = true then
        b.cell 6
      else if (b.cell 0 != ' ' && b.cell 0 == b.cell 3 && b.cell 0 == b.cell 6) = true then
        b.cell 0
      else if (b.cell 1 != ' ' && b.cell 1 == b.cell 4 && b.cell 1 == b.cell 7) = true then
        b.cell 1
      else if (b.cell 2 != ' ' && b.cell 2 == b.cell 5 && b.cell 2 == b.cell 8) = true then
        b.cell 2
      else if (b.cell 0 != ' ' && b.cell 0 == b.cell 4 && b.cell 0 == b.cell 8) = true then
        b.cell 0
      else if (b.cell 2 != ' ' && b.cell 2 == b.cell 4 && b.cell 2 == b.cell 6) = true then
        b.cell 2
      else ' ' := by
  simp only [Board.winner, List.find?, mul_zero, mul_one, zero_add, Int.reduceMul,
    Int.reduceAdd]
  generalize (b.cell 0 != ' ' && b.cell 0 == b.cell 1 && b.cell 0 == b.cell 2) = t1
  generalize (b.cell 3 != ' ' && b.cell 3 == b.cell 4 && b.cell 3 == b.cell 5) = t2
  generalize (b.cell 6 != ' ' && b.cell 6 == b.cell 7 && b.cell 6 == b.cell 8) = t3
  generalize (b.cell 0 != ' ' && b.cell 0 == b.cell 3 && b.cell 0 == b.cell 6) = t4
  generalize (b.cell 1 != ' ' && b.cell 1 == b.cell 4 && b.cell 1 == b.cell 7) = t5
  generalize (b.cell 2 != ' ' && b.cell 2 == b.cell 5 && b.cell 2 == b.cell 8) = t6
  generalize (b.cell 0 != ' ' && b.cell 0 == b.cell 4 && b.cell 0 == b.cell 8) = t7
  generalize (b.cell 2 != ' ' && b.cell 2 == b.cell 4 && b.cell 2 == b.cell 6) = t8
  cases t1 <;> cases t2 <;> cases t3 <;> cases t4 <;> cases t5 <;> cases t6 <;>
    cases t7 <;> cases t8 <;> simp

/-- The test of one line in `winner` says that the line is complete for the
symbol of its first cell. -/
theorem lineTest_iff (b : Board) (x y z : Int) :
    (b.cell x != ' ' && b.cell x == b.cell y && b.cell x == b.cell z) = true ↔
      lineComplete b (x, y, z) (b.cell x) := by
  simp only [lineComplete, Bool.and_eq_true, bne_iff_ne, ne_eq, beq_iff_eq, true_and]
  constructor
  · rintro ⟨⟨h1, h2⟩, h3⟩
    exact ⟨h1, h2.symm, h3.symm⟩
  · rintro ⟨h1, h2, h3⟩
    exact ⟨⟨h1, h2.symm⟩, h3.symm⟩

/-- A complete line passes the test of `winner`. -/
theorem lineComplete_test (b : Board) (x y z : Int) (s : Char)
    (h : lineComplete b (x, y, z) s) :
    (b.cell x != ' ' && b.cell x == b.cell y && b.cell x == b.cell z) = true ∧ b.cell x = s := by
  obtain ⟨h0, h1, h2, h3⟩ := h
  simp only [] at h1 h2 h3
  refine ⟨?_, h1⟩
  simp [h1, h2, h3, h0]

/-- A symbol returned by `winner` has a complete line. -/
theorem winner_complete (b : Board) (hw : b.winner ≠ ' ') :
    ∃ line ∈ winningLines, lineComplete b line b.winner := by
  rw [winner_chain] at hw ⊢
  split_ifs at hw ⊢ with h1 h2 h3 h4 h5 h6 h7 h8
  · exact ⟨(0, 1, 2), by simp [winningLines], (lineTest_iff b 0 1 2).1 h1⟩
  · exact ⟨(3, 4, 5), by simp [winningLines], (lineTest_iff b 3 4 5).1 h2⟩
  · exact ⟨(6, 7, 8), by simp [winningLines], (lineTest_iff b 6 7 8).1 h3⟩
  · exact ⟨(0, 3, 6), by simp [winningLines], (lineTest_iff b 0 3 6).1 h4⟩
  · exact ⟨(1, 4, 7), by simp [winningLines], (lineTest_iff b 1 4 7).1 h5⟩
  · exact ⟨(2, 5, 8), by simp [winningLines], (lineTest_iff b 2 5 8).1 h6⟩
  · exact ⟨(0, 4, 8), by simp [winningLines], (lineTest_iff b 0 4 8).1 h7⟩
  · exact ⟨(2, 4, 6), by simp [winningLines], (lineTest_iff b 2 4 6).1 h8⟩
  · exact absurd rfl hw

/-- With a complete line on the board `winner` returns a symbol. -/
theorem winner_of_complete (b : Board) (line : Int × Int × Int) (hl : line ∈ winningLines)
    (s : Char) (hc : lineComplete b line s) : b.winner ≠ ' ' := by
  have key : ∀ x y z : Int,
      (b.cell x != ' ' && b.cell x == b.cell y && b.cell x == b.cell z) = true →
      b.cell x ≠ ' ' := by
    intro x y z h
    exact ((lineTest_iff b x y z).1 h).1
  simp only [winningLines, List.mem_cons, List.mem_singleton, List.not_mem_nil, or_false] at hl
  rw [winner_chain]
  split_ifs with h1 h2 h3 h4 h5 h6 h7 h8
  · exact key _ _ _ h1
  · exact key _ _ _ h2
  · exact key _ _ _ h3
  · exact key _ _ _ h4
  · exact key _ _ _ h5
  · exact key _ _ _ h6
  · exact key _ _ _ h7
  · exact key _ _ _ h8
  · exfalso
    rcases hl with rfl | rfl | rfl | rfl | rfl | rfl | rfl | rfl
    · exact h1 (lineComplete_test b _ _ _ s hc).1
    · exact h2 (lineComplete_test b _ _ _ s hc).1
    · exact h3 (lineComplete_test b _ _ _ s hc).1
    · exact h4 (lineComplete_test b _ _ _ s hc).1
    · exact h5 (lineComplete_test b _ _ _ s hc).1
    · exact h6 (lineComplete_test b _ _ _ s hc).1
    · exact h7 (lineComplete_test b _ _ _ s hc).1
    · exact h8 (lineComplete_test b _ _ _ s hc).1

/-- C29 (Board::winner correctness): `winner` returns `' '` exactly when none
of the 8 lines has its three cells occupied by the same non-empty symbol;
otherwise the returned symbol occupies all three cells of one of the lines;
and when every complete line belongs to one side `s`, `winner` returns `s`. -/
theorem winner_correct (b : Board) :
    (b.winner = ' ' ↔ ∀ line ∈ winningLines, ∀ s : Char, ¬ lineComplete b line s) ∧
    (b.winner ≠ ' ' → ∃ line ∈ winningLines, lineComplete b line b.winner) ∧
    (∀ s : Char, (∃ line ∈ winningLines, lineComplete b line s) →
      (∀ line ∈ winningLines, ∀ t : Char, lineComplete b line t → t = s) →
      b.winner = s) := by
  refine ⟨⟨?_, ?_⟩, winner_complete b, ?_⟩
  · intro hw line hl s hc
    exact winner_of_complete b line hl s hc hw
  · intro hno
    by_contra hw
    obtain ⟨line, hl, hc⟩ := winner_complete b hw
    exact hno line hl _ hc
  · rintro s ⟨line, hl, hc⟩ huniq
    obtain ⟨line2, hl2, hc2⟩ := winner_complete b (winner_of_complete b line hl s hc)
    exact huniq line2 hl2 _ hc2

/-- Witness of C29: the scenario board after O completes the middle row, and a
full board without a complete line. -/
theorem winner_correct_witness :
    (boardScenario.place 5 'O').1.winner ≠ ' ' ∧
    (∃ line ∈ winningLines, lineComplete (boardScenario.place 5 'O').1 line 'O') ∧
    (∃ line ∈ winningLines,
      lineComplete (boardScenario.place 5 'O').1 line (boardScenario.place 5 'O').1.winner) ∧
    (boardScenario.place 5 'O').1.winner = 'O' ∧ boardFull.winner = ' ' ∧
    ∀ line ∈ winningLines, ∀ s : Char, ¬ lineComplete boardFull line s :=
  ⟨by decide, ⟨(3, 4, 5), by decide, by decide, by decide, by decide, by decide⟩,
    (winner_correct (boardScenario.place 5 'O').1).2.1 (by decide), by decide, by decide,
    (winner_correct boardFull).1.1 (by decide)⟩

/-! ### Win entry, `setWeight` on an unknown rule, and the saved file -/

/-- C21 (evaluation of the code): `learnerMain` holds the five adaptive rules
and no Win entry, yet after `updateFromGame` on a won trace whose move record
lists Win, `getWeights` has a Win key with weight `1/3`; the same happens in a
whole match: in `matchRulevWins` the last move of O is the override move,
recorded with Win as supporting heuristic, and after `playAndLearn` the global
engine has a Win entry with weight `1/3`, counter `1` and threshold `5`. -/
theorem updateFromGame_creates_win_entry :
    learnerMain.ruleData RULE_WIN = none ∧ learnerMain.getWeights RULE_WIN = none ∧
    (learnerMain.updateFromGame (historyOf [⟨5, [RULE_WIN]⟩]) true).getWeights RULE_WIN =
      some (1/3) ∧
    ((Game.new matchRulevWins.playerX matchRulevWins.playerO).playAndLearn learnerMain
        matchRulevWins.startRand).map (fun r =>
          r.2.2.2.moves.map (fun m => (m.move, m.rules))) =
      some [(0, []), (2, [RULE_CORNER, RULE_PREPARATION]), (1, []),
        (4, [RULE_CENTER, RULE_PREPARATION]), (3, []), (6, [RULE_WIN])] ∧
    ((Game.new matchRulevWins.playerX matchRulevWins.playerO).playAndLearn learnerMain
        matchRulevWins.startRand).map (fun r =>
          (r.1, r.2.2.1.getWeights RULE_WIN,
            (r.2.2.1.ruleData RULE_WIN).map (fun rs => (rs.counter, rs.threshold)))) =
      some ('O', some (1/3), some (1, 5)) := by
  decide!

/-- C24 (evaluation of the code): on an engine that has no Corner entry,
`setWeight RULE_CORNER (3/2)` stores the weight `3/2`, while `3/2` clamped to
`[0, 1]` is `1`; likewise `setWeight RULE_SIDE (-1/4)` stores `-1/4`, whose
clamped value is `0`. On the rule that is present, `setWeight RULE_BLOCK (3/2)`
stores the clamped value `1`. -/
theorem setWeight_unknown_rule_unclamped :
    (learnerBlockOnly (1/2)).ruleData RULE_CORNER = none ∧
    ((learnerBlockOnly (1/2)).setWeight RULE_CORNER (3/2)).1.ruleData RULE_CORNER =
      some ⟨3/2, 0, 5⟩ ∧
    max (0 : ℚ) (min 1 (3/2)) = 1 ∧
    ((learnerBlockOnly (1/2)).setWeight RULE_SIDE (-1/4)).1.ruleData RULE_SIDE =
      some ⟨-1/4, 0, 5⟩ ∧
    max (0 : ℚ) (min 1 (-1/4)) = 0 ∧
    ((learnerBlockOnly (1/2)).setWeight RULE_BLOCK (3/2)).1.ruleData RULE_BLOCK =
      some ⟨1, 0, 5⟩ := by
  decide!

/-- The data line written by `emit` for one rule. -/
theorem emit_dataLines (weights : RuleType → Option ℚ) (rule : RuleType) :
    dataLines ( WeightsIO.emit weights rule) =
      ((weights rule).map (fun w => (rule.toInt, fixed3 w))).toList := by
  cases h : weights rule <;> simp [ WeightsIO.emit, dataLines, h]

/-- The data lines of two blocks of lines written one after the other. -/
theorem dataLines_append (l1 l2 : List FileLine) :
    dataLines (l1 ++ l2) = dataLines l1 ++ dataLines l2 := by
  simp [dataLines, List.filterMap_append]

/-- C30 (save format, amended): when the file can be opened, the data lines
written by `WeightsIO::save` are, in the fixed order Block, Preparation, Center,
Corner, Side, one line `<rule id> <weight with 3 decimals>` for each of these
rules that has an entry in the engine, and none for the others; when all five
have entries they are exactly five, with ids `1, 5, 2, 3, 4`; no data line has
the id `0` of Win; and when the file cannot be opened nothing is written. -/
theorem save_data_lines (learner : LearningModule) (stamp : String) :
    ( WeightsIO.save learner true stamp).map dataLines =
      some ([RULE_BLOCK, RULE_PREPARATION, RULE_CENTER, RULE_CORNER, RULE_SIDE].filterMap
        (fun rule => (learner.ruleData rule).map (fun rs => (rule.toInt, fixed3 rs.weight)))) ∧
    (∀ b p c k s : RuleStats,
      learner.ruleData RULE_BLOCK = some b → learner.ruleData RULE_PREPARATION = some p →
      learner.ruleData RULE_CENTER = some c → learner.ruleData RULE_CORNER = some k →
      learner.ruleData RULE_SIDE = some s →
      ( WeightsIO.save learner true stamp).map dataLines =
        some [(1, fixed3 b.weight), (5, fixed3 p.weight), (2, fixed3 c.weight),
          (3, fixed3 k.weight), (4, fixed3 s.weight)]) ∧
    (∀ file, WeightsIO.save learner true stamp = some file →
      ∀ line ∈ dataLines file, line.1 ≠ 0) ∧
    WeightsIO.save learner false stamp = none := by
  have hmain : ( WeightsIO.save learner true stamp).map dataLines =
      some ([RULE_BLOCK, RULE_PREPARATION, RULE_CENTER, RULE_CORNER, RULE_SIDE].filterMap
        (fun rule => (learner.ruleData rule).map
          (fun rs => (rule.toInt, fixed3 rs.weight)))) := by
    simp only [ WeightsIO.save, Bool.not_true, Bool.false_eq_true, if_false, Option.map_some',
      dataLines_append, emit_dataLines, LearningModule.getWeights, Option.some.injEq]
    cases hb : learner.ruleData RULE_BLOCK <;> cases hp : learner.ruleData RULE_PREPARATION <;>
      cases hc : learner.ruleData RULE_CENTER <;> cases hk : learner.ruleData RULE_CORNER <;>
      cases hs : learner.ruleData RULE_SIDE <;>
      simp [dataLines, List.filterMap, hb, hp, hc, hk, hs]
  refine ⟨hmain, ?_, ?_, ?_⟩
  · intro b p c k s hb hp hc hk hs
    rw [hmain]
    simp [hb, hp, hc, hk, hs, RuleType.toInt]
  · intro file hfile line hline
    rw [hfile] at hmain
    simp only [Option.map_some', Option.some.injEq] at hmain
    rw [hmain, List.mem_filterMap] at hline
    obtain ⟨rule, hrule, hl⟩ := hline
    cases hrd : learner.ruleData rule with
    | none => simp [hrd] at hl
    | some rs =>
      simp only [hrd, Option.map_some', Option.some.injEq] at hl
      rw [← hl]
      simp only [List.mem_cons, List.mem_singleton, List.not_mem_nil, or_false] at hrule
      rcases hrule with rfl | rfl | rfl | rfl | rfl <;> simp [RuleType.toInt]
  · simp [ WeightsIO.save]

/-- Witness of C30 (amended) on `learnerMain`, which holds all five adaptive
rules; the last part shows the rounding to 3 decimals. -/
theorem save_data_lines_witness :
    (learnerMain.ruleData RULE_BLOCK = some ⟨139/500, 0, 5⟩ ∧
      learnerMain.ruleData RULE_PREPARATION = some ⟨111/500, 0, 5⟩ ∧
      learnerMain.ruleData RULE_CENTER = some ⟨111/500, 0, 5⟩ ∧
      learnerMain.ruleData RULE_CORNER = some ⟨167/1000, 0, 5⟩ ∧
      learnerMain.ruleData RULE_SIDE = some ⟨111/1000, 0, 5⟩) ∧
    ( WeightsIO.save learnerMain true ("2025-01-01 00:00:00")).map dataLines =
      some [(1, fixed3 (139/500)), (5, fixed3 (111/500)), (2, fixed3 (111/500)),
        (3, fixed3 (167/1000)), (4, fixed3 (111/1000))] ∧
    (fixed3 (139/500) = 139/500 ∧ fixed3 (1/3) = 333/1000 ∧ fixed3 (2/3) = 667/1000) :=
  ⟨by decide!,
    (save_data_lines learnerMain ("2025-01-01 00:00:00")).2.1 ⟨139/500, 0, 5⟩ ⟨111/500, 0, 5⟩
      ⟨111/500, 0, 5⟩ ⟨167/1000, 0, 5⟩ ⟨111/1000, 0, 5⟩
      (by decide!) (by decide!) (by decide!) (by decide!) (by decide!),
    by decide!⟩

/-- Counterexample to C30 as stated: for the engine that holds only Block the
file has one data line, and for an engine without rules it has none (only the
four comment lines are written). -/
theorem save_data_lines_counterexample :
    ( WeightsIO.save (learnerBlockOnly (1/2)) true ("2025-01-01 00:00:00")).map dataLines =
      some [(1, 1/2)] ∧
    ( WeightsIO.save learnerFresh true ("2025-01-01 00:00:00")).map dataLines = some [] ∧
    ( WeightsIO.save learnerFresh true ("2025-01-01 00:00:00")).map List.length = some 4 := by
  decide!

/-! ### LearningState -/

/-- The left fold of `std::accumulate` is the sum of the list. -/
theorem foldl_add_eq_sum (l : List ℚ) : l.foldl (fun acc w => acc + w) 0 = l.sum := by
  have h : ∀ (l : List ℚ) (a : ℚ), l.foldl (fun acc w => acc + w) a = a + l.sum := by
    intro l
    induction l with
    | nil => intro a; simp
    | cons x xs ih => intro a; rw [List.foldl_cons, ih, List.sum_cons]; ring
  rw [h l 0, zero_add]

/-- The weight vector after `update`. -/
theorem update_weights (s : LearningState) (v : List ℚ) :
    (s.update v).weights = if 0 < v.sum then v.map (fun w => w / v.sum) else v := by
  simp only [LearningState.update, LearningState.normalize, foldl_add_eq_sum, gt_iff_lt]
  split_ifs <;> rfl

/-- C33 (bulk update, amended): for every state and every vector `v`, of any
length, `update v` does not fail and leaves a weight vector of the length of
`v`; its entries are those of `v` divided by the sum of `v` when this sum is
strictly positive (they then sum to `1`), and those of `v` otherwise. The result
is `v` as supplied exactly when the sum of `v` is not positive or is `1`, and it
does not depend on the weights held before the call. -/
theorem update_length_mismatch (s : LearningState) (v : List ℚ) :
    (s.update v).weights.length = v.length ∧
    (s.update v).weights = (if 0 < v.sum then v.map (fun w => w / v.sum) else v) ∧
    (0 < v.sum → (s.update v).weights.sum = 1) ∧
    ((s.update v).weights = v ↔ (¬ 0 < v.sum ∨ v.sum = 1)) ∧
    (∀ s2 : LearningState, (s2.update v).weights = (s.update v).weights) := by
  have hw := update_weights s v
  have hsum : 0 < v.sum → (v.map (fun w => w / v.sum)).sum = 1 := by
    intro hpos
    have : (v.map (fun w => w / v.sum)).sum = v.sum / v.sum := by
      simp only [div_eq_mul_inv]
      rw [List.sum_map_mul_right, List.map_id']
    rw [this]
    exact div_self (ne_of_gt hpos)
  refine ⟨?_, hw, ?_, ?_, ?_⟩
  · rw [hw]
    split_ifs <;> simp
  · intro hpos
    rw [hw, if_pos hpos]
    exact hsum hpos
  · rw [hw]
    constructor
    · intro heq
      by_cases hpos : 0 < v.sum
      · right
        rw [if_pos hpos] at heq
        have h1 := hsum hpos
        rw [heq] at h1
        exact h1
      · exact Or.inl hpos
    · rintro (hn | h1)
      · rw [if_neg hn]
      · have hpos : 0 < v.sum := by rw [h1]; norm_num
        rw [if_pos hpos, h1]
        simp
  · intro s2
    rw [hw, update_weights s2 v]

/-- Witness of C33 (amended): a state with five weights updated with a vector of
two weights and with a vector of six zeros. -/
theorem update_length_mismatch_witness :
    (0 : ℚ) < [1/2, 1/4].sum ∧
    ((⟨[1/5, 1/5, 1/5, 1/5, 1/5]⟩ : LearningState).update [1/2, 1/4]).weights = [2/3, 1/3] ∧
    ((⟨[1/5, 1/5, 1/5, 1/5, 1/5]⟩ : LearningState).update [1/2, 1/4]).weights.sum = 1 ∧
    ((⟨[1/5, 1/5, 1/5, 1/5, 1/5]⟩ : LearningState).update [0, 0, 0, 0, 0, 0]).weights =
      [0, 0, 0, 0, 0, 0] :=
  ⟨by decide!, by decide!,
    (update_length_mismatch ⟨[1/5, 1/5, 1/5, 1/5, 1/5]⟩ [1/2, 1/4]).2.2.1 (by decide!),
    (update_length_mismatch ⟨[1/5, 1/5, 1/5, 1/5, 1/5]⟩ [0, 0, 0, 0, 0, 0]).2.2.2.1.2
      (Or.inl (by decide!))⟩

/-- Counterexample to C33 as stated: after `update [0.5, 0.25]` the weights are
`[2/3, 1/3]`, and after `update [1, 1, 1, 1, 1]` they are five times `0.2`. -/
theorem update_length_mismatch_counterexample :
    ((⟨[1/5, 1/5, 1/5, 1/5, 1/5]⟩ : LearningState).update [1/2, 1/4]).weights = [2/3, 1/3] ∧
    ((⟨[1/5, 1/5, 1/5, 1/5, 1/5]⟩ : LearningState).update [1/2, 1/4]).weights ≠ [1/2, 1/4] ∧
    ((⟨[1/5, 1/5, 1/5, 1/5, 1/5]⟩ : LearningState).update [1, 1, 1, 1, 1]).weights =
      [1/5, 1/5, 1/5, 1/5, 1/5] ∧
    ((⟨[1/5, 1/5, 1/5, 1/5, 1/5]⟩ : LearningState).update [1, 1, 1, 1, 1]).weights ≠
      [1, 1, 1, 1, 1] := by
  decide!

/-! ### WeightsIO::load -/

/-- The ids accepted by `isValidRuleId` are `1..5`. -/
theorem isValidRuleId_iff (id : Int) :
    WeightsIO.isValidRuleId id = true ↔ 1 ≤ id ∧ id ≤ 5 := by
  simp only [ WeightsIO.isValidRuleId, RuleType.toInt, Bool.or_eq_true, beq_iff_eq]
  omega

/-- The cast of the id of a rule is the rule. -/
theorem ofInt_toInt (r : RuleType) : RuleType.ofInt r.toInt = r := by
  cases r <;> rfl

/-- The id of the cast of a valid id is the id. -/
theorem toInt_ofInt (id : Int) (h1 : 1 ≤ id) (h5 : id ≤ 5) : (RuleType.ofInt id).toInt = id := by
  interval_cases id <;> rfl

/-- The id of an adaptive rule lies in `1..5`. -/
theorem toInt_range (r : RuleType) (hr : r ≠ RULE_WIN) : 1 ≤ r.toInt ∧ r.toInt ≤ 5 := by
  cases r <;> simp [RuleType.toInt] at hr ⊢

/-- A line that is not a data line with a valid id is skipped. -/
theorem loadLine_skip (st : LearningModule × Int) (line : FileLine)
    (h : ∀ id w, line = FileLine.data id w → ¬ (1 ≤ id ∧ id ≤ 5)) :
    WeightsIO.loadLine st line = st := by
  cases line with
  | blank => rfl
  | comment _ => rfl
  | unparsable _ => rfl
  | data id w =>
    have hv : WeightsIO.isValidRuleId id = false := by
      cases hb : WeightsIO.isValidRuleId id with
      | false => rfl
      | true => exact absurd ((isValidRuleId_iff id).1 hb) (h id w rfl)
    simp [ WeightsIO.loadLine, hv]

/-- A data line with a valid id calls `setWeight` and counts as loaded. -/
theorem loadLine_data (st : LearningModule × Int) (id : Int) (w : ℚ)
    (h1 : 1 ≤ id) (h5 : id ≤ 5) :
    WeightsIO.loadLine st (FileLine.data id w) =
      ((st.1.setWeight (RuleType.ofInt id) (max 0 (min 1 w))).1, st.2 + 1) := by
  have hv : WeightsIO.isValidRuleId id = true := (isValidRuleId_iff id).2 ⟨h1, h5⟩
  simp [ WeightsIO.loadLine, hv]

/-- The last value for a rule after one more line. -/
theorem lastValue_snoc (r : RuleType) (l : List FileLine) (line : FileLine) :
    lastValue r (l ++ [line]) =
      match line with
      | FileLine.data id w => if id = r.toInt then some w else lastValue r l
      | _ => lastValue r l := by
  cases line with
  | blank => simp [lastValue, dataLines]
  | comment _ => simp [lastValue, dataLines]
  | unparsable _ => simp [lastValue, dataLines]
  | data id w =>
    by_cases h : id = r.toInt
    · simp [lastValue, dataLines, List.filterMap_append, List.filter_append, h]
    · simp [lastValue, dataLines, List.filterMap_append, List.filter_append, h]

/-- The entry of an adaptive rule after the loop of `load`. -/
theorem loadFold_ruleData (lm : LearningModule) (n : Int) (r : RuleType) (hr : r ≠ RULE_WIN) :
    ∀ file : List FileLine,
      (file.foldl WeightsIO.loadLine (lm, n)).1.ruleData r =
        match lastValue r file with
        | none => lm.ruleData r
        | some v =>
          some ⟨clampTo 0 1 v, ((lm.ruleData r).map (fun rs => rs.counter)).getD 0,
            ((lm.ruleData r).map (fun rs => rs.threshold)).getD 5⟩ := by
  intro file
  induction file using List.reverseRecOn with
  | nil => simp [lastValue, dataLines]
  | append_singleton l line ih =>
    rw [List.foldl_append, List.foldl_cons, List.foldl_nil, lastValue_snoc]
    cases line with
    | blank => simpa [ WeightsIO.loadLine] using ih
    | comment _ => simpa [ WeightsIO.loadLine] using ih
    | unparsable _ => simpa [ WeightsIO.loadLine] using ih
    | data id w =>
      by_cases hv : 1 ≤ id ∧ id ≤ 5
      · rw [loadLine_data _ id w hv.1 hv.2]
        simp only []
        rw [setWeight_ruleData]
        by_cases hid : id = r.toInt
        · have hro : r = RuleType.ofInt id := by rw [hid, ofInt_toInt]
          rw [if_pos hro, if_pos hid, ← hro, ih]
          cases hl : lastValue r l with
          | none =>
            cases hrd : lm.ruleData r with
            | none => simp [clampTo]
            | some rs => simp [clampTo]
          | some v =>
            have := clampTo_unit_idem w
            simp only [clampTo] at this ⊢
            simp [this]
        · have hro : ¬ r = RuleType.ofInt id := by
            intro h
            apply hid
            rw [h, toInt_ofInt id hv.1 hv.2]
          rw [if_neg hro, if_neg hid]
          exact ih
      · rw [loadLine_skip _ _ (by
          intro id2 w2 h
          cases h
          exact hv)]
        have hid : ¬ id = r.toInt := by
          intro h
          apply hv
          rw [h]
          exact toInt_range r hr
        simp only [if_neg hid]
        exact ih

/-- The loop of `load` never touches the Win entry. -/
theorem loadFold_win (lm : LearningModule) (n : Int) :
    ∀ file : List FileLine,
      (file.foldl WeightsIO.loadLine (lm, n)).1.ruleData RULE_WIN = lm.ruleData RULE_WIN := by
  intro file
  induction file using List.reverseRecOn with
  | nil => rfl
  | append_singleton l line ih =>
    rw [List.foldl_append, List.foldl_cons, List.foldl_nil]
    by_cases hv : ∃ id w, line = FileLine.data id w ∧ 1 ≤ id ∧ id ≤ 5
    · obtain ⟨id, w, rfl, h1, h5⟩ := hv
      rw [loadLine_data _ id w h1 h5]
      simp only []
      rw [setWeight_ruleData]
      have hne : ¬ RULE_WIN = RuleType.ofInt id := by
        intro h
        have := toInt_ofInt id h1 h5
        rw [← h] at this
        simp [RuleType.toInt] at this
        omega
      rw [if_neg hne]
      exact ih
    · rw [loadLine_skip _ _ (by
        intro id w h hr
        exact hv ⟨id, w, h, hr.1, hr.2⟩)]
      exact ih

/-- The count `loaded` after the loop of `load`. -/
theorem loadFold_count (lm : LearningModule) (n : Int) :
    ∀ file : List FileLine,
      (file.foldl WeightsIO.loadLine (lm, n)).2 =
        n + ((dataLines file).countP (fun line => decide (1 ≤ line.1 ∧ line.1 ≤ 5)) : Nat) := by
  intro file
  induction file using List.reverseRecOn with
  | nil => simp [dataLines]
  | append_singleton l line ih =>
    rw [List.foldl_append, List.foldl_cons, List.foldl_nil]
    by_cases hv : ∃ id w, line = FileLine.data id w ∧ 1 ≤ id ∧ id ≤ 5
    · obtain ⟨id, w, rfl, h1, h5⟩ := hv
      rw [loadLine_data _ id w h1 h5]
      simp only []
      rw [ih]
      simp [dataLines, List.filterMap_append, List.countP_append, h1, h5]
      ring
    · rw [loadLine_skip _ _ (by
        intro id w h hr
        exact hv ⟨id, w, h, hr.1, hr.2⟩)]
      rw [ih]
      cases line with
      | blank => simp [dataLines, List.filterMap_append]
      | comment _ => simp [dataLines, List.filterMap_append]
      | unparsable _ => simp [dataLines, List.filterMap_append]
      | data id w =>
        have hn : ¬ (1 ≤ id ∧ id ≤ 5) := fun h => hv ⟨id, w, rfl, h.1, h.2⟩
        simp [dataLines, List.filterMap_append, List.countP_append, hn]

/-- The data lines of a file are its lines of the form `data id w`. -/
theorem mem_dataLines (file : List FileLine) (id : Int) (w : ℚ) :
    (id, w) ∈ dataLines file ↔ FileLine.data id w ∈ file := by
  simp only [dataLines, List.mem_filterMap]
  constructor
  · rintro ⟨line, hl, h⟩
    cases line <;> simp at h
    obtain ⟨rfl, rfl⟩ := h
    exact hl
  · intro h
    exact ⟨_, h, rfl⟩

/-- The flag returned by `load` on a readable file. -/
theorem load_flag (learner : LearningModule) (file : List FileLine) :
    ( WeightsIO.load learner true file).2 = true ↔
      ∃ id w, FileLine.data id w ∈ file ∧ 1 ≤ id ∧ id ≤ 5 := by
  simp only [ WeightsIO.load, Bool.not_true, Bool.false_eq_true, if_false, loadFold_count,
    zero_add, decide_eq_true_eq, gt_iff_lt, Nat.cast_pos, List.countP_pos_iff]
  constructor
  · rintro ⟨⟨id, w⟩, hm, h⟩
    exact ⟨id, w, (mem_dataLines file id w).1 hm, by simpa using h⟩
  · rintro ⟨id, w, hm, h1, h5⟩
    exact ⟨(id, w), (mem_dataLines file id w).2 hm, by simp [h1, h5]⟩

/-- The weight of an adaptive rule after `load` on a readable file. -/
theorem load_weight (learner : LearningModule) (file : List FileLine) (r : RuleType)
    (hr : r ≠ RULE_WIN) :
    ( WeightsIO.load learner true file).1.getWeights r =
      match lastValue r file with
      | some v => some (clampTo 0 1 v)
      | none => learner.getWeights r := by
  simp only [ WeightsIO.load, Bool.not_true, Bool.false_eq_true, if_false,
    LearningModule.getWeights]
  rw [loadFold_ruleData learner 0 r hr file]
  cases lastValue r file <;> rfl

/-- C31 (load with partial recovery): on a readable file `load` returns `true`
exactly when some line is a data line with an id in `1..5`; such a line sets the
weight of the rule with that id to the value clamped into `[0, 1]` and leaves
the other rules as they are; a blank line, a comment line, an unparsable line
and a data line with another id (such as `0`, the id of Win) leave the engine
and the count unchanged; after the call the weight of an adaptive rule is the
clamped value of the last data line with its id, or its former weight when
there is none, and the Win entry is untouched. On an unreadable file `load`
returns `false` and changes nothing. -/
theorem load_partial_recovery (learner : LearningModule) (file : List FileLine) :
    (( WeightsIO.load learner true file).2 = true ↔
      ∃ id w, FileLine.data id w ∈ file ∧ 1 ≤ id ∧ id ≤ 5) ∧
    (∀ (st : LearningModule × Int) (id : Int) (w : ℚ), 1 ≤ id → id ≤ 5 →
      (RuleType.ofInt id).toInt = id ∧
      ( WeightsIO.loadLine st (FileLine.data id w)).1.getWeights (RuleType.ofInt id) =
        some (max 0 (min 1 w)) ∧
      ∀ other : RuleType, other ≠ RuleType.ofInt id →
        ( WeightsIO.loadLine st (FileLine.data id w)).1.ruleData other = st.1.ruleData other) ∧
    (∀ (st : LearningModule × Int) (line : FileLine),
      (∀ id w, line = FileLine.data id w → ¬ (1 ≤ id ∧ id ≤ 5)) →
      WeightsIO.loadLine st line = st) ∧
    (∀ r : RuleType, r ≠ RULE_WIN →
      ( WeightsIO.load learner true file).1.getWeights r =
        match lastValue r file with
        | some v => some (max 0 (min 1 v))
        | none => learner.getWeights r) ∧
    ( WeightsIO.load learner true file).1.ruleData RULE_WIN = learner.ruleData RULE_WIN ∧
    WeightsIO.load learner false file = (learner, false) := by
  refine ⟨load_flag learner file, ?_, loadLine_skip, ?_, ?_, ?_⟩
  · intro st id w h1 h5
    refine ⟨toInt_ofInt id h1 h5, ?_, ?_⟩
    · rw [loadLine_data st id w h1 h5]
      simp only [LearningModule.getWeights]
      rw [setWeight_ruleData, if_pos rfl]
      cases st.1.ruleData (RuleType.ofInt id) with
      | none => rfl
      | some rs =>
        have := clampTo_unit_idem w
        simp only [clampTo] at this
        simp [this]
    · intro other ho
      rw [loadLine_data st id w h1 h5]
      simp only []
      rw [setWeight_ruleData, if_neg ho]
  · intro r hr
    exact load_weight learner file r hr
  · simp only [ WeightsIO.load, Bool.not_true, Bool.false_eq_true, if_false]
    exact loadFold_win learner 0 file
  · rfl

/-- Witness of C31: a file with skipped lines and two lines for Block loaded
into the engine of `main`, and a file without usable line. -/
theorem load_partial_recovery_witness :
    ( WeightsIO.load learnerMain true fileMixed).2 = true ∧
    ( WeightsIO.load learnerMain true fileUnusable).2 = false ∧
    allRules.map (fun r => ( WeightsIO.load learnerMain true fileMixed).1.getWeights r) =
      [none, some 1, some (111/500), some 0, some (111/1000), some (111/500)] ∧
    allRules.map (fun r => ( WeightsIO.load learnerMain true fileUnusable).1.getWeights r) =
      allRules.map (fun r => learnerMain.getWeights r) ∧
    ( WeightsIO.load learnerMain true fileMixed).1.getWeights RULE_BLOCK =
      (match lastValue RULE_BLOCK fileMixed with
        | some v => some (max 0 (min 1 v))
        | none => learnerMain.getWeights RULE_BLOCK) ∧
    lastValue RULE_BLOCK fileMixed = some (3/2) :=
  ⟨(load_partial_recovery learnerMain fileMixed).1.2 ⟨1, 7/10, by decide!, by decide, by decide⟩,
    by decide!, by decide!, by decide!,
    (load_partial_recovery learnerMain fileMixed).2.2.2.1 RULE_BLOCK (by decide),
    by decide!⟩

/-! ### Saving and loading again -/

/-- Printing with three decimals moves a value by at most `0.0005`. -/
theorem fixed3_close (x : ℚ) : |fixed3 x - x| ≤ 1/2000 := by
  have h0 : ((⌊x * 1000⌋ : Int) : ℚ) ≤ x * 1000 := Int.floor_le _
  have h1 : x * 1000 < ((⌊x * 1000⌋ : Int) : ℚ) + 1 := Int.lt_floor_add_one _
  simp only [fixed3]
  rw [abs_le]
  split_ifs with ha hb hc
  · constructor <;> linarith
  · push_cast
    constructor <;> linarith
  · have : x * 1000 - ((⌊x * 1000⌋ : Int) : ℚ) = 1/2 := by
      apply le_antisymm
      · exact not_lt.1 hb
      · exact not_lt.1 ha
    constructor <;> linarith
  · have : x * 1000 - ((⌊x * 1000⌋ : Int) : ℚ) = 1/2 := by
      apply le_antisymm
      · exact not_lt.1 hb
      · exact not_lt.1 ha
    push_cast
    constructor <;> linarith

/-- Printing a weight of `[0, 1]` and clamping the printed value moves it by at
most `0.001`. -/
theorem clamp_fixed3_close (w : ℚ) (h0 : 0 ≤ w) (h1 : w ≤ 1) :
    |clampTo 0 1 (fixed3 w) - w| ≤ 1/1000 := by
  have hc := abs_le.1 (fixed3_close w)
  rw [abs_le]
  simp only [clampTo]
  rcases le_total 1 (fixed3 w) with hA | hA
  · rw [min_eq_left hA, max_eq_right (by norm_num)]
    constructor <;> linarith
  · rw [min_eq_right hA]
    rcases le_total 0 (fixed3 w) with hB | hB
    · rw [max_eq_right hB]
      constructor <;> linarith
    · rw [max_eq_left hB]
      constructor <;> linarith

/-- The file written for an engine that holds the five adaptive rules. -/
theorem save_five (learner : LearningModule) (stamp : String) (b p c k s : RuleStats)
    (hb : learner.ruleData RULE_BLOCK = some b) (hp : learner.ruleData RULE_PREPARATION = some p)
    (hc : learner.ruleData RULE_CENTER = some c) (hk : learner.ruleData RULE_CORNER = some k)
    (hs : learner.ruleData RULE_SIDE = some s) :
    WeightsIO.save learner true stamp =
      some [FileLine.comment ("# RulEvolution TicTacToe Weights v1"),
        FileLine.comment ("# Saved: " ++ stamp),
        FileLine.comment ("# Format: <rule_id> <weight>"),
        FileLine.comment ("# RULE_WIN (0) is absolute and not saved"),
        FileLine.data 1 (fixed3 b.weight), FileLine.data 5 (fixed3 p.weight),
        FileLine.data 2 (fixed3 c.weight), FileLine.data 3 (fixed3 k.weight),
        FileLine.data 4 (fixed3 s.weight)] := by
  simp [ WeightsIO.save, WeightsIO.emit, LearningModule.getWeights, hb, hp, hc, hk, hs,
    RuleType.toInt]

/-- C32 (persistence round trip, amended): for every engine that holds the
five adaptive rules with weights in `[0, 1]`, `save` writes a file from which
`load`, into a fresh engine or any other one, returns `true` and sets for each
of the five adaptive rules a weight that differs from the original by at most
`0.001`. -/
theorem save_load_round_trip (learner target : LearningModule) (stamp : String)
    (hfive : ∀ r : RuleType, r ≠ RULE_WIN →
      ∃ rs, learner.ruleData r = some rs ∧ 0 ≤ rs.weight ∧ rs.weight ≤ 1) :
    ∃ file, WeightsIO.save learner true stamp = some file ∧
      ( WeightsIO.load target true file).2 = true ∧
      ∀ r : RuleType, r ≠ RULE_WIN →
        ∃ w0 w1 : ℚ, learner.getWeights r = some w0 ∧
          ( WeightsIO.load target true file).1.getWeights r = some w1 ∧
          |w1 - w0| ≤ 1/1000 := by
  obtain ⟨b, hb, hb0, hb1⟩ := hfive RULE_BLOCK (by decide)
  obtain ⟨p, hp, hp0, hp1⟩ := hfive RULE_PREPARATION (by decide)
  obtain ⟨c, hc, hc0, hc1⟩ := hfive RULE_CENTER (by decide)
  obtain ⟨k, hk, hk0, hk1⟩ := hfive RULE_CORNER (by decide)
  obtain ⟨s, hs, hs0, hs1⟩ := hfive RULE_SIDE (by decide)
  refine ⟨_, save_five learner stamp b p c k s hb hp hc hk hs, ?_, ?_⟩
  · rw [load_flag]
    exact ⟨1, fixed3 b.weight, by simp, by decide, by decide⟩
  · intro r hr
    rw [load_weight target _ r hr]
    cases r with
    | RULE_WIN => exact absurd rfl hr
    | RULE_BLOCK =>
      refine ⟨b.weight, clampTo 0 1 (fixed3 b.weight), by simp [LearningModule.getWeights, hb],
        ?_, clamp_fixed3_close _ hb0 hb1⟩
      simp [lastValue, dataLines, RuleType.toInt]
    | RULE_CENTER =>
      refine ⟨c.weight, clampTo 0 1 (fixed3 c.weight), by simp [LearningModule.getWeights, hc],
        ?_, clamp_fixed3_close _ hc0 hc1⟩
      simp [lastValue, dataLines, RuleType.toInt]
    | RULE_CORNER =>
      refine ⟨k.weight, clampTo 0 1 (fixed3 k.weight), by simp [LearningModule.getWeights, hk],
        ?_, clamp_fixed3_close _ hk0 hk1⟩
      simp [lastValue, dataLines, RuleType.toInt]
    | RULE_SIDE =>
      refine ⟨s.weight, clampTo 0 1 (fixed3 s.weight), by simp [LearningModule.getWeights, hs],
        ?_, clamp_fixed3_close _ hs0 hs1⟩
      simp [lastValue, dataLines, RuleType.toInt]
    | RULE_PREPARATION =>
      refine ⟨p.weight, clampTo 0 1 (fixed3 p.weight), by simp [LearningModule.getWeights, hp],
        ?_, clamp_fixed3_close _ hp0 hp1⟩
      simp [lastValue, dataLines, RuleType.toInt]

/-- The engine of `main` holds the five adaptive rules with weights in
`[0, 1]`. -/
theorem learnerMain_five :
    ∀ r : RuleType, r ≠ RULE_WIN →
      ∃ rs, learnerMain.ruleData r = some rs ∧ 0 ≤ rs.weight ∧ rs.weight ≤ 1 := by
  intro r hr
  cases r with
  | RULE_WIN => exact absurd rfl hr
  | RULE_BLOCK => exact ⟨_, rfl, by decide!, by decide!⟩
  | RULE_CENTER => exact ⟨_, rfl, by decide!, by decide!⟩
  | RULE_CORNER => exact ⟨_, rfl, by decide!, by decide!⟩
  | RULE_SIDE => exact ⟨_, rfl, by decide!, by decide!⟩
  | RULE_PREPARATION => exact ⟨_, rfl, by decide!, by decide!⟩

/-- Witness of C32 (amended) on the engine of `main` and a fresh engine; the
last part shows a weight `0.27785` coming back as `0.278`. -/
theorem save_load_round_trip_witness :
    (∀ r : RuleType, r ≠ RULE_WIN →
      ∃ rs, learnerMain.ruleData r = some rs ∧ 0 ≤ rs.weight ∧ rs.weight ≤ 1) ∧
    (∃ file, WeightsIO.save learnerMain true ("2025-01-01 00:00:00") = some file ∧
      ( WeightsIO.load learnerFresh true file).2 = true ∧
      ∀ r : RuleType, r ≠ RULE_WIN →
        ∃ w0 w1 : ℚ, learnerMain.getWeights r = some w0 ∧
          ( WeightsIO.load learnerFresh true file).1.getWeights r = some w1 ∧
          |w1 - w0| ≤ 1/1000) ∧
    ( WeightsIO.save (learnerMain.setRuleParameters RULE_BLOCK (5557/20000) 5) true
        ("2025-01-01 00:00:00")).map (fun file =>
          allRules.map (fun r => ( WeightsIO.load learnerFresh true file).1.getWeights r)) =
      some [none, some (139/500), some (111/500), some (167/1000), some (111/1000),
        some (111/500)] :=
  ⟨learnerMain_five,
    save_load_round_trip learnerMain learnerFresh ("2025-01-01 00:00:00") learnerMain_five,
    by decide!⟩

/-- Counterexample to C32 as stated: the engine of `main` after
`setRuleParameters(RULE_BLOCK, 1.5, 5.0)` holds the five adaptive rules; its
file has the line `1 1.500`, and loading it into a fresh engine gives Block the
weight `1`, at distance `0.5` from the original. -/
theorem save_load_round_trip_counterexample :
    allRules.map (fun r => learnerWide.getWeights r) =
      [none, some (3/2), some (111/500), some (167/1000), some (111/1000), some (111/500)] ∧
    ( WeightsIO.save learnerWide true ("2025-01-01 00:00:00")).map dataLines =
      some [(1, 3/2), (5, 111/500), (2, 111/500), (3, 167/1000), (4, 111/1000)] ∧
    ( WeightsIO.save learnerWide true ("2025-01-01 00:00:00")).map (fun file =>
        (( WeightsIO.load learnerFresh true file).2,
          ( WeightsIO.load learnerFresh true file).1.getWeights RULE_BLOCK)) =
      some (true, some 1) ∧
    ¬ |(1 : ℚ) - 3/2| ≤ 1/1000 := by
  decide!

/-! ### The order of the trace -/

/-- The entry of a rule after a sequence of update steps depends only on the
number of steps of that rule. -/
theorem foldl_updateRule_iterate (L : ℚ) (hasWon : Bool) (R : RuleType) :
    ∀ (vs : List RuleType) (rd : RuleType → Option RuleStats),
      vs.foldl (updateRule L hasWon) rd R =
        if vs.count R = 0 then rd R
        else some ((refStep L hasWon)^[vs.count R] ((rd R).getD RuleStats.default))
  | [], rd => by simp
  | v :: vs, rd => by
    rw [List.foldl_cons, foldl_updateRule_iterate L hasWon R vs]
    by_cases hv : R = v
    · subst hv
      have hstep : updateRule L hasWon rd R R =
          some (refStep L hasWon ((rd R).getD RuleStats.default)) := by
        rw [updateRule_eq_refStep]
        simp only [if_true]
        cases rd R <;> rfl
      rw [hstep, List.count_cons_self]
      simp only [Nat.succ_ne_zero, if_false, Option.getD_some, Function.iterate_succ_apply]
      split_ifs with h0
      · rw [h0]
        rfl
      · rfl
    · rw [updateRule_other L hasWon rd hv, List.count_cons_of_ne hv]

/-- The entry of a rule after the loops of `updateFromGame`. -/
theorem updateLoop_iterate (L : ℚ) (hasWon : Bool) (moves : List MoveRecord)
    (rd : RuleType → Option RuleStats) (R : RuleType) :
    updateLoop L hasWon moves rd R =
      if supportCount R moves = 0 then rd R
      else some ((refStep L hasWon)^[supportCount R moves] ((rd R).getD RuleStats.default)) := by
  rw [updateLoop_eq_foldl, foldl_updateRule_iterate]
  rfl

/-- Reordering the move records keeps the number of visits of every rule. -/
theorem supportCount_perm (R : RuleType) {m1 m2 : List MoveRecord} (h : m1.Perm m2) :
    supportCount R m1 = supportCount R m2 :=
  (List.Perm.flatMap_right (fun moveRecord : MoveRecord => moveRecord.rules) h).count_eq R

/-- Reordering the move records does not change the result of the loops. -/
theorem updateLoop_perm (L : ℚ) (hasWon : Bool) {m1 m2 : List MoveRecord} (h : m1.Perm m2)
    (rd : RuleType → Option RuleStats) :
    updateLoop L hasWon m1 rd = updateLoop L hasWon m2 rd := by
  funext R
  rw [updateLoop_iterate, updateLoop_iterate, supportCount_perm R h]

/-- Reordering the move records does not change the result of
`updateFromGame`. -/
theorem updateFromGame_perm (lm : LearningModule) (h1 h2 : GameHistory) (hasWon : Bool)
    (h : h1.moves.Perm h2.moves) : lm.updateFromGame h1 hasWon = lm.updateFromGame h2 hasWon := by
  simp only [LearningModule.updateFromGame, updateLoop_perm lm.learningRate hasWon h]

/-- C34 (order of the trace, amended): for every engine, outcome flag and two
traces made of the same move records in different orders, `updateFromGame`
gives the same engine (same weights, counters and thresholds), already before
the final normalization; every rule is stepped the same number of times, and its
entry after the loop is the result of that many steps applied to its initial
entry (the default entry when absent), whatever the order. -/
theorem updateFromGame_order_independent (lm : LearningModule) (h1 h2 : GameHistory)
    (hasWon : Bool) (hperm : h1.moves.Perm h2.moves) :
    lm.updateFromGame h1 hasWon = lm.updateFromGame h2 hasWon ∧
    updateLoop lm.learningRate hasWon h1.moves lm.ruleData =
      updateLoop lm.learningRate hasWon h2.moves lm.ruleData ∧
    (∀ R : RuleType, supportCount R h1.moves = supportCount R h2.moves) ∧
    (∀ R : RuleType, updateLoop lm.learningRate hasWon h1.moves lm.ruleData R =
      if supportCount R h1.moves = 0 then lm.ruleData R
      else some ((refStep lm.learningRate hasWon)^[supportCount R h1.moves]
        ((lm.ruleData R).getD RuleStats.default))) :=
  ⟨updateFromGame_perm lm h1 h2 hasWon hperm, updateLoop_perm lm.learningRate hasWon hperm _,
    fun R => supportCount_perm R hperm, fun R => updateLoop_iterate _ _ _ _ R⟩

/-- Witness of C34 (amended): a trace in which Block crosses its threshold and
Side reaches it, and the same records in reverse order. -/
theorem updateFromGame_order_independent_witness :
    (historyOf traceMixed).moves.Perm (historyOf traceMixed.reverse).moves ∧
    traceMixed.map (fun m => m.move) ≠ traceMixed.reverse.map (fun m => m.move) ∧
    learnerMain.updateFromGame (historyOf traceMixed) true =
      learnerMain.updateFromGame (historyOf traceMixed.reverse) true ∧
    allRules.map (fun r =>
        updateLoop learnerMain.learningRate true traceMixed learnerMain.ruleData r) =
      [none, some ⟨149/500, 1, 5⟩, some ⟨111/500, 0, 5⟩, some ⟨167/1000, 0, 5⟩,
        some ⟨131/1000, 0, 5⟩, some ⟨111/500, 0, 5⟩] ∧
    allRules.map (fun r =>
        updateLoop learnerMain.learningRate true traceMixed.reverse learnerMain.ruleData r) =
      [none, some ⟨149/500, 1, 5⟩, some ⟨111/500, 0, 5⟩, some ⟨167/1000, 0, 5⟩,
        some ⟨131/1000, 0, 5⟩, some ⟨111/500, 0, 5⟩] :=
  ⟨(List.reverse_perm traceMixed).symm, by decide,
    (updateFromGame_order_independent learnerMain (historyOf traceMixed)
      (historyOf traceMixed.reverse) true (List.reverse_perm traceMixed).symm).1,
    by decide!, by decide!⟩

/-- Refutation of C34 as stated: there are no engine, outcome flag and two traces
made of the same move records for which some rule is stepped a different number
of times, or the loops end in different entries, or `updateFromGame` ends with
different weights or counters. -/
theorem updateFromGame_order_sensitive_refuted :
    ¬ ∃ (lm : LearningModule) (hasWon : Bool) (h1 h2 : GameHistory),
      h1.moves.Perm h2.moves ∧
      ((∃ R : RuleType, supportCount R h1.moves ≠ supportCount R h2.moves) ∨
        updateLoop lm.learningRate hasWon h1.moves lm.ruleData ≠
          updateLoop lm.learningRate hasWon h2.moves lm.ruleData ∨
        (lm.updateFromGame h1 hasWon).ruleData ≠ (lm.updateFromGame h2 hasWon).ruleData) := by
  rintro ⟨lm, hasWon, h1, h2, hperm, ⟨R, hR⟩ | hloop | hend⟩
  · exact hR (supportCount_perm R hperm)
  · exact hloop (updateLoop_perm lm.learningRate hasWon hperm _)
  · exact hend (by rw [updateFromGame_perm lm h1 h2 hasWon hperm])

/-! ### The order of the contributions -/

/-- The candidate cells do not depend on the order of the contributions. -/
theorem candidateCells_perm {e1 e2 : List RuleEvaluation} (h : e1.Perm e2) :
    candidateCells e1 = candidateCells e2 := by
  simp only [candidateCells]
  apply List.filter_congr
  intro c _
  rw [Bool.eq_iff_iff]
  simp only [List.any_eq_true, decide_eq_true_eq]
  constructor
  · rintro ⟨e, he, hc⟩
    exact ⟨e, h.mem_iff.1 he, hc⟩
  · rintro ⟨e, he, hc⟩
    exact ⟨e, h.mem_iff.2 he, hc⟩

/-- The aggregate score of a cell does not depend on the order of the
contributions. -/
theorem cellScore_perm {e1 e2 : List RuleEvaluation} (h : e1.Perm e2) (c : Int) :
    cellScore e1 c = cellScore e2 c :=
  ((h.filter _).map _).sum_eq

/-- The rules of a cell are the same up to order. -/
theorem cellRules_perm {e1 e2 : List RuleEvaluation} (h : e1.Perm e2) (c : Int) :
    (cellRules e1 c).Perm (cellRules e2 c) :=
  (h.filter _).map _

/-- The map `scoreMap` does not depend on the order of the contributions. -/
theorem aggregate_fst_perm {e1 e2 : List RuleEvaluation} (h : e1.Perm e2) :
    (aggregate e1).1 = (aggregate e2).1 := by
  rw [aggregate_fst, aggregate_fst, candidateCells_perm h]
  apply List.map_congr_left
  intro c _
  rw [cellScore_perm h c]

/-- A permutation of an empty list is empty. -/
theorem isEmpty_perm {e1 e2 : List RuleEvaluation} (h : e1.Perm e2) :
    e1.isEmpty = e2.isEmpty := by
  cases e1 with
  | nil =>
    rw [List.nil_perm.1 h]
  | cons a l =>
    cases e2 with
    | nil => exact absurd (List.perm_nil.1 h) (by simp)
    | cons b l2 => rfl

/-- The lookup of the chosen cell in `ruleMap` gives the same rules up to
order. -/
theorem ruleLookup_perm {e1 e2 : List RuleEvaluation} (h : e1.Perm e2) (c : Int) :
    (match mapFind c (aggregate e1).2 with
      | some rules => (c, rules)
      | none => (c, [])).1 =
    (match mapFind c (aggregate e2).2 with
      | some rules => (c, rules)
      | none => (c, [])).1 ∧
    (match mapFind c (aggregate e1).2 with
      | some rules => (c, rules)
      | none => (c, [])).2.Perm
    (match mapFind c (aggregate e2).2 with
      | some rules => (c, rules)
      | none => (c, [])).2 := by
  rw [aggregate_snd, aggregate_snd, mapFind_map_keys, mapFind_map_keys, candidateCells_perm h]
  by_cases hc : c ∈ candidateCells e2
  · simp only [hc, if_true]
    exact ⟨trivial, cellRules_perm h c⟩
  · simp only [hc, if_false]
    exact ⟨trivial, List.Perm.refl _⟩

/-- The selection on two lists of contributions that are permutations of each
other. -/
theorem chooseMoveWith_perm (p : RulEvolutionPlayer) (board : Board) (draw : ℚ)
    {e1 e2 : List RuleEvaluation} (h : e1.Perm e2) :
    (p.chooseMoveWith board e1 draw).1 = (p.chooseMoveWith board e2 draw).1 ∧
    (p.chooseMoveWith board e1 draw).2.Perm (p.chooseMoveWith board e2 draw).2 := by
  simp only [RulEvolutionPlayer.chooseMoveWith]
  cases winningCell board p.symbol with
  | some i => exact ⟨rfl, List.Perm.refl _⟩
  | none =>
    simp only [isEmpty_perm h, aggregate_fst_perm h]
    by_cases hE : e2.isEmpty = true
    · simp only [hE, if_true]
      exact ⟨trivial, List.Perm.refl _⟩
    · simp only [hE, if_false]
      exact ruleLookup_perm h _

/-- C35 (aggregation is order-independent): for every board, player and draw,
running `chooseMove` on any permutation of the list returned by `evaluate`
builds the same `scoreMap` (the same aggregate score for every cell), returns
the same cell, and reports the same supporting heuristics up to their order in
the list (so the same set). -/
theorem chooseMove_order_independent (p : RulEvolutionPlayer) (board : Board) (draw : ℚ)
    (evals : List RuleEvaluation)
    (hperm : evals.Perm (evaluate board p.symbol p.state.weights)) :
    (aggregate evals).1 = (aggregate (evaluate board p.symbol p.state.weights)).1 ∧
    (∀ c : Int, cellScore evals c = cellScore (evaluate board p.symbol p.state.weights) c) ∧
    (p.chooseMoveWith board evals draw).1 = (p.chooseMove board draw).1 ∧
    (p.chooseMoveWith board evals draw).2.Perm (p.chooseMove board draw).2 ∧
    (∀ r : RuleType, r ∈ (p.chooseMoveWith board evals draw).2 ↔
      r ∈ (p.chooseMove board draw).2) ∧
    p.chooseMove board draw =
      p.chooseMoveWith board (evaluate board p.symbol p.state.weights) draw := by
  have hcm : p.chooseMove board draw =
      p.chooseMoveWith board (evaluate board p.symbol p.state.weights) draw := rfl
  have hsel := chooseMoveWith_perm p board draw hperm
  rw [← hcm] at hsel
  exact ⟨aggregate_fst_perm hperm, cellScore_perm hperm, hsel.1, hsel.2,
    fun r => hsel.2.mem_iff, hcm⟩

/-- Witness of C35: the contributions for the board `O _ _ / _ _ _ / _ _ _` in
reverse order; the cell is the same and the two supporting heuristics come in
the other order. -/
theorem chooseMove_order_independent_witness :
    (evaluate boardOpponentCorner playerO.symbol playerO.state.weights).reverse.Perm
      (evaluate boardOpponentCorner playerO.symbol playerO.state.weights) ∧
    (evaluate boardOpponentCorner playerO.symbol playerO.state.weights).reverse ≠
      evaluate boardOpponentCorner playerO.symbol playerO.state.weights ∧
    (playerO.chooseMoveWith boardOpponentCorner
        (evaluate boardOpponentCorner playerO.symbol playerO.state.weights).reverse (1/2)).1 =
      (playerO.chooseMove boardOpponentCorner (1/2)).1 ∧
    (playerO.chooseMoveWith boardOpponentCorner
        (evaluate boardOpponentCorner playerO.symbol playerO.state.weights).reverse (1/2)).2.Perm
      (playerO.chooseMove boardOpponentCorner (1/2)).2 ∧
    playerO.chooseMove boardOpponentCorner (1/2) = (4, [RULE_CENTER, RULE_PREPARATION]) ∧
    playerO.chooseMoveWith boardOpponentCorner
        (evaluate boardOpponentCorner playerO.symbol playerO.state.weights).reverse (1/2) =
      (4, [RULE_PREPARATION, RULE_CENTER]) :=
  ⟨List.reverse_perm _, by decide!,
    (chooseMove_order_independent playerO boardOpponentCorner (1/2) _ (List.reverse_perm _)).2.2.1,
    (chooseMove_order_independent playerO boardOpponentCorner (1/2) _
      (List.reverse_perm _)).2.2.2.1,
    by decide!, by decide!⟩
end RulEvolution
